import Mathlib

/-!
Harris lock-free linked list (linkedlist_harris.h): sequential semantics.

A shallow embedding of `LinkedListHarris<K,V>` executed by one thread.

* Keys and values are integers (`K = V = Int`); the bounds supplied by
  `K_MAX_MIN` are parameters `kmin`, `kmax` of the constructor.
* A `long` pointer word is a natural number; the mark lives in bit 0.
* The heap is a list of nodes; cell `i` is the node at address `2 * (i + 1)`,
  so that node addresses are non-null and have a free low-order bit.
  Dereferencing anything else (null, an odd word, an address past the heap)
  is a fault, rendered as `none`.
* Loops carry a fuel argument; running out of fuel is `none` as well.
* The `#if GC == 1` blocks only hand unlinked nodes to the external
  reclamation facility and touch no list field; they are left out, and
  allocation never reuses an address.
-/

namespace Harris

/-- A list node (`node_ll_linked<K,V>` of linklist_node_linked.h): key, value
and the `next` word, which is the successor address with the mark in bit 0. -/
structure node_ll_linked where
  key : Int
  val : Int
  next : Nat
deriving DecidableEq

/-- The list object: the `head` pointer together with the heap its nodes
live in. -/
structure LinkedListHarris where
  head : Nat
  mem : List node_ll_linked
deriving DecidableEq

/-- Source: `return (int) (i & 0x1L);` -/
def is_marked_ref (i : Nat) : Nat := i &&& 1

/-- Source: `i &= ~0x1L; return i;` -/
def unset_mark (i : Nat) : Nat := Nat.ldiff i 1

/-- Source: `i |= 0x1L; return i;` -/
def set_mark (i : Nat) : Nat := i ||| 1

/-- Source: `return w & ~0x1L;` (bitwise and-not with 1). -/
def get_unmarked_ref (w : Nat) : Nat := Nat.ldiff w 1

/-- Source: `return w | 0x1L;` -/
def get_marked_ref (w : Nat) : Nat := w ||| 1

/-- Read of the node behind pointer `p`: defined for even non-null addresses
inside the heap. -/
def deref (mem : List node_ll_linked) (p : Nat) : Option node_ll_linked :=
  if p % 2 = 0 ∧ p ≠ 0 then mem[p / 2 - 1]? else none

/-- The heap after the `next` word of the node `n` stored at address `p` is
overwritten with `w`; key and value stay. -/
def write_next (mem : List node_ll_linked) (p : Nat) (n : node_ll_linked) (w : Nat) :
    List node_ll_linked :=
  mem.set (p / 2 - 1) (node_ll_linked.mk n.key n.val w)

/-- Plain store `p->next = w`. -/
def store_next (mem : List node_ll_linked) (p w : Nat) : Option (List node_ll_linked) :=
  match deref mem p with
  | none => none
  | some n => some (write_next mem p n w)

/-- Modelled from the spec: the macro ATOMIC_CAS_MB of atomic_ops.h, which is
not in the source tree. `compareAndSwap(location, expected, new) -> bool` on
the `next` word of the node at `p`: the word is replaced and `true` returned
exactly when it equals `expected`. -/
def ATOMIC_CAS_MB (mem : List node_ll_linked) (p expected new : Nat) :
    Option (Bool × List node_ll_linked) :=
  match deref mem p with
  | none => none
  | some n =>
    if n.next = expected then some (true, write_next mem p n new)
    else some (false, mem)

/-- Modelled from the spec: allocate_node_ll_linked of linklist_node_linked.h,
which is not in the source tree. `allocate(key, value, next) -> Node`: a fresh
node with the given fields, at the first address past the heap. -/
def allocate_node_ll_linked (mem : List node_ll_linked) (key val : Int) (next : Nat) :
    Nat × List node_ll_linked :=
  (2 * (mem.length + 1), mem ++ [node_ll_linked.mk key val next])

/-- Modelled from the spec: initialize_node_ll_linked of linklist_node_linked.h,
which is not in the source tree; it builds a node like allocate_node_ll_linked
(it differs in the allocator it draws from). -/
def initialize_node_ll_linked (mem : List node_ll_linked) (key val : Int) (next : Nat) :
    Nat × List node_ll_linked :=
  (2 * (mem.length + 1), mem ++ [node_ll_linked.mk key val next])

/-- Inner do-while loop of harris_search (source lines 73-84) on the loop
variables `t`, `t_next`, `*left_node`, `left_node_next`; the result is
`(t, *left_node, left_node_next)` at loop exit. -/
def harris_walk (mem : List node_ll_linked) (key : Int) :
    Nat → Nat → Nat → Nat → Nat → Option (Nat × Nat × Nat)
  | 0, _, _, _, _ => none
  | fuel + 1, t, t_next, left_node, left_node_next =>
    let left_node1 := if is_marked_ref t_next = 0 then t else left_node
    let left_node_next1 := if is_marked_ref t_next = 0 then t_next else left_node_next
    let t1 := get_unmarked_ref t_next
    match deref mem t1 with
    | none => none
    | some n =>
      if n.next = 0 then some (t1, left_node1, left_node_next1)
      else if is_marked_ref n.next ≠ 0 ∨ n.key < key then
        harris_walk mem key fuel t1 n.next left_node1 left_node_next1
      else some (t1, left_node1, left_node_next1)

/-- Outer retry loop of harris_search (source lines 68-113). The result is
`(right_node, *left_node, list)`. -/
def harris_search_loop (key : Int) :
    Nat → LinkedListHarris → Nat → Nat → Option (Nat × Nat × LinkedListHarris)
  | 0, _, _, _ => none
  | fuel + 1, s, left_node, left_node_next =>
    match deref s.mem s.head with
    | none => none
    | some h =>
      match harris_walk s.mem key fuel s.head h.next left_node left_node_next with
      | none => none
      | some (right_node, left_node1, left_node_next1) =>
        if left_node_next1 = right_node then
          match deref s.mem right_node with
          | none => none
          | some r =>
            if r.next ≠ 0 ∧ is_marked_ref r.next ≠ 0 then
              harris_search_loop key fuel s left_node1 left_node_next1
            else some (right_node, left_node1, s)
        else
          match ATOMIC_CAS_MB s.mem left_node1 left_node_next1 right_node with
          | none => none
          | some (true, mem1) =>
            match deref mem1 right_node with
            | none => none
            | some r =>
              if ¬ (r.next ≠ 0 ∧ is_marked_ref r.next ≠ 0) then
                some (right_node, left_node1, LinkedListHarris.mk s.head mem1)
              else
                harris_search_loop key fuel (LinkedListHarris.mk s.head mem1)
                  left_node1 left_node_next1
          | some (false, mem1) =>
            harris_search_loop key fuel (LinkedListHarris.mk s.head mem1)
              left_node1 left_node_next1

/-- Source `harris_search(key, &left_node)`: `left_node_next = head`, then the
retry loop. The argument `left_node` is the caller's current `left_node`. -/
def harris_search (fuel : Nat) (s : LinkedListHarris) (key : Int) (left_node : Nat) :
    Option (Nat × Nat × LinkedListHarris) :=
  harris_search_loop key fuel s left_node s.head

/-- Source `harris_find(key)`. -/
def harris_find (fuel : Nat) (s : LinkedListHarris) (key : Int) :
    Option (Int × LinkedListHarris) :=
  match harris_search fuel s key s.head with
  | none => none
  | some (right_node, _, s1) =>
    match deref s1.mem right_node with
    | none => none
    | some r => if r.next = 0 ∨ r.key ≠ key then some (0, s1) else some (r.val, s1)

/-- Retry loop of harris_insert (source lines 136-159); `newnode = 0` is the
null pointer. -/
def harris_insert_loop (key val : Int) :
    Nat → LinkedListHarris → Nat → Nat → Option (Int × LinkedListHarris)
  | 0, _, _, _ => none
  | fuel + 1, s, newnode, left_node =>
    match harris_search fuel s key left_node with
    | none => none
    | some (right_node, left_node1, s1) =>
      match deref s1.mem right_node with
      | none => none
      | some r =>
        if r.key = key then some (0, s1)
        else
          let alloc : Option (Nat × List node_ll_linked) :=
            if newnode = 0 then some (allocate_node_ll_linked s1.mem key val right_node)
            else (store_next s1.mem newnode right_node).map (fun m => (newnode, m))
          match alloc with
          | none => none
          | some (newnode1, mem2) =>
            match ATOMIC_CAS_MB mem2 left_node1 right_node newnode1 with
            | none => none
            | some (true, mem3) => some (1, LinkedListHarris.mk s1.head mem3)
            | some (false, mem3) =>
              harris_insert_loop key val fuel (LinkedListHarris.mk s1.head mem3)
                newnode1 left_node1

/-- Source `harris_insert(key, val)`. -/
def harris_insert (fuel : Nat) (s : LinkedListHarris) (key val : Int) :
    Option (Int × LinkedListHarris) :=
  harris_insert_loop key val fuel s 0 s.head

/-- Tail of harris_remove after the loop is left through `break` (source lines
185-196): the unlink compare-and-swap, with the fallback traversal. -/
def harris_remove_unlink (fuel : Nat) (s : LinkedListHarris) (key : Int)
    (left_node right_node right_node_next : Nat) (ret : Int) :
    Option (Int × LinkedListHarris) :=
  match ATOMIC_CAS_MB s.mem left_node right_node right_node_next with
  | none => none
  | some (true, mem1) => some (ret, LinkedListHarris.mk s.head mem1)
  | some (false, mem1) =>
    match harris_search fuel (LinkedListHarris.mk s.head mem1) key left_node with
    | none => none
    | some (_, _, s2) => some (ret, s2)

/-- Retry loop of harris_remove (source lines 168-184), continued by
harris_remove_unlink where the source leaves the loop through `break`. -/
def harris_remove_loop (key : Int) :
    Nat → LinkedListHarris → Nat → Option (Int × LinkedListHarris)
  | 0, _, _ => none
  | fuel + 1, s, left_node =>
    match harris_search fuel s key left_node with
    | none => none
    | some (right_node, left_node1, s1) =>
      match deref s1.mem right_node with
      | none => none
      | some r =>
        if r.key ≠ key then some (0, s1)
        else
          let right_node_next := r.next
          if is_marked_ref right_node_next = 0 then
            match ATOMIC_CAS_MB s1.mem right_node right_node_next
                (get_marked_ref right_node_next) with
            | none => none
            | some (true, mem2) =>
              match deref mem2 right_node with
              | none => none
              | some r2 =>
                harris_remove_unlink fuel (LinkedListHarris.mk s1.head mem2) key
                  left_node1 right_node right_node_next r2.val
            | some (false, mem2) =>
              harris_remove_loop key fuel (LinkedListHarris.mk s1.head mem2) left_node1
          else harris_remove_loop key fuel s1 left_node1

/-- Source `harris_remove(key)`. -/
def harris_remove (fuel : Nat) (s : LinkedListHarris) (key : Int) :
    Option (Int × LinkedListHarris) :=
  harris_remove_loop key fuel s s.head

/-- Constructor `LinkedListHarris()`: the tail sentinel (maximum key, value 0,
null successor), then the head sentinel in front of it. The block obtained by
the leading `malloc` is overwritten by `head = min` and plays no part. -/
def LinkedListHarris.new (kmin kmax : Int) : LinkedListHarris :=
  let max := initialize_node_ll_linked [] kmax 0 0
  let min := initialize_node_ll_linked max.2 kmin 0 max.1
  LinkedListHarris.mk min.1 min.2

/-- Source `search(key)` with `LOCKFREE` defined. -/
def search (fuel : Nat) (s : LinkedListHarris) (key : Int) : Option (Int × LinkedListHarris) :=
  harris_find fuel s key

/-- Source `insert(key, val)` with `LOCKFREE` defined. -/
def insert (fuel : Nat) (s : LinkedListHarris) (key val : Int) :
    Option (Int × LinkedListHarris) :=
  harris_insert fuel s key val

/-- Source `remove(key)` with `LOCKFREE` defined. -/
def remove (fuel : Nat) (s : LinkedListHarris) (key : Int) : Option (Int × LinkedListHarris) :=
  harris_remove fuel s key

/-- While loop of `length()` (source lines 298-304). The `int` counter is
unbounded here: it would take 2^31 live nodes to overflow it. -/
def length_loop (mem : List node_ll_linked) : Nat → Nat → Int → Option Int
  | 0, _, _ => none
  | fuel + 1, node, size =>
    match deref mem node with
    | none => none
    | some n =>
      if get_unmarked_ref n.next ≠ 0 then
        length_loop mem fuel (get_unmarked_ref n.next)
          (if is_marked_ref n.next = 0 then size + 1 else size)
      else some size

/-- Source `length()`; the list is returned along with the count so that the
absence of writes can be stated. -/
def length (fuel : Nat) (s : LinkedListHarris) : Option (Int × LinkedListHarris) :=
  match deref s.mem s.head with
  | none => none
  | some h =>
    match length_loop s.mem fuel (get_unmarked_ref h.next) 0 with
    | none => none
    | some size => some (size, s)

/-! ## Specification vocabulary -/

/-- Heap layout of a chain: `Seg mem p c q` says that following `next` words
(marks stripped) from the pointer `p` visits exactly the nodes `c`, each
listed with its address, and that the last `next` word, stripped, is `q`. -/
def Seg (mem : List node_ll_linked) : Nat → List (Nat × node_ll_linked) → Nat → Prop
  | p, [], q => p = q
  | p, x :: rest, q =>
    p = x.1 ∧ deref mem x.1 = some x.2 ∧ Seg mem (get_unmarked_ref x.2.next) rest q

/-- Well-formed list state with sentinel keys `lo`, `hi` and chain `c`: the
nodes reachable from `head` (marked ones included) are `c`, their keys are
strictly ascending, the first is the unmarked head sentinel (key `lo`, value
0) and the last is the tail sentinel (key `hi`, value 0, null successor). -/
structure WF (lo hi : Int) (s : LinkedListHarris) (c : List (Nat × node_ll_linked)) : Prop where
  seg : Seg s.mem s.head c 0
  sorted : c.Pairwise (fun x y => x.2.key < y.2.key)
  head_ok : ∃ x, c.head? = some x ∧ x.2.key = lo ∧ x.2.val = 0 ∧ is_marked_ref x.2.next = 0
  tail_ok : ∃ x, c.getLast? = some x ∧ x.2.key = hi ∧ x.2.val = 0 ∧ x.2.next = 0
  bounds : lo < hi

/-- A chain entry is logically present when its `next` word is unmarked. -/
def unmarked (x : Nat × node_ll_linked) : Bool := decide (is_marked_ref x.2.next = 0)

/-- Key and value of a chain entry. -/
def kv (x : Nat × node_ll_linked) : Int × Int := (x.2.key, x.2.val)

/-- The chain entry `x` with its `next` word replaced by `w`. -/
def relink (x : Nat × node_ll_linked) (w : Nat) : Nat × node_ll_linked :=
  (x.1, node_ll_linked.mk x.2.key x.2.val w)

/-- Abstract content of a chain: the (key, value) pairs of the unmarked nodes
strictly between the two sentinels, in list order. -/
def live (c : List (Nat × node_ll_linked)) : List (Int × Int) :=
  ((c.tail.dropLast).filter unmarked).map kv

/-- The same content selected by key instead of by position. -/
def liveB (lo hi : Int) (c : List (Nat × node_ll_linked)) : List (Int × Int) :=
  (c.filter (fun x => unmarked x && decide (lo < x.2.key) && decide (x.2.key < hi))).map kv

/-- The list after a traversal that located `L` and `r`: the `next` word of
`L` points at `r`. -/
def after_search (s : LinkedListHarris) (L r : Nat × node_ll_linked) : LinkedListHarris :=
  LinkedListHarris.mk s.head (write_next s.mem L.1 L.2 r.1)

/-- The list after a successful insert between `L` and `r`. -/
def after_insert (s : LinkedListHarris) (L r : Nat × node_ll_linked) (k v : Int) :
    LinkedListHarris :=
  LinkedListHarris.mk s.head
    (write_next (write_next s.mem L.1 L.2 r.1 ++ [node_ll_linked.mk k v r.1]) L.1 L.2
      (2 * (s.mem.length + 1)))

/-- The list after a successful remove of `r`, whose predecessor is `L`. -/
def after_remove (s : LinkedListHarris) (L r : Nat × node_ll_linked) : LinkedListHarris :=
  LinkedListHarris.mk s.head
    (write_next (write_next (write_next s.mem L.1 L.2 r.1) r.1 r.2 (get_marked_ref r.2.next))
      L.1 L.2 r.2.next)

/-- What a traversal for key `k` finds on the chain `c`: the predecessor `L`,
the run `mid` of marked nodes it cuts out, and the successor `r`. -/
structure Located (lo k : Int) (c pre : List (Nat × node_ll_linked)) (L : Nat × node_ll_linked)
    (mid : List (Nat × node_ll_linked)) (r : Nat × node_ll_linked)
    (post : List (Nat × node_ll_linked)) : Prop where
  split : c = pre ++ L :: (mid ++ r :: post)
  left_unmarked : is_marked_ref L.2.next = 0
  left_key : lo < k → L.2.key < k
  mid_marked : ∀ x ∈ mid, is_marked_ref x.2.next ≠ 0
  right_ok : r.2.next = 0 ∨ (is_marked_ref r.2.next = 0 ∧ k ≤ r.2.key)

/-- A call of the public interface. -/
inductive Op where
  | search (key : Int)
  | insert (key val : Int)
  | remove (key : Int)
deriving DecidableEq

/-- Key argument of a call. -/
def Op.key : Op → Int
  | Op.search k => k
  | Op.insert k _ => k
  | Op.remove k => k

/-- One call: its return value and the list afterwards. -/
def Op.apply (fuel : Nat) (s : LinkedListHarris) : Op → Option (Int × LinkedListHarris)
  | Op.search k => Harris.search fuel s k
  | Op.insert k v => Harris.insert fuel s k v
  | Op.remove k => Harris.remove fuel s k

/-- A sequence of calls by one thread: the return values in order, and the
final list. -/
def run (fuel : Nat) : LinkedListHarris → List Op → Option (List Int × LinkedListHarris)
  | s, [] => some ([], s)
  | s, op :: ops =>
    match op.apply fuel s with
    | none => none
    | some (r, s1) =>
      match run fuel s1 ops with
      | none => none
      | some (rs, s2) => some (r :: rs, s2)

/-- Key `k` is logically present: an unmarked node on the chain carries it. -/
def present (c : List (Nat × node_ll_linked)) (k : Int) : Prop :=
  ∃ x ∈ c, is_marked_ref x.2.next = 0 ∧ x.2.key = k

/-- Calls the list supports for sentinel keys `lo`, `hi`: a search for any
key, an insert of a key strictly between the sentinel keys, a remove of any
key but the maximum bound. -/
def Op.ok (lo hi : Int) : Op → Prop
  | Op.search _ => True
  | Op.insert k _ => lo < k ∧ k < hi
  | Op.remove k => k ≠ hi

/-- The call is an insert of key `k`. -/
def Op.insertsKey (k : Int) : Op → Prop
  | Op.insert j _ => j = k
  | _ => False

/-- Frame condition between two list states: the same head, no node added,
every node keeps its key, its value and its mark, and at most one node has
the address part of its `next` word rewritten. -/
def sameNodes (s s1 : LinkedListHarris) : Prop :=
  s1.head = s.head ∧ s1.mem.length = s.mem.length ∧
  (∀ p n, deref s.mem p = some n →
    ∃ n1, deref s1.mem p = some n1 ∧ n1.key = n.key ∧ n1.val = n.val ∧
      is_marked_ref n1.next = is_marked_ref n.next) ∧
  ∃ p0, ∀ q, q ≠ p0 → deref s1.mem q = deref s.mem q

/-- A list with sentinel keys 0 and 10 in which the node with key 3 (address
6) is logically deleted but still linked, in front of the live node with key
5 and value 11 (address 8). -/
def stale_list : LinkedListHarris :=
  LinkedListHarris.mk 4
    [node_ll_linked.mk 10 0 0, node_ll_linked.mk 0 0 6, node_ll_linked.mk 3 0 9,
      node_ll_linked.mk 5 11 2]

/-- The chain of `stale_list`. -/
def stale_chain : List (Nat × node_ll_linked) :=
  [(4, node_ll_linked.mk 0 0 6), (6, node_ll_linked.mk 3 0 9), (8, node_ll_linked.mk 5 11 2),
    (2, node_ll_linked.mk 10 0 0)]
/-! ## Instrumented embedding

The functions below are the functions of the embedding with a log added: each
returns, next to its result, the list of events it went through, in order.
They take the same branches as the functions they instrument, which the
erasure lemmas further down state. -/

/-- An observable step of the list code. -/
inductive Event where
  | pass
  | visit (node : Nat)
  | cas (node expected new : Nat) (ok : Bool)
  | attempt
  | alloc (node : Nat)
  | store (node new : Nat)
  | fallback
deriving DecidableEq

/-- Put the events `tr` in front of the log of a result. -/
def withTrace {α : Type} (tr : List Event) : Option (α × List Event) → Option (α × List Event)
  | none => none
  | some (a, tr2) => some (a, tr ++ tr2)

/-- The loop `harris_walk` with its log: one `visit` for each node the
variable `t` is moved to. -/
def harris_walk_tr (mem : List node_ll_linked) (key : Int) :
    Nat → Nat → Nat → Nat → Nat → Option ((Nat × Nat × Nat) × List Event)
  | 0, _, _, _, _ => none
  | fuel + 1, t, t_next, left_node, left_node_next =>
    let left_node1 := if is_marked_ref t_next = 0 then t else left_node
    let left_node_next1 := if is_marked_ref t_next = 0 then t_next else left_node_next
    let t1 := get_unmarked_ref t_next
    match deref mem t1 with
    | none => none
    | some n =>
      if n.next = 0 then some ((t1, left_node1, left_node_next1), [Event.visit t1])
      else if is_marked_ref n.next ≠ 0 ∨ n.key < key then
        withTrace [Event.visit t1]
          (harris_walk_tr mem key fuel t1 n.next left_node1 left_node_next1)
      else some ((t1, left_node1, left_node_next1), [Event.visit t1])

/-- The loop `harris_search_loop` with its log: `pass` at the start of each
iteration of the outer loop, `visit` for `t = head` and for the nodes of the
walk, `cas` for the cleanup compare-and-swap with its outcome. -/
def harris_search_loop_tr (key : Int) :
    Nat → LinkedListHarris → Nat → Nat →
      Option ((Nat × Nat × LinkedListHarris) × List Event)
  | 0, _, _, _ => none
  | fuel + 1, s, left_node, left_node_next =>
    match deref s.mem s.head with
    | none => none
    | some h =>
      match harris_walk_tr s.mem key fuel s.head h.next left_node left_node_next with
      | none => none
      | some ((right_node, left_node1, left_node_next1), tr) =>
        if left_node_next1 = right_node then
          match deref s.mem right_node with
          | none => none
          | some r =>
            if r.next ≠ 0 ∧ is_marked_ref r.next ≠ 0 then
              withTrace (Event.pass :: Event.visit s.head :: tr)
                (harris_search_loop_tr key fuel s left_node1 left_node_next1)
            else some ((right_node, left_node1, s), Event.pass :: Event.visit s.head :: tr)
        else
          match ATOMIC_CAS_MB s.mem left_node1 left_node_next1 right_node with
          | none => none
          | some (true, mem1) =>
            match deref mem1 right_node with
            | none => none
            | some r =>
              if ¬ (r.next ≠ 0 ∧ is_marked_ref r.next ≠ 0) then
                some ((right_node, left_node1, LinkedListHarris.mk s.head mem1),
                  Event.pass :: Event.visit s.head :: tr
                    ++ [Event.cas left_node1 left_node_next1 right_node true])
              else
                withTrace (Event.pass :: Event.visit s.head :: tr
                    ++ [Event.cas left_node1 left_node_next1 right_node true])
                  (harris_search_loop_tr key fuel (LinkedListHarris.mk s.head mem1)
                    left_node1 left_node_next1)
          | some (false, mem1) =>
            withTrace (Event.pass :: Event.visit s.head :: tr
                ++ [Event.cas left_node1 left_node_next1 right_node false])
              (harris_search_loop_tr key fuel (LinkedListHarris.mk s.head mem1)
                left_node1 left_node_next1)

/-- The function `harris_search` with its log. -/
def harris_search_tr (fuel : Nat) (s : LinkedListHarris) (key : Int) (left_node : Nat) :
    Option ((Nat × Nat × LinkedListHarris) × List Event) :=
  harris_search_loop_tr key fuel s left_node s.head

/-- The function `harris_find` with its log. -/
def harris_find_tr (fuel : Nat) (s : LinkedListHarris) (key : Int) :
    Option ((Int × LinkedListHarris) × List Event) :=
  match harris_search_tr fuel s key s.head with
  | none => none
  | some ((right_node, _, s1), tr) =>
    match deref s1.mem right_node with
    | none => none
    | some r => if r.next = 0 ∨ r.key ≠ key then some ((0, s1), tr) else some ((r.val, s1), tr)

/-- The loop `harris_insert_loop` with its log: `attempt` at the start of each
iteration, then the log of the traversal, `alloc` or `store` for the new node
and `cas` for the link-in compare-and-swap with its outcome. -/
def harris_insert_loop_tr (key val : Int) :
    Nat → LinkedListHarris → Nat → Nat → Option ((Int × LinkedListHarris) × List Event)
  | 0, _, _, _ => none
  | fuel + 1, s, newnode, left_node =>
    match harris_search_tr fuel s key left_node with
    | none => none
    | some ((right_node, left_node1, s1), tr) =>
      match deref s1.mem right_node with
      | none => none
      | some r =>
        if r.key = key then some ((0, s1), Event.attempt :: tr)
        else
          let alloc : Option (Nat × List node_ll_linked) :=
            if newnode = 0 then some (allocate_node_ll_linked s1.mem key val right_node)
            else (store_next s1.mem newnode right_node).map (fun m => (newnode, m))
          match alloc with
          | none => none
          | some (newnode1, mem2) =>
            let ev := if newnode = 0 then Event.alloc newnode1
              else Event.store newnode1 right_node
            match ATOMIC_CAS_MB mem2 left_node1 right_node newnode1 with
            | none => none
            | some (true, mem3) =>
              some ((1, LinkedListHarris.mk s1.head mem3),
                Event.attempt :: tr ++ [ev, Event.cas left_node1 right_node newnode1 true])
            | some (false, mem3) =>
              withTrace (Event.attempt :: tr
                  ++ [ev, Event.cas left_node1 right_node newnode1 false])
                (harris_insert_loop_tr key val fuel (LinkedListHarris.mk s1.head mem3)
                  newnode1 left_node1)

/-- The function `harris_insert` with its log. -/
def harris_insert_tr (fuel : Nat) (s : LinkedListHarris) (key val : Int) :
    Option ((Int × LinkedListHarris) × List Event) :=
  harris_insert_loop_tr key val fuel s 0 s.head

/-- The tail `harris_remove_unlink` with its log: `cas` for the unlink
compare-and-swap with its outcome and, when it failed, `fallback` followed by
the log of the traversal. -/
def harris_remove_unlink_tr (fuel : Nat) (s : LinkedListHarris) (key : Int)
    (left_node right_node right_node_next : Nat) (ret : Int) :
    Option ((Int × LinkedListHarris) × List Event) :=
  match ATOMIC_CAS_MB s.mem left_node right_node right_node_next with
  | none => none
  | some (true, mem1) =>
    some ((ret, LinkedListHarris.mk s.head mem1),
      [Event.cas left_node right_node right_node_next true])
  | some (false, mem1) =>
    match harris_search_tr fuel (LinkedListHarris.mk s.head mem1) key left_node with
    | none => none
    | some ((_, _, s2), tr) =>
      some ((ret, s2),
        Event.cas left_node right_node right_node_next false :: Event.fallback :: tr)

/-- The loop `harris_remove_loop` with its log: `attempt` at the start of each
iteration, then the log of the traversal and `cas` for the marking
compare-and-swap with its outcome. -/
def harris_remove_loop_tr (key : Int) :
    Nat → LinkedListHarris → Nat → Option ((Int × LinkedListHarris) × List Event)
  | 0, _, _ => none
  | fuel + 1, s, left_node =>
    match harris_search_tr fuel s key left_node with
    | none => none
    | some ((right_node, left_node1, s1), tr) =>
      match deref s1.mem right_node with
      | none => none
      | some r =>
        if r.key ≠ key then some ((0, s1), Event.attempt :: tr)
        else
          let right_node_next := r.next
          if is_marked_ref right_node_next = 0 then
            match ATOMIC_CAS_MB s1.mem right_node right_node_next
                (get_marked_ref right_node_next) with
            | none => none
            | some (true, mem2) =>
              match deref mem2 right_node with
              | none => none
              | some r2 =>
                withTrace (Event.attempt :: tr
                    ++ [Event.cas right_node right_node_next
                      (get_marked_ref right_node_next) true])
                  (harris_remove_unlink_tr fuel (LinkedListHarris.mk s1.head mem2) key
                    left_node1 right_node right_node_next r2.val)
            | some (false, mem2) =>
              withTrace (Event.attempt :: tr
                  ++ [Event.cas right_node right_node_next
                    (get_marked_ref right_node_next) false])
                (harris_remove_loop_tr key fuel (LinkedListHarris.mk s1.head mem2) left_node1)
          else withTrace (Event.attempt :: tr) (harris_remove_loop_tr key fuel s1 left_node1)

/-- The function `harris_remove` with its log. -/
def harris_remove_tr (fuel : Nat) (s : LinkedListHarris) (key : Int) :
    Option ((Int × LinkedListHarris) × List Event) :=
  harris_remove_loop_tr key fuel s s.head

/-- The function `search` with its log. -/
def search_tr (fuel : Nat) (s : LinkedListHarris) (key : Int) :
    Option ((Int × LinkedListHarris) × List Event) :=
  harris_find_tr fuel s key

/-- The function `insert` with its log. -/
def insert_tr (fuel : Nat) (s : LinkedListHarris) (key val : Int) :
    Option ((Int × LinkedListHarris) × List Event) :=
  harris_insert_tr fuel s key val

/-- The function `remove` with its log. -/
def remove_tr (fuel : Nat) (s : LinkedListHarris) (key : Int) :
    Option ((Int × LinkedListHarris) × List Event) :=
  harris_remove_tr fuel s key

/-- Number of iterations of the outer loop of `harris_search` in a log. -/
def passes (tr : List Event) : Nat := tr.count Event.pass

/-- Number of iterations of the retry loop of `harris_insert` or
`harris_remove` in a log. -/
def attempts (tr : List Event) : Nat := tr.count Event.attempt

/-- The nodes visited in a log, in order. -/
def visits : List Event → List Nat
  | [] => []
  | Event.visit a :: tr => a :: visits tr
  | _ :: tr => visits tr

/-- An event that updates the heap as intended: a compare-and-swap that
succeeded, or an allocation. -/
def Event.isUpdate : Event → Bool
  | Event.cas _ _ _ true => true
  | Event.alloc _ => true
  | _ => false

/-- One call with its log. -/
def Op.apply_tr (fuel : Nat) (s : LinkedListHarris) :
    Op → Option ((Int × LinkedListHarris) × List Event)
  | Op.search k => search_tr fuel s k
  | Op.insert k v => insert_tr fuel s k v
  | Op.remove k => remove_tr fuel s k

/-- A sequence of calls by one thread with the logs of the calls, one after
the other. -/
def run_tr (fuel : Nat) :
    LinkedListHarris → List Op → Option ((List Int × LinkedListHarris) × List Event)
  | s, [] => some (([], s), [])
  | s, op :: ops =>
    match op.apply_tr fuel s with
    | none => none
    | some ((r, s1), tr) =>
      match run_tr fuel s1 ops with
      | none => none
      | some ((rs, s2), tr2) => some ((r :: rs, s2), tr ++ tr2)

/-- A marked `next` word of the heap `mem` is the same in the heap `mem1`:
every node that is logically deleted in `mem` is in `mem1` with the same key,
value, successor and mark. -/
def frozen (mem mem1 : List node_ll_linked) : Prop :=
  ∀ p n, deref mem p = some n → is_marked_ref n.next ≠ 0 → deref mem1 p = some n

/-- The heap `mem1` keeps every node of the heap `mem`: the marked ones are
unchanged, and the unmarked ones are still unmarked. -/
def calm (mem mem1 : List node_ll_linked) : Prop :=
  frozen mem mem1 ∧
  ∀ p n, deref mem p = some n → is_marked_ref n.next = 0 →
    ∃ n1, deref mem1 p = some n1 ∧ is_marked_ref n1.next = 0

/-! ## Reference map

The reference finite map of the refinement claim, written from the words of
the specification: an association list with at most one entry per key. -/

/-- A call of the public interface, `length()` included. -/
inductive Call where
  | search (key : Int)
  | insert (key val : Int)
  | remove (key : Int)
  | length
deriving DecidableEq

/-- One call on the list: its return value and the list afterwards. -/
def Call.apply (fuel : Nat) (s : LinkedListHarris) : Call → Option (Int × LinkedListHarris)
  | Call.search k => Harris.search fuel s k
  | Call.insert k v => Harris.insert fuel s k v
  | Call.remove k => Harris.remove fuel s k
  | Call.length => Harris.length fuel s

/-- Reference map, lookup: the value stored under `k`, if any. -/
def ref_lookup (m : List (Int × Int)) (k : Int) : Option Int :=
  (m.find? (fun p => decide (p.1 = k))).map Prod.snd

/-- Reference map, `search`: lookup or 0. -/
def ref_search (m : List (Int × Int)) (k : Int) : Int :=
  (ref_lookup m k).getD 0

/-- Reference map, `insert`: add if absent, returning whether it added. -/
def ref_insert (m : List (Int × Int)) (k v : Int) : Int × List (Int × Int) :=
  match ref_lookup m k with
  | some _ => (0, m)
  | none => (1, (k, v) :: m)

/-- Reference map, `remove`: delete, returning the old value or 0. -/
def ref_remove (m : List (Int × Int)) (k : Int) : Int × List (Int × Int) :=
  ((ref_lookup m k).getD 0, m.filter (fun p => decide (p.1 ≠ k)))

/-- Reference map, `length`: the number of entries. -/
def ref_length (m : List (Int × Int)) : Int := (m.length : Int)

/-- One call on the reference map: its return value and the map afterwards. -/
def ref_apply (m : List (Int × Int)) : Call → Int × List (Int × Int)
  | Call.search k => (ref_search m k, m)
  | Call.insert k v => ref_insert m k v
  | Call.remove k => ref_remove m k
  | Call.length => (ref_length m, m)

/-- A sequence of calls on the reference map: the return values in order,
and the final map. -/
def ref_run : List (Int × Int) → List Call → List Int × List (Int × Int)
  | m, [] => ([], m)
  | m, call :: calls =>
    ((ref_apply m call).1 :: (ref_run (ref_apply m call).2 calls).1,
      (ref_run (ref_apply m call).2 calls).2)

theorem is_marked_ref_eq (i : Nat) : is_marked_ref i = i % 2 := Nat.and_one_is_mod i

theorem get_unmarked_ref_eq (w : Nat) : get_unmarked_ref w = 2 * (w / 2) := by
  unfold get_unmarked_ref
  apply Nat.eq_of_testBit_eq
  intro i
  rw [Nat.testBit_ldiff]
  cases i with
  | zero => simp [Nat.testBit_zero]
  | succ j =>
    simp [Nat.testBit_succ]

theorem get_marked_ref_eq (w : Nat) : get_marked_ref w = 2 * (w / 2) + 1 := by
  unfold get_marked_ref
  apply Nat.eq_of_testBit_eq
  intro i
  rw [Nat.testBit_or]
  cases i with
  | zero => simp [Nat.testBit_zero]; omega
  | succ j =>
    simp [Nat.testBit_succ]
    congr 1
    omega

theorem deref_some {mem : List node_ll_linked} {p : Nat} {n : node_ll_linked}
    (h : deref mem p = some n) : p % 2 = 0 ∧ p ≠ 0 ∧ p / 2 - 1 < mem.length ∧ mem[p / 2 - 1]? = some n := by
  unfold deref at h
  split at h
  · rename_i hp
    refine ⟨hp.1, hp.2, ?_, h⟩
    exact (List.getElem?_eq_some_iff.mp h).1
  · cases h

theorem deref_write_next {mem : List node_ll_linked} {p : Nat} {n : node_ll_linked}
    (h : deref mem p = some n) (w q : Nat) :
    deref (write_next mem p n w) q
      = if q = p then some (node_ll_linked.mk n.key n.val w) else deref mem q := by
  obtain ⟨h1, h2, h3, h4⟩ := deref_some h
  unfold write_next
  by_cases hq : q = p
  · subst hq
    simp [deref, h1, h2, h3]
  · simp only [hq, if_false]
    unfold deref
    split
    · rename_i hq2
      rw [List.getElem?_set_ne]
      omega
    · rfl

theorem write_next_self {mem : List node_ll_linked} {p : Nat} {n : node_ll_linked}
    (h : deref mem p = some n) : write_next mem p n n.next = mem := by
  obtain ⟨h1, h2, h3, h4⟩ := deref_some h
  unfold write_next
  apply List.ext_getElem?
  intro i
  by_cases hi : i = p / 2 - 1
  · subst hi
    simp [h3, h4]
  · rw [List.getElem?_set_ne (Ne.symm hi)]

theorem length_write_next (mem : List node_ll_linked) (p : Nat) (n : node_ll_linked) (w : Nat) :
    (write_next mem p n w).length = mem.length := by
  simp [write_next]

theorem deref_append_old {mem : List node_ll_linked} {q : Nat} {n : node_ll_linked}
    (h : deref mem q = some n) (x : node_ll_linked) : deref (mem ++ [x]) q = some n := by
  obtain ⟨h1, h2, h3, h4⟩ := deref_some h
  simp [deref, h1, h2, List.getElem?_append_left h3, h4]

theorem deref_append_new (mem : List node_ll_linked) (x : node_ll_linked) :
    deref (mem ++ [x]) (2 * (mem.length + 1)) = some x := by
  have : 2 * (mem.length + 1) / 2 - 1 = mem.length := by omega
  simp [deref, this]

theorem deref_fresh {mem : List node_ll_linked} {q : Nat} {n : node_ll_linked}
    (h : deref mem q = some n) : q ≠ 2 * (mem.length + 1) := by
  obtain ⟨h1, h2, h3, h4⟩ := deref_some h
  omega

theorem Seg_nil (mem : List node_ll_linked) (p q : Nat) : Seg mem p [] q ↔ p = q := Iff.rfl

theorem Seg_cons (mem : List node_ll_linked) (p q : Nat) (x : Nat × node_ll_linked)
    (rest : List (Nat × node_ll_linked)) :
    Seg mem p (x :: rest) q ↔
      p = x.1 ∧ deref mem x.1 = some x.2 ∧ Seg mem (get_unmarked_ref x.2.next) rest q := Iff.rfl

theorem getLast?_cons_ne_nil {α : Type} (a : α) {l : List α} (h : l ≠ []) :
    (a :: l).getLast? = l.getLast? := by
  cases l with
  | nil => exact absurd rfl h
  | cons b l2 => exact List.getLast?_cons_cons

theorem getLast?_append_cons {α : Type} (l : List α) (r : α) (post : List α) :
    (l ++ r :: post).getLast? = (r :: post).getLast? := by
  induction l with
  | nil => rfl
  | cons a l2 ih =>
    rw [List.cons_append, getLast?_cons_ne_nil a (by simp), ih]

theorem getLast?_mid {α : Type} (pre mid post : List α) (x r : α) :
    (pre ++ x :: (mid ++ r :: post)).getLast? = (r :: post).getLast? := by
  have e : pre ++ x :: (mid ++ r :: post) = (pre ++ x :: mid) ++ r :: post := by simp
  rw [e, getLast?_append_cons]

theorem Seg_append {mem : List node_ll_linked} (c1 c2 : List (Nat × node_ll_linked)) (p q : Nat) :
    Seg mem p (c1 ++ c2) q ↔ ∃ m, Seg mem p c1 m ∧ Seg mem m c2 q := by
  induction c1 generalizing p with
  | nil => simp [Seg_nil]
  | cons x rest ih =>
    simp only [List.cons_append, Seg_cons, ih]
    constructor
    · rintro ⟨h1, h2, m, h3, h4⟩
      exact ⟨m, ⟨h1, h2, h3⟩, h4⟩
    · rintro ⟨m, ⟨h1, h2, h3⟩, h4⟩
      exact ⟨h1, h2, m, h3, h4⟩

theorem Seg_deref {mem : List node_ll_linked} {c : List (Nat × node_ll_linked)} {p q : Nat}
    (h : Seg mem p c q) {x : Nat × node_ll_linked} (hx : x ∈ c) : deref mem x.1 = some x.2 := by
  induction c generalizing p with
  | nil => cases hx
  | cons y rest ih =>
    obtain ⟨_, h2, h3⟩ := h
    rcases List.mem_cons.mp hx with rfl | hx
    · exact h2
    · exact ih h3 hx

theorem Seg_congr {mem mem2 : List node_ll_linked} {c : List (Nat × node_ll_linked)} {p q : Nat}
    (h : Seg mem p c q) (hm : ∀ x ∈ c, deref mem2 x.1 = deref mem x.1) : Seg mem2 p c q := by
  induction c generalizing p with
  | nil => exact h
  | cons y rest ih =>
    obtain ⟨h1, h2, h3⟩ := h
    refine ⟨h1, ?_, ih h3 (fun x hx => hm x (List.mem_cons_of_mem _ hx))⟩
    rw [hm y (List.mem_cons_self _ _)]
    exact h2

/-- Two chain entries with the same address are the same entry. -/
theorem Seg_addr_inj {mem : List node_ll_linked} {c : List (Nat × node_ll_linked)} {p q : Nat}
    (h : Seg mem p c q) {x y : Nat × node_ll_linked} (hx : x ∈ c) (hy : y ∈ c)
    (ha : x.1 = y.1) : x = y := by
  have h1 := Seg_deref h hx
  have h2 := Seg_deref h hy
  rw [ha, h2] at h1
  exact Prod.ext ha (Option.some.inj h1).symm

theorem walk_spec (mem : List node_ll_linked) (k : Int) (Q : Prop) :
    ∀ (rest pre mid : List (Nat × node_ll_linked)) (L : Nat × node_ll_linked)
      (fuel t t_next left ln : Nat),
      Seg mem (get_unmarked_ref t_next) rest 0 → rest ≠ [] →
      (∀ x, rest.getLast? = some x → x.2.next = 0) →
      is_marked_ref L.2.next = 0 → (Q → L.2.key < k) →
      (∀ x ∈ mid, is_marked_ref x.2.next ≠ 0) →
      (is_marked_ref t_next = 0 → t = L.1 ∧ t_next = L.2.next ∧ mid = []) →
      (is_marked_ref t_next ≠ 0 → left = L.1 ∧ ln = L.2.next) →
      rest.length ≤ fuel →
      ∃ pre2 L2 mid2 r post,
        pre ++ L :: (mid ++ rest) = pre2 ++ L2 :: (mid2 ++ r :: post) ∧
        harris_walk mem k fuel t t_next left ln = some (r.1, L2.1, L2.2.next) ∧
        is_marked_ref L2.2.next = 0 ∧ (Q → L2.2.key < k) ∧
        (∀ x ∈ mid2, is_marked_ref x.2.next ≠ 0) ∧
        (r.2.next = 0 ∨ (is_marked_ref r.2.next = 0 ∧ k ≤ r.2.key)) := by
  intro rest
  induction rest with
  | nil => intro _ _ _ _ _ _ _ _ _ h; exact absurd rfl h
  | cons b rest2 ih =>
    intro pre mid L fuel t t_next left ln hseg _ hlast hLu hLk hmid hun hma hfuel
    obtain ⟨hb1, hb2, hb3⟩ := hseg
    obtain ⟨fuel2, rfl⟩ : ∃ f, fuel = f + 1 := ⟨fuel - 1, by simp at hfuel; omega⟩
    have hleft : (if is_marked_ref t_next = 0 then t else left) = L.1 := by
      split
      · rename_i h; exact (hun h).1
      · rename_i h; exact (hma h).1
    have hln : (if is_marked_ref t_next = 0 then t_next else ln) = L.2.next := by
      split
      · rename_i h; exact (hun h).2.1
      · rename_i h; exact (hma h).2
    unfold harris_walk
    simp only [hleft, hln, hb1, hb2]
    by_cases hz : b.2.next = 0
    · refine ⟨pre, L, mid, b, rest2, rfl, ?_, hLu, hLk, hmid, Or.inl hz⟩
      simp [hz]
    · simp only [hz, if_false]
      by_cases hc : is_marked_ref b.2.next ≠ 0 ∨ b.2.key < k
      · simp only [hc, if_true]
        have hne : rest2 ≠ [] := by
          rintro rfl
          exact hz (hlast b rfl)
        have hlast2 : ∀ x, rest2.getLast? = some x → x.2.next = 0 := by
          intro x hx
          apply hlast
          rw [getLast?_cons_ne_nil b hne]
          exact hx
        by_cases hbm : is_marked_ref b.2.next = 0
        · have hbk : b.2.key < k := by
            rcases hc with hc | hc
            · exact absurd hbm hc
            · exact hc
          obtain ⟨pre2, L2, mid2, r, post, e, hw, p1, p2, p3, p4⟩ :=
            ih (pre ++ L :: mid) [] b fuel2 b.1 b.2.next L.1 L.2.next hb3 hne hlast2 hbm
              (fun _ => hbk)
              (by simp) (fun _ => ⟨rfl, rfl, rfl⟩) (fun h => absurd hbm h)
              (by simp at hfuel; omega)
          refine ⟨pre2, L2, mid2, r, post, ?_, hw, p1, p2, p3, p4⟩
          rw [← e]; simp
        · obtain ⟨pre2, L2, mid2, r, post, e, hw, p1, p2, p3, p4⟩ :=
            ih pre (mid ++ [b]) L fuel2 b.1 b.2.next L.1 L.2.next hb3 hne hlast2 hLu hLk
              (by
                intro x hx
                rcases List.mem_append.mp hx with hx | hx
                · exact hmid x hx
                · simp at hx; subst hx; exact hbm)
              (fun h => absurd h hbm) (fun _ => ⟨rfl, rfl⟩)
              (by simp at hfuel; omega)
          refine ⟨pre2, L2, mid2, r, post, ?_, hw, p1, p2, p3, p4⟩
          rw [← e]; simp
      · simp only [hc, if_false]
        push_neg at hc
        refine ⟨pre, L, mid, b, rest2, rfl, rfl, hLu, hLk, hmid, Or.inr ⟨?_, hc.2⟩⟩
        by_contra h
        exact h (hc.1)

theorem addr_ne_of_key_ne {mem : List node_ll_linked} {c : List (Nat × node_ll_linked)} {p q : Nat}
    (h : Seg mem p c q) {x y : Nat × node_ll_linked} (hx : x ∈ c) (hy : y ∈ c)
    (hk : x.2.key ≠ y.2.key) : x.1 ≠ y.1 := by
  intro ha
  have := Seg_addr_inj h hx hy ha
  subst this
  exact hk rfl

theorem unmarked_fix {w : Nat} (h : is_marked_ref w = 0) : get_unmarked_ref w = w := by
  rw [is_marked_ref_eq] at h
  rw [get_unmarked_ref_eq]
  omega

theorem addr_unmarked {mem : List node_ll_linked} {p : Nat} {n : node_ll_linked}
    (h : deref mem p = some n) : is_marked_ref p = 0 ∧ get_unmarked_ref p = p := by
  obtain ⟨h1, _⟩ := deref_some h
  rw [is_marked_ref_eq, get_unmarked_ref_eq]
  omega

theorem WF_cons {lo hi : Int} {s : LinkedListHarris} {c : List (Nat × node_ll_linked)}
    (hwf : WF lo hi s c) :
    ∃ h rest, c = h :: rest ∧ rest ≠ [] ∧ h.1 = s.head ∧ h.2.key = lo ∧ h.2.val = 0 ∧
      is_marked_ref h.2.next = 0 ∧ deref s.mem s.head = some h.2 ∧
      Seg s.mem (get_unmarked_ref h.2.next) rest 0 ∧
      (∀ x, rest.getLast? = some x → x.2.key = hi ∧ x.2.val = 0 ∧ x.2.next = 0) := by
  obtain ⟨x, hx, h1, h2, h3⟩ := hwf.head_ok
  obtain ⟨y, hy, g1, g2, g3⟩ := hwf.tail_ok
  have hb := hwf.bounds
  have hseg := hwf.seg
  cases c with
  | nil => cases hx
  | cons h rest =>
    simp only [List.head?_cons, Option.some.injEq] at hx
    subst hx
    obtain ⟨e1, e2, e3⟩ := hseg
    have hne : rest ≠ [] := by
      rintro rfl
      simp only [List.getLast?_singleton, Option.some.injEq] at hy
      subst hy
      omega
    refine ⟨h, rest, rfl, hne, e1.symm, h1, h2, h3, ?_, e3, ?_⟩
    · rw [e1]; exact e2
    · intro z hz
      rw [getLast?_cons_ne_nil h hne, hz] at hy
      cases hy
      exact ⟨g1, g2, g3⟩

theorem pairwise_cut {α : Type} {R : α → α → Prop} {pre mid post : List α} {L L2 r : α}
    (h : (pre ++ L :: (mid ++ r :: post)).Pairwise R)
    (h1 : ∀ x, R x L → R x L2) (h2 : ∀ y, R L y → R L2 y) :
    (pre ++ L2 :: r :: post).Pairwise R := by
  simp only [List.pairwise_append, List.pairwise_cons, List.mem_append, List.mem_cons] at h ⊢
  obtain ⟨hs1, ⟨hs2, hs3, ⟨hs4, hs5⟩, hs6⟩, hs7⟩ := h
  refine ⟨hs1, ⟨?_, hs4, hs5⟩, ?_⟩
  · intro a ha
    apply h2
    apply hs2
    tauto
  · intro a ha b hb
    rcases hb with rfl | hb
    · exact h1 _ (hs7 a ha L (Or.inl rfl))
    · apply hs7 a ha
      tauto

theorem pairwise_mid {α : Type} {R : α → α → Prop} {pre mid post : List α} {L r : α}
    (h : (pre ++ L :: (mid ++ r :: post)).Pairwise R) :
    (∀ x ∈ pre, R x L) ∧ (∀ x ∈ pre, R x r) ∧ R L r ∧ (∀ x ∈ mid, R L x) ∧ (∀ x ∈ mid, R x r) ∧
    (∀ y ∈ post, R L y) ∧ (∀ y ∈ post, R r y) := by
  simp only [List.pairwise_append, List.pairwise_cons, List.mem_append, List.mem_cons] at h
  obtain ⟨hs1, ⟨hs2, hs3, ⟨hs4, hs5⟩, hs6⟩, hs7⟩ := h
  refine ⟨?_, ?_, ?_, ?_, ?_, ?_, ?_⟩
  · intro x hx; exact hs7 x hx L (Or.inl rfl)
  · intro x hx; exact hs7 x hx r (Or.inr (Or.inr (Or.inl rfl)))
  · exact hs2 r (Or.inr (Or.inl rfl))
  · intro x hx; exact hs2 x (Or.inl hx)
  · intro x hx; exact hs6 x hx r (Or.inl rfl)
  · intro x hx; exact hs2 x (Or.inr (Or.inr hx))
  · intro x hx; exact hs4 x hx

/-- The chain after the traversal: the marked run between the two located
nodes is cut out and the predecessor points at the successor. -/
theorem WF_unlink {lo hi : Int} {s : LinkedListHarris}
    {pre mid post : List (Nat × node_ll_linked)} {L r : Nat × node_ll_linked}
    (hwf : WF lo hi s (pre ++ L :: (mid ++ r :: post))) :
    WF lo hi (LinkedListHarris.mk s.head (write_next s.mem L.1 L.2 r.1))
      (pre ++ (L.1, node_ll_linked.mk L.2.key L.2.val r.1) :: r :: post) := by
  have hseg := hwf.seg
  have hsorted := hwf.sorted
  have hLd : deref s.mem L.1 = some L.2 := Seg_deref hseg (by simp)
  have hrd : deref s.mem r.1 = some r.2 := Seg_deref hseg (by simp)
  have hsplit := hseg
  rw [Seg_append, ] at hsplit
  obtain ⟨m1, hpre, hrestL⟩ := hsplit
  rw [Seg_cons, Seg_append] at hrestL
  obtain ⟨hm1, _, m2, _, hrpost⟩ := hrestL
  have hm2 : m2 = r.1 := hrpost.1
  subst hm2
  obtain ⟨p1, p2, p3, p4, p5, p6, p7⟩ := pairwise_mid hsorted
  have hne : ∀ x ∈ pre ++ r :: post, x.1 ≠ L.1 := by
    intro x hx
    apply addr_ne_of_key_ne hseg
    · simp only [List.mem_append, List.mem_cons] at hx ⊢
      tauto
    · simp
    · rcases List.mem_append.mp hx with hx | hx
      · exact ne_of_lt (p1 x hx)
      · rcases List.mem_cons.mp hx with rfl | hx
        · exact ne_of_gt p3
        · exact ne_of_gt (p6 x hx)
  have hfr : ∀ x ∈ pre ++ r :: post,
      deref (write_next s.mem L.1 L.2 r.1) x.1 = deref s.mem x.1 := by
    intro x hx
    rw [deref_write_next hLd, if_neg (hne x hx)]
  refine ⟨?_, ?_, ?_, ?_, hwf.bounds⟩
  · rw [Seg_append]
    refine ⟨m1, Seg_congr hpre (fun x hx => hfr x (List.mem_append_left _ hx)), ?_⟩
    rw [Seg_cons]
    refine ⟨hm1, ?_, ?_⟩
    · show deref (write_next s.mem L.1 L.2 r.1) L.1 = _
      rw [deref_write_next hLd, if_pos rfl]
    · show Seg _ (get_unmarked_ref r.1) _ _
      rw [(addr_unmarked hrd).2]
      exact Seg_congr hrpost (fun x hx => hfr x (List.mem_append_right _ hx))
  · exact pairwise_cut hsorted (fun x hx => hx) (fun y hy => hy)
  · obtain ⟨x, hx, h1, h2, h3⟩ := hwf.head_ok
    cases pre with
    | nil =>
      simp only [List.nil_append, List.cons_append, List.head?_cons, Option.some.injEq] at hx
      subst hx
      exact ⟨_, rfl, h1, h2, (addr_unmarked hrd).1⟩
    | cons y pre2 => exact ⟨x, hx, h1, h2, h3⟩
  · obtain ⟨x, hx, h1, h2, h3⟩ := hwf.tail_ok
    refine ⟨x, ?_, h1, h2, h3⟩
    rw [← hx, getLast?_mid]
    exact getLast?_mid pre [] post _ r

/-- Effect of one traversal on a well-formed list. -/
theorem harris_search_spec {lo hi : Int} {s : LinkedListHarris}
    {c : List (Nat × node_ll_linked)} (hwf : WF lo hi s c) (k : Int)
    (fuel : Nat) (hf : c.length ≤ fuel) (left0 : Nat) :
    ∃ pre L mid r post,
      c = pre ++ L :: (mid ++ r :: post) ∧
      is_marked_ref L.2.next = 0 ∧ (lo < k → L.2.key < k) ∧
      (∀ x ∈ mid, is_marked_ref x.2.next ≠ 0) ∧
      (r.2.next = 0 ∨ (is_marked_ref r.2.next = 0 ∧ k ≤ r.2.key)) ∧
      harris_search fuel s k left0
        = some (r.1, L.1, LinkedListHarris.mk s.head (write_next s.mem L.1 L.2 r.1)) ∧
      (mid = [] → write_next s.mem L.1 L.2 r.1 = s.mem) := by
  obtain ⟨h, rest, rfl, hne, hh, hkey, _, hhu, hhd, hrest, hlast⟩ := WF_cons hwf
  obtain ⟨fuel2, rfl⟩ : ∃ f, fuel = f + 1 := ⟨fuel - 1, by simp at hf; omega⟩
  obtain ⟨pre, L, mid, r, post, e, hw, q1, q2, q3, q4⟩ :=
    walk_spec s.mem k (lo < k) rest [] [] h fuel2 s.head h.2.next left0 s.head hrest hne
      (fun x hx => (hlast x hx).2.2) hhu (fun hk => by omega) (by simp)
      (fun _ => ⟨hh.symm, rfl, rfl⟩) (fun hm => absurd hhu hm) (by simp at hf; omega)
  have e2 : h :: rest = pre ++ L :: (mid ++ r :: post) := by simpa using e
  rw [e2] at hwf
  have hseg := hwf.seg
  have hLd : deref s.mem L.1 = some L.2 := Seg_deref hseg (by simp)
  have hrd : deref s.mem r.1 = some r.2 := Seg_deref hseg (by simp)
  obtain ⟨p1, p2, p3, p4, p5, p6, p7⟩ := pairwise_mid hwf.sorted
  have hrL : r.1 ≠ L.1 := addr_ne_of_key_ne hseg (by simp) (by simp) (ne_of_gt p3)
  have hsplit := hseg
  rw [Seg_append] at hsplit
  obtain ⟨m1, -, hsplit⟩ := hsplit
  rw [Seg_cons, unmarked_fix q1] at hsplit
  obtain ⟨-, -, hmid⟩ := hsplit
  have hrm : ¬ (r.2.next ≠ 0 ∧ is_marked_ref r.2.next ≠ 0) := by
    rintro ⟨a, b⟩
    rcases q4 with q4 | q4
    · exact a q4
    · exact b q4.1
  refine ⟨pre, L, mid, r, post, e2, q1, q2, q3, q4, ?_, ?_⟩
  · unfold harris_search harris_search_loop
    simp only [hhd, hw]
    cases mid with
    | nil =>
      have hLr : L.2.next = r.1 := hmid.1
      have hself : write_next s.mem L.1 L.2 r.1 = s.mem := by
        rw [← hLr]; exact write_next_self hLd
      simp only [hLr, if_true, hrd, hrm, if_false, hself]
    | cons m mid2 =>
      have hLm : L.2.next = m.1 := hmid.1
      have hmr : m.1 ≠ r.1 :=
        addr_ne_of_key_ne hseg (by simp) (by simp) (ne_of_lt (p5 m (by simp)))
      have hcas : ATOMIC_CAS_MB s.mem L.1 L.2.next r.1
          = some (true, write_next s.mem L.1 L.2 r.1) := by
        simp [ATOMIC_CAS_MB, hLd]
      have hrd2 : deref (write_next s.mem L.1 L.2 r.1) r.1 = some r.2 := by
        rw [deref_write_next hLd, if_neg hrL]; exact hrd
      rw [if_neg (by rw [hLm]; exact hmr)]
      simp only [hcas, hrd2, hrm, not_false_eq_true, if_true]
  · rintro rfl
    have hLr : L.2.next = r.1 := hmid.1
    rw [← hLr]; exact write_next_self hLd

theorem unmarked_marked (w : Nat) : get_unmarked_ref (get_marked_ref w) = get_unmarked_ref w := by
  rw [get_unmarked_ref_eq, get_unmarked_ref_eq, get_marked_ref_eq]
  omega

theorem is_marked_marked (w : Nat) : is_marked_ref (get_marked_ref w) = 1 := by
  rw [is_marked_ref_eq, get_marked_ref_eq]
  omega

theorem Seg_ne_nil_of_ne {mem : List node_ll_linked} {c : List (Nat × node_ll_linked)} {p : Nat}
    (h : Seg mem p c 0) (hp : p ≠ 0) : c ≠ [] := by
  rintro rfl
  exact hp h

/-- Position of the successor relative to the tail sentinel. -/
theorem WF_right {lo hi : Int} {s : LinkedListHarris}
    {pre mid post : List (Nat × node_ll_linked)} {L r : Nat × node_ll_linked}
    (hwf : WF lo hi s (pre ++ L :: (mid ++ r :: post))) :
    (r.2.next = 0 → post = [] ∧ r.2.key = hi ∧ r.2.val = 0) ∧
    (r.2.next ≠ 0 → post ≠ [] ∧ r.2.key < hi) := by
  have hseg := hwf.seg
  have e : pre ++ L :: (mid ++ r :: post) = (pre ++ L :: mid) ++ r :: post := by simp
  rw [e, Seg_append] at hseg
  obtain ⟨m, -, hr⟩ := hseg
  rw [Seg_cons] at hr
  obtain ⟨-, hrd, hpost⟩ := hr
  obtain ⟨x, hx, h1, h2, h3⟩ := hwf.tail_ok
  rw [getLast?_mid] at hx
  have hnil : post = [] → r.2.key = hi ∧ r.2.val = 0 ∧ r.2.next = 0 := by
    rintro rfl
    simp only [List.getLast?_singleton, Option.some.injEq] at hx
    subst hx
    exact ⟨h1, h2, h3⟩
  constructor
  · intro hz
    have hp : post = [] := by
      cases post with
      | nil => rfl
      | cons y post2 =>
        rw [hz, Seg_cons] at hpost
        obtain ⟨e0, hy, -⟩ := hpost
        have := (deref_some hy).2.1
        rw [get_unmarked_ref_eq] at e0
        omega
    exact ⟨hp, (hnil hp).1, (hnil hp).2.1⟩
  · intro hz
    have hp : post ≠ [] := fun hp => hz (hnil hp).2.2
    refine ⟨hp, ?_⟩
    rw [getLast?_cons_ne_nil r hp] at hx
    have hxm : x ∈ post := List.mem_of_getLast?_eq_some hx
    have := (pairwise_mid hwf.sorted).2.2.2.2.2.2 x hxm
    omega

/-- Keys on the chain lie between the sentinel keys. -/
theorem WF_key_bounds {lo hi : Int} {s : LinkedListHarris} {c : List (Nat × node_ll_linked)}
    (hwf : WF lo hi s c) {x : Nat × node_ll_linked} (hx : x ∈ c) :
    lo ≤ x.2.key ∧ x.2.key ≤ hi := by
  obtain ⟨h, rest, rfl, hne, hh, hkey, -, -, -, -, hlast⟩ := WF_cons hwf
  have hs := hwf.sorted
  rw [List.pairwise_cons] at hs
  obtain ⟨t, ht⟩ : ∃ t, rest.getLast? = some t := by
    cases hr : rest.getLast? with
    | none => exact absurd (List.getLast?_eq_none_iff.mp hr) hne
    | some t => exact ⟨t, rfl⟩
  have htm : t ∈ rest := List.mem_of_getLast?_eq_some ht
  have hthi := (hlast t ht).1
  have hle : ∀ y ∈ rest, y.2.key ≤ hi := by
    intro y hy
    obtain ⟨init, rfl⟩ : ∃ init, rest = init ++ [t] := by
      refine ⟨rest.dropLast, ?_⟩
      have := List.dropLast_append_getLast? t ht
      exact this.symm
    rcases List.mem_append.mp hy with hy | hy
    · have := (List.pairwise_append.mp hs.2).2.2 y hy t (by simp)
      omega
    · simp only [List.mem_singleton] at hy
      subst hy; omega
  rcases List.mem_cons.mp hx with rfl | hx
  · constructor
    · omega
    · have := hs.1 t htm
      omega
  · have := hs.1 x hx
    exact ⟨by omega, hle x hx⟩

/-- Allocation leaves the list as it is. -/
theorem WF_alloc {lo hi : Int} {s : LinkedListHarris} {c : List (Nat × node_ll_linked)}
    (hwf : WF lo hi s c) (n : node_ll_linked) :
    WF lo hi (LinkedListHarris.mk s.head (s.mem ++ [n])) c := by
  refine ⟨?_, hwf.sorted, hwf.head_ok, hwf.tail_ok, hwf.bounds⟩
  exact Seg_congr hwf.seg (fun x hx => by
    show deref (s.mem ++ [n]) x.1 = deref s.mem x.1
    rw [Seg_deref hwf.seg hx]
    exact deref_append_old (Seg_deref hwf.seg hx) n)

/-- Setting the mark of an inner node keeps the list well formed: the node
stays on the chain as a logically deleted node. -/
theorem WF_mark {lo hi : Int} {s : LinkedListHarris}
    {pre post : List (Nat × node_ll_linked)} {r : Nat × node_ll_linked}
    (hwf : WF lo hi s (pre ++ r :: post)) (hpre : pre ≠ []) (hpost : post ≠ []) :
    WF lo hi (LinkedListHarris.mk s.head (write_next s.mem r.1 r.2 (get_marked_ref r.2.next)))
      (pre ++ (r.1, node_ll_linked.mk r.2.key r.2.val (get_marked_ref r.2.next)) :: post) := by
  have hseg := hwf.seg
  have hrd : deref s.mem r.1 = some r.2 := Seg_deref hseg (by simp)
  have hs := hwf.sorted
  rw [List.pairwise_append, List.pairwise_cons] at hs
  obtain ⟨hs1, ⟨hs2, hs3⟩, hs4⟩ := hs
  have hne : ∀ x ∈ pre ++ post, x.1 ≠ r.1 := by
    intro x hx
    apply addr_ne_of_key_ne hseg
    · simp only [List.mem_append, List.mem_cons] at hx ⊢
      tauto
    · simp
    · rcases List.mem_append.mp hx with hx | hx
      · exact ne_of_lt (hs4 x hx r (by simp))
      · exact ne_of_gt (hs2 x hx)
  have hfr : ∀ x ∈ pre ++ post,
      deref (write_next s.mem r.1 r.2 (get_marked_ref r.2.next)) x.1 = deref s.mem x.1 := by
    intro x hx
    rw [deref_write_next hrd, if_neg (hne x hx)]
  rw [Seg_append] at hseg
  obtain ⟨m1, hp, hr⟩ := hseg
  rw [Seg_cons] at hr
  obtain ⟨hm1, -, hpo⟩ := hr
  refine ⟨?_, ?_, ?_, ?_, hwf.bounds⟩
  · rw [Seg_append]
    refine ⟨m1, Seg_congr hp (fun x hx => hfr x (List.mem_append_left _ hx)), ?_⟩
    rw [Seg_cons]
    refine ⟨hm1, ?_, ?_⟩
    · show deref (write_next s.mem r.1 r.2 (get_marked_ref r.2.next)) r.1 = _
      rw [deref_write_next hrd, if_pos rfl]
    · show Seg _ (get_unmarked_ref (get_marked_ref r.2.next)) _ _
      rw [unmarked_marked]
      exact Seg_congr hpo (fun x hx => hfr x (List.mem_append_right _ hx))
  · rw [List.pairwise_append, List.pairwise_cons]
    refine ⟨hs1, ⟨hs2, hs3⟩, ?_⟩
    intro a ha b hb
    rcases List.mem_cons.mp hb with rfl | hb
    · exact hs4 a ha r (by simp)
    · exact hs4 a ha b (by simp [hb])
  · obtain ⟨x, hx, h⟩ := hwf.head_ok
    refine ⟨x, ?_, h⟩
    cases pre with
    | nil => exact absurd rfl hpre
    | cons y pre2 => exact hx
  · obtain ⟨x, hx, h⟩ := hwf.tail_ok
    refine ⟨x, ?_, h⟩
    rw [← hx, getLast?_append_cons, getLast?_append_cons, getLast?_cons_ne_nil _ hpost,
      getLast?_cons_ne_nil _ hpost]

/-- Linking a node that is off the chain between two adjacent chain nodes. -/
theorem WF_link {lo hi : Int} {s : LinkedListHarris}
    {pre post : List (Nat × node_ll_linked)} {L r : Nat × node_ll_linked}
    (hwf : WF lo hi s (pre ++ L :: r :: post)) (a : Nat) (n : node_ll_linked)
    (hd : deref s.mem a = some n) (hn : n.next = r.1)
    (hoff : ∀ x ∈ pre ++ L :: r :: post, x.1 ≠ a)
    (h1 : L.2.key < n.key) (h2 : n.key < r.2.key) :
    WF lo hi (LinkedListHarris.mk s.head (write_next s.mem L.1 L.2 a))
      (pre ++ (L.1, node_ll_linked.mk L.2.key L.2.val a) :: (a, n) :: r :: post) := by
  have hseg := hwf.seg
  have hLd : deref s.mem L.1 = some L.2 := Seg_deref hseg (by simp)
  have hrd : deref s.mem r.1 = some r.2 := Seg_deref hseg (by simp)
  have hs := hwf.sorted
  have hs2 : (pre ++ L :: ([] ++ r :: post)).Pairwise (fun x y => x.2.key < y.2.key) := hs
  obtain ⟨p1, p2, p3, -, -, p6, p7⟩ := pairwise_mid hs2
  have hs0 := hs
  rw [List.pairwise_append, List.pairwise_cons, List.pairwise_cons] at hs0
  obtain ⟨hs1, ⟨-, -, hs3⟩, -⟩ := hs0
  have hne : ∀ x ∈ pre ++ r :: post, x.1 ≠ L.1 := by
    intro x hx
    apply addr_ne_of_key_ne hseg
    · simp only [List.mem_append, List.mem_cons] at hx ⊢
      tauto
    · simp
    · rcases List.mem_append.mp hx with hx | hx
      · exact ne_of_lt (p1 x hx)
      · rcases List.mem_cons.mp hx with rfl | hx
        · exact ne_of_gt p3
        · exact ne_of_gt (p6 x hx)
  have hfr : ∀ x ∈ pre ++ r :: post,
      deref (write_next s.mem L.1 L.2 a) x.1 = deref s.mem x.1 := by
    intro x hx
    rw [deref_write_next hLd, if_neg (hne x hx)]
  rw [Seg_append] at hseg
  obtain ⟨m1, hp, hr⟩ := hseg
  rw [Seg_cons] at hr
  obtain ⟨hm1, -, hpo⟩ := hr
  have hpo2 : Seg s.mem r.1 (r :: post) 0 := by
    have := hpo.1
    rw [this] at hpo
    exact hpo
  have haL : a ≠ L.1 := fun h => hoff L (by simp) h.symm
  refine ⟨?_, ?_, ?_, ?_, hwf.bounds⟩
  · rw [Seg_append]
    refine ⟨m1, Seg_congr hp (fun x hx => hfr x (List.mem_append_left _ hx)), ?_⟩
    rw [Seg_cons]
    refine ⟨hm1, ?_, ?_⟩
    · show deref (write_next s.mem L.1 L.2 a) L.1 = _
      rw [deref_write_next hLd, if_pos rfl]
    · show Seg _ (get_unmarked_ref a) _ _
      rw [(addr_unmarked hd).2, Seg_cons]
      refine ⟨rfl, ?_, ?_⟩
      · show deref (write_next s.mem L.1 L.2 a) a = _
        rw [deref_write_next hLd, if_neg haL]
        exact hd
      · show Seg _ (get_unmarked_ref n.next) _ _
        rw [hn, (addr_unmarked hrd).2]
        exact Seg_congr hpo2 (fun x hx => hfr x (List.mem_append_right _ hx))
  · rw [List.pairwise_append, List.pairwise_cons, List.pairwise_cons, List.pairwise_cons]
    refine ⟨hs1, ⟨?_, ?_, ?_, hs3⟩, ?_⟩
    · intro y hy
      show L.2.key < _
      rcases List.mem_cons.mp hy with rfl | hy
      · exact h1
      · rcases List.mem_cons.mp hy with rfl | hy
        · exact p3
        · exact p6 y hy
    · intro y hy
      show n.key < _
      rcases List.mem_cons.mp hy with rfl | hy
      · exact h2
      · exact lt_trans h2 (p7 y hy)
    · exact p7
    · intro x hx y hy
      rcases List.mem_cons.mp hy with rfl | hy
      · exact p1 x hx
      · rcases List.mem_cons.mp hy with rfl | hy
        · exact lt_trans (p1 x hx) h1
        · rcases List.mem_cons.mp hy with rfl | hy
          · exact p2 x hx
          · exact lt_trans (p2 x hx) (p7 y hy)
  · obtain ⟨x, hx, g1, g2, g3⟩ := hwf.head_ok
    cases pre with
    | nil =>
      simp only [List.nil_append, List.head?_cons, Option.some.injEq] at hx
      subst hx
      exact ⟨_, rfl, g1, g2, (addr_unmarked hd).1⟩
    | cons y pre2 => exact ⟨x, hx, g1, g2, g3⟩
  · obtain ⟨x, hx, h⟩ := hwf.tail_ok
    refine ⟨x, ?_, h⟩
    rw [← hx]
    exact (getLast?_mid pre [(a, n)] post _ r).trans (getLast?_mid pre [] post L r).symm

/-- Traversal on a well-formed list, with the state it leaves. -/
theorem locate_spec {lo hi : Int} {s : LinkedListHarris}
    {c : List (Nat × node_ll_linked)} (hwf : WF lo hi s c) (k : Int)
    (fuel : Nat) (hf : c.length ≤ fuel) (left0 : Nat) :
    ∃ pre L mid r post, Located lo k c pre L mid r post ∧
      harris_search fuel s k left0 = some (r.1, L.1, after_search s L r) ∧
      WF lo hi (after_search s L r) (pre ++ relink L r.1 :: r :: post) ∧
      deref (after_search s L r).mem r.1 = some r.2 ∧
      deref (after_search s L r).mem L.1 = some (relink L r.1).2 ∧
      (mid = [] → after_search s L r = s) := by
  obtain ⟨pre, L, mid, r, post, e, q1, q2, q3, q4, hs, hsame⟩ :=
    harris_search_spec hwf k fuel hf left0
  subst e
  have hseg := hwf.seg
  have hLd : deref s.mem L.1 = some L.2 := Seg_deref hseg (by simp)
  have hrd : deref s.mem r.1 = some r.2 := Seg_deref hseg (by simp)
  have hrL : r.1 ≠ L.1 :=
    addr_ne_of_key_ne hseg (by simp) (by simp) (ne_of_gt (pairwise_mid hwf.sorted).2.2.1)
  refine ⟨pre, L, mid, r, post, ⟨rfl, q1, q2, q3, q4⟩, hs, WF_unlink hwf, ?_, ?_, ?_⟩
  · show deref (write_next s.mem L.1 L.2 r.1) r.1 = _
    rw [deref_write_next hLd, if_neg hrL]; exact hrd
  · show deref (write_next s.mem L.1 L.2 r.1) L.1 = _
    rw [deref_write_next hLd, if_pos rfl]; rfl
  · intro hm
    show LinkedListHarris.mk s.head (write_next s.mem L.1 L.2 r.1) = s
    rw [hsame hm]

/-- Result of `search` on a well-formed list. -/
theorem search_spec {lo hi : Int} {s : LinkedListHarris}
    {c : List (Nat × node_ll_linked)} (hwf : WF lo hi s c) (k : Int)
    (fuel : Nat) (hf : c.length ≤ fuel) :
    ∃ pre L mid r post, Located lo k c pre L mid r post ∧
      search fuel s k
        = some (if r.2.next = 0 ∨ r.2.key ≠ k then 0 else r.2.val, after_search s L r) ∧
      WF lo hi (after_search s L r) (pre ++ relink L r.1 :: r :: post) ∧
      (mid = [] → after_search s L r = s) := by
  obtain ⟨pre, L, mid, r, post, hloc, hs, hwf1, hr, -, hsame⟩ :=
    locate_spec hwf k fuel hf s.head
  refine ⟨pre, L, mid, r, post, hloc, ?_, hwf1, hsame⟩
  unfold search harris_find
  simp only [hs, hr]
  split <;> rfl

/-- Result of `insert` on a well-formed list. -/
theorem insert_spec {lo hi : Int} {s : LinkedListHarris}
    {c : List (Nat × node_ll_linked)} (hwf : WF lo hi s c) (k v : Int)
    (fuel : Nat) (hf : c.length < fuel) :
    ∃ pre L mid r post, Located lo k c pre L mid r post ∧
      WF lo hi (after_search s L r) (pre ++ relink L r.1 :: r :: post) ∧
      (mid = [] → after_search s L r = s) ∧
      (r.2.key = k → insert fuel s k v = some (0, after_search s L r)) ∧
      (r.2.key ≠ k → lo < k → k < hi →
        insert fuel s k v = some (1, after_insert s L r k v) ∧
        WF lo hi (after_insert s L r k v)
          (pre ++ relink L (2 * (s.mem.length + 1)) ::
            (2 * (s.mem.length + 1), node_ll_linked.mk k v r.1) :: r :: post)) := by
  obtain ⟨fuel2, rfl⟩ : ∃ f, fuel = f + 1 := ⟨fuel - 1, by omega⟩
  obtain ⟨pre, L, mid, r, post, hloc, hs, hwf1, hr, hL, hsame⟩ :=
    locate_spec hwf k fuel2 (by omega) s.head
  refine ⟨pre, L, mid, r, post, hloc, hwf1, hsame, ?_, ?_⟩
  · intro hk
    unfold insert harris_insert harris_insert_loop
    simp only [hs, hr, hk, if_true]
  · intro hk hlo hhi
    have hlen : (after_search s L r).mem.length = s.mem.length := length_write_next _ _ _ _
    have hwf2 := WF_alloc hwf1 (node_ll_linked.mk k v r.1)
    have hnew : deref ((after_search s L r).mem ++ [node_ll_linked.mk k v r.1])
        (2 * (s.mem.length + 1)) = some (node_ll_linked.mk k v r.1) := by
      rw [← hlen]; exact deref_append_new _ _
    have hL2 : deref ((after_search s L r).mem ++ [node_ll_linked.mk k v r.1]) L.1
        = some (relink L r.1).2 := deref_append_old hL _
    have hrk : k < r.2.key := by
      rcases hloc.right_ok with h0 | ⟨-, h1⟩
      · have := (WF_right (hloc.split ▸ hwf)).1 h0
        omega
      · omega
    have hoff : ∀ x ∈ pre ++ relink L r.1 :: r :: post, x.1 ≠ 2 * (s.mem.length + 1) := by
      intro x hx
      rw [← hlen]
      exact deref_fresh (Seg_deref hwf1.seg hx)
    have hwf3 := WF_link hwf2 (2 * (s.mem.length + 1)) (node_ll_linked.mk k v r.1) hnew rfl hoff
      (hloc.left_key hlo) hrk
    refine ⟨?_, hwf3⟩
    unfold insert harris_insert harris_insert_loop
    simp only [hs, hr, hk, if_false, if_true, allocate_node_ll_linked, hlen]
    have hcas : ATOMIC_CAS_MB ((after_search s L r).mem ++ [node_ll_linked.mk k v r.1]) L.1 r.1
        (2 * (s.mem.length + 1)) = some (true, (after_insert s L r k v).mem) := by
      unfold ATOMIC_CAS_MB
      rw [hL2]
      show (if r.1 = r.1 then _ else _) = _
      rw [if_pos rfl]
      rfl
    rw [hcas]
    rfl

/-- Result of `remove` on a well-formed list. -/
theorem remove_spec {lo hi : Int} {s : LinkedListHarris}
    {c : List (Nat × node_ll_linked)} (hwf : WF lo hi s c) (k : Int)
    (hhi : k ≠ hi) (fuel : Nat) (hf : c.length < fuel) :
    ∃ pre L mid r post, Located lo k c pre L mid r post ∧
      WF lo hi (after_search s L r) (pre ++ relink L r.1 :: r :: post) ∧
      (mid = [] → after_search s L r = s) ∧
      (r.2.key ≠ k → remove fuel s k = some (0, after_search s L r)) ∧
      (r.2.key = k → remove fuel s k = some (r.2.val, after_remove s L r) ∧
        is_marked_ref r.2.next = 0 ∧ post ≠ [] ∧
        WF lo hi (after_remove s L r) (pre ++ relink L r.2.next :: post)) := by
  obtain ⟨fuel2, rfl⟩ : ∃ f, fuel = f + 1 := ⟨fuel - 1, by omega⟩
  obtain ⟨pre, L, mid, r, post, hloc, hs, hwf1, hr, hL, hsame⟩ :=
    locate_spec hwf k fuel2 (by omega) s.head
  refine ⟨pre, L, mid, r, post, hloc, hwf1, hsame, ?_, ?_⟩
  · intro hk
    unfold remove harris_remove harris_remove_loop
    simp only [hs, hr, hk, ne_eq, not_false_eq_true, if_true]
  · intro hk
    have hright := WF_right (hloc.split ▸ hwf)
    have hnz : r.2.next ≠ 0 := by
      intro h0
      have := (hright.1 h0).2.1
      omega
    have hru : is_marked_ref r.2.next = 0 := by
      rcases hloc.right_ok with h0 | ⟨h1, -⟩
      · exact absurd h0 hnz
      · exact h1
    have hpost : post ≠ [] := (hright.2 hnz).1
    have hrL : r.1 ≠ L.1 := by
      have hs1 := hwf1.sorted
      have hs2 : (pre ++ relink L r.1 :: ([] ++ r :: post)).Pairwise
          (fun x y => x.2.key < y.2.key) := hs1
      have hlt : (relink L r.1).2.key < r.2.key := (pairwise_mid hs2).2.2.1
      have hmL : relink L r.1 ∈ pre ++ relink L r.1 :: r :: post := by simp
      have hmr : r ∈ pre ++ relink L r.1 :: r :: post := by simp
      exact fun h => (addr_ne_of_key_ne hwf1.seg hmL hmr (ne_of_lt hlt)) h.symm
    -- the mark step
    have hwf1b : WF lo hi (after_search s L r) ((pre ++ [relink L r.1]) ++ r :: post) := by
      simpa using hwf1
    have hwfm := WF_mark hwf1b (by simp) hpost
    have hLm : deref (write_next (after_search s L r).mem r.1 r.2 (get_marked_ref r.2.next)) L.1
        = some (relink L r.1).2 := by
      rw [deref_write_next hr, if_neg (Ne.symm hrL)]; exact hL
    have hrm : deref (write_next (after_search s L r).mem r.1 r.2 (get_marked_ref r.2.next)) r.1
        = some (node_ll_linked.mk r.2.key r.2.val (get_marked_ref r.2.next)) := by
      rw [deref_write_next hr, if_pos rfl]
    -- the unlink step
    obtain ⟨p0, post2, rfl⟩ : ∃ p0 post2, post = p0 :: post2 := by
      cases post with
      | nil => exact absurd rfl hpost
      | cons p0 post2 => exact ⟨p0, post2, rfl⟩
    have hp0 : r.2.next = p0.1 := by
      have h1 := hwf1.seg
      rw [Seg_append, ] at h1
      obtain ⟨m, -, h1⟩ := h1
      rw [Seg_cons, Seg_cons, Seg_cons, unmarked_fix hru] at h1
      exact h1.2.2.2.2.1
    have hwfm2 : WF lo hi
        (LinkedListHarris.mk (after_search s L r).head
          (write_next (after_search s L r).mem r.1 r.2 (get_marked_ref r.2.next)))
        (pre ++ relink L r.1 ::
          ([(r.1, node_ll_linked.mk r.2.key r.2.val (get_marked_ref r.2.next))]
            ++ p0 :: post2)) := by
      simpa using hwfm
    have hwfu := WF_unlink hwfm2
    refine ⟨?_, hru, hpost, ?_⟩
    · unfold remove harris_remove harris_remove_loop
      simp only [hs, hr, hk, ne_eq, not_true_eq_false, if_false, hru, if_true]
      have hcas : ATOMIC_CAS_MB (after_search s L r).mem r.1 r.2.next (get_marked_ref r.2.next)
          = some (true, write_next (after_search s L r).mem r.1 r.2 (get_marked_ref r.2.next)) := by
        unfold ATOMIC_CAS_MB
        rw [hr]
        show (if r.2.next = r.2.next then _ else _) = _
        rw [if_pos rfl]
      simp only [hcas, hrm]
      unfold harris_remove_unlink
      have hcas2 : ATOMIC_CAS_MB
          (write_next (after_search s L r).mem r.1 r.2 (get_marked_ref r.2.next)) L.1 r.1 r.2.next
          = some (true, (after_remove s L r).mem) := by
        unfold ATOMIC_CAS_MB
        rw [hLm]
        show (if r.1 = r.1 then _ else _) = _
        rw [if_pos rfl]
        rfl
      simp only [hcas2]
      rfl
    · rw [← hp0] at hwfu
      exact hwfu

theorem unmarked_iff (x : Nat × node_ll_linked) : unmarked x = true ↔ is_marked_ref x.2.next = 0 := by
  simp [unmarked]

theorem unmarked_relink (x : Nat × node_ll_linked) (w : Nat) :
    unmarked (relink x w) = decide (is_marked_ref w = 0) := rfl

theorem liveB_append (lo hi : Int) (a b : List (Nat × node_ll_linked)) :
    liveB lo hi (a ++ b) = liveB lo hi a ++ liveB lo hi b := by
  simp [liveB]

theorem liveB_cons (lo hi : Int) (x : Nat × node_ll_linked) (b : List (Nat × node_ll_linked)) :
    liveB lo hi (x :: b) = liveB lo hi [x] ++ liveB lo hi b := by
  rw [← liveB_append]; rfl

theorem liveB_nil (lo hi : Int) : liveB lo hi [] = [] := rfl

theorem liveB_marked (lo hi : Int) (m : List (Nat × node_ll_linked))
    (h : ∀ x ∈ m, is_marked_ref x.2.next ≠ 0) : liveB lo hi m = [] := by
  unfold liveB
  rw [List.map_eq_nil_iff, List.filter_eq_nil_iff]
  intro x hx
  have := h x hx
  simp [unmarked, this]

theorem liveB_relink (lo hi : Int) (x : Nat × node_ll_linked) (w : Nat)
    (h1 : is_marked_ref x.2.next = 0) (h2 : is_marked_ref w = 0) :
    liveB lo hi [relink x w] = liveB lo hi [x] := by
  simp only [liveB, List.filter_cons, unmarked, relink, h1, h2, decide_True, Bool.true_and,
    List.filter_nil]
  split <;> rfl

theorem liveB_one (lo hi : Int) (x : Nat × node_ll_linked)
    (h1 : is_marked_ref x.2.next = 0) (h2 : lo < x.2.key) (h3 : x.2.key < hi) :
    liveB lo hi [x] = [kv x] := by
  simp [liveB, List.filter_cons, unmarked, h1, h2, h3]

theorem mem_liveB {lo hi : Int} {c : List (Nat × node_ll_linked)} {y : Int × Int} :
    y ∈ liveB lo hi c ↔
      ∃ x ∈ c, is_marked_ref x.2.next = 0 ∧ lo < x.2.key ∧ x.2.key < hi ∧ kv x = y := by
  simp [liveB, unmarked, and_assoc]

/-- On a well-formed chain the content by position and by key agree. -/
theorem live_eq_liveB {lo hi : Int} {s : LinkedListHarris} {c : List (Nat × node_ll_linked)}
    (hwf : WF lo hi s c) : live c = liveB lo hi c := by
  obtain ⟨h, rest, rfl, hne, -, hkey, -, -, -, -, hlast⟩ := WF_cons hwf
  obtain ⟨t, ht⟩ : ∃ t, rest.getLast? = some t := by
    cases hr : rest.getLast? with
    | none => exact absurd (List.getLast?_eq_none_iff.mp hr) hne
    | some t => exact ⟨t, rfl⟩
  obtain ⟨init, rfl⟩ : ∃ init, rest = init ++ [t] :=
    ⟨rest.dropLast, (List.dropLast_append_getLast? t ht).symm⟩
  have hthi := (hlast t ht).1
  have hs := hwf.sorted
  rw [List.pairwise_cons, List.pairwise_append] at hs
  obtain ⟨hs1, -, -, hs3⟩ := hs
  have e1 : live (h :: (init ++ [t])) = (init.filter unmarked).map kv := by
    simp [live]
  have hh : liveB lo hi [h] = [] := by
    simp [liveB, List.filter_cons, hkey]
  have htl : liveB lo hi [t] = [] := by
    simp [liveB, List.filter_cons, hthi]
  rw [e1, liveB_cons, liveB_append, hh, htl, List.nil_append, List.append_nil]
  unfold liveB
  congr 1
  apply List.filter_congr
  intro x hx
  have h1 := hs1 x (List.mem_append_left _ hx)
  have h2 := hs3 x hx t (by simp)
  have a1 : lo < x.2.key := by omega
  have a2 : x.2.key < hi := by omega
  simp [a1, a2]

/-- No two chain entries share a key. -/
theorem key_inj {lo hi : Int} {s : LinkedListHarris} {c : List (Nat × node_ll_linked)}
    (hwf : WF lo hi s c) {x y : Nat × node_ll_linked} (hx : x ∈ c) (hy : y ∈ c)
    (h : x.2.key = y.2.key) : x = y := by
  by_contra hne
  have hp : c.Pairwise (fun a b => a.2.key ≠ b.2.key) :=
    hwf.sorted.imp (fun hab => ne_of_lt hab)
  exact hp.forall (fun a b hab => Ne.symm hab) hx hy hne h

/-- The successor found by a traversal is the only place where the key can
be logically present. -/
theorem found_eq {lo hi k : Int} {s : LinkedListHarris}
    {c pre mid post : List (Nat × node_ll_linked)} {L r : Nat × node_ll_linked}
    (hwf : WF lo hi s c) (hloc : Located lo k c pre L mid r post) (hlo : lo < k)
    {x : Nat × node_ll_linked} (hx : x ∈ c) (hu : is_marked_ref x.2.next = 0)
    (hk : x.2.key = k) : x = r := by
  have e := hloc.split
  subst e
  obtain ⟨p1, p2, p3, p4, p5, p6, p7⟩ := pairwise_mid hwf.sorted
  have hLk := hloc.left_key hlo
  simp only [List.mem_append, List.mem_cons] at hx
  rcases hx with hx | rfl | hx | rfl | hx
  · have := p1 x hx; omega
  · omega
  · exact absurd hu (hloc.mid_marked x hx)
  · rfl
  · have hpost : post ≠ [] := List.ne_nil_of_mem hx
    have hr := WF_right hwf
    have hnz : r.2.next ≠ 0 := fun h0 => hpost (hr.1 h0).1
    have := p7 x hx
    rcases hloc.right_ok with h0 | ⟨-, h1⟩
    · exact absurd h0 hnz
    · omega

/-- The key is logically present exactly when the successor carries it. -/
theorem present_iff {lo hi k : Int} {s : LinkedListHarris}
    {c pre mid post : List (Nat × node_ll_linked)} {L r : Nat × node_ll_linked}
    (hwf : WF lo hi s c) (hloc : Located lo k c pre L mid r post) (hlo : lo < k) :
    present c k ↔ r.2.key = k := by
  constructor
  · rintro ⟨x, hx, hu, hk⟩
    have := found_eq hwf hloc hlo hx hu hk
    subst this
    exact hk
  · intro hk
    refine ⟨r, ?_, ?_, hk⟩
    · rw [hloc.split]; simp
    · rcases hloc.right_ok with h0 | ⟨h1, -⟩
      · rw [h0, is_marked_ref_eq]
      · exact h1

/-- Presence read off the abstract content. -/
theorem present_iff_live {lo hi k : Int} {s : LinkedListHarris}
    {c : List (Nat × node_ll_linked)} (hwf : WF lo hi s c) (hlo : lo < k) (hhi : k < hi) :
    present c k ↔ k ∈ (live c).map Prod.fst := by
  rw [live_eq_liveB hwf, List.mem_map]
  constructor
  · rintro ⟨x, hx, hu, hk⟩
    exact ⟨kv x, mem_liveB.mpr ⟨x, hx, hu, by omega, by omega, rfl⟩, hk⟩
  · rintro ⟨y, hy, hk⟩
    obtain ⟨x, hx, hu, -, -, rfl⟩ := mem_liveB.mp hy
    exact ⟨x, hx, hu, hk⟩

/-- A traversal does not change the abstract content. -/
theorem liveB_after_search {lo hi k : Int} {s : LinkedListHarris}
    {c pre mid post : List (Nat × node_ll_linked)} {L r : Nat × node_ll_linked}
    (hwf : WF lo hi s c) (hloc : Located lo k c pre L mid r post) :
    liveB lo hi (pre ++ relink L r.1 :: r :: post) = liveB lo hi c := by
  have e := hloc.split
  subst e
  have hrd : deref s.mem r.1 = some r.2 := Seg_deref hwf.seg (by simp)
  have e1 : liveB lo hi (pre ++ relink L r.1 :: r :: post)
      = liveB lo hi pre ++ (liveB lo hi [L] ++ liveB lo hi (r :: post)) := by
    rw [liveB_append, liveB_cons,
      liveB_relink lo hi L r.1 hloc.left_unmarked (addr_unmarked hrd).1]
  have e2 : liveB lo hi (pre ++ L :: (mid ++ r :: post))
      = liveB lo hi pre ++ (liveB lo hi [L] ++ liveB lo hi (r :: post)) := by
    rw [liveB_append, liveB_cons lo hi L, liveB_append,
      liveB_marked lo hi mid hloc.mid_marked, List.nil_append]
  rw [e1, e2]

/-- A traversal changes no key, no value and no mark, and adds no node. -/
theorem sameNodes_after_search {lo hi k : Int} {s : LinkedListHarris}
    {c pre mid post : List (Nat × node_ll_linked)} {L r : Nat × node_ll_linked}
    (hwf : WF lo hi s c) (hloc : Located lo k c pre L mid r post) :
    sameNodes s (after_search s L r) := by
  have e := hloc.split
  subst e
  have hLd : deref s.mem L.1 = some L.2 := Seg_deref hwf.seg (by simp)
  have hrd : deref s.mem r.1 = some r.2 := Seg_deref hwf.seg (by simp)
  refine ⟨rfl, length_write_next _ _ _ _, ?_, L.1, ?_⟩
  · intro p n hp
    show ∃ n1, deref (write_next s.mem L.1 L.2 r.1) p = some n1 ∧ _
    rw [deref_write_next hLd]
    by_cases hpL : p = L.1
    · subst hpL
      rw [hLd] at hp
      cases hp
      refine ⟨_, if_pos rfl, rfl, rfl, ?_⟩
      show is_marked_ref r.1 = _
      rw [(addr_unmarked hrd).1, hloc.left_unmarked]
    · exact ⟨n, by rw [if_neg hpL]; exact hp, rfl, rfl, rfl⟩
  · intro q hq
    show deref (write_next s.mem L.1 L.2 r.1) q = _
    rw [deref_write_next hLd, if_neg hq]

theorem length_after_search (pre mid post : List (Nat × node_ll_linked))
    (L r : Nat × node_ll_linked) (w : Nat) :
    (pre ++ relink L w :: r :: post).length ≤ (pre ++ L :: (mid ++ r :: post)).length := by
  simp only [List.length_append, List.length_cons]
  omega

/-- Cleanup unlinks marked nodes only: an unmarked chain node is still on the
chain after the traversal, at the same address, with its key and value. -/
theorem unmarked_kept {lo k : Int} {c pre mid post : List (Nat × node_ll_linked)}
    {L r : Nat × node_ll_linked} (hloc : Located lo k c pre L mid r post)
    {y : Nat × node_ll_linked} (hy : y ∈ c) (hu : is_marked_ref y.2.next = 0) :
    ∃ z ∈ pre ++ relink L r.1 :: r :: post, z.1 = y.1 ∧ kv z = kv y := by
  rw [hloc.split] at hy
  simp only [List.mem_append, List.mem_cons] at hy
  rcases hy with hy | rfl | hy | rfl | hy
  · exact ⟨y, by simp [hy], rfl, rfl⟩
  · exact ⟨relink y r.1, by simp, rfl, rfl⟩
  · exact absurd hu (hloc.mid_marked y hy)
  · exact ⟨y, by simp, rfl, rfl⟩
  · exact ⟨y, by simp [hy], rfl, rfl⟩

/-- Abstract effect of `search`. -/
theorem search_abs {lo hi : Int} {s : LinkedListHarris}
    {c : List (Nat × node_ll_linked)} (hwf : WF lo hi s c) (k : Int)
    (fuel : Nat) (hf : c.length ≤ fuel) :
    ∃ res s1 c1, search fuel s k = some (res, s1) ∧ WF lo hi s1 c1 ∧ live c1 = live c ∧
      c1.length ≤ c.length ∧ sameNodes s s1 ∧
      ((∀ x ∈ c, is_marked_ref x.2.next ≠ 0 → False) → s1 = s) ∧
      (∀ x ∈ c, is_marked_ref x.2.next = 0 → x.2.key = k → x.2.key ≠ hi → res = x.2.val) ∧
      ((∀ x ∈ c, is_marked_ref x.2.next = 0 → x.2.key = k → x.2.key = hi) → res = 0) ∧
      (∀ y ∈ c, is_marked_ref y.2.next = 0 → ∃ z ∈ c1, z.1 = y.1 ∧ kv z = kv y) := by
  obtain ⟨pre, L, mid, r, post, hloc, hs, hwf1, hsame⟩ := search_spec hwf k fuel hf
  have hrc : r ∈ c := by rw [hloc.split]; simp
  have hLc : L ∈ c := by rw [hloc.split]; simp
  have hright := WF_right (hloc.split ▸ hwf)
  have hsorted := hwf.sorted
  rw [hloc.split] at hsorted
  have hLr : L.2.key < r.2.key := (pairwise_mid hsorted).2.2.1
  refine ⟨_, _, _, hs, hwf1, ?_, ?_, sameNodes_after_search hwf hloc, ?_, ?_, ?_,
    fun y hy hu => unmarked_kept hloc hy hu⟩
  · rw [live_eq_liveB hwf1, live_eq_liveB hwf, liveB_after_search hwf hloc]
  · rw [hloc.split]; exact length_after_search _ _ _ _ _ _
  · intro hnm
    apply hsame
    cases hm : mid with
    | nil => rfl
    | cons m mid2 =>
      exfalso
      have hmc : m ∈ c := by rw [hloc.split, hm]; simp
      exact hnm m hmc (hloc.mid_marked m (by rw [hm]; simp))
  · intro x hx hu hk hnt
    by_cases hlo : lo < k
    · have := found_eq hwf hloc hlo hx hu hk
      subst this
      have hnz : x.2.next ≠ 0 := fun h0 => hnt (hright.1 h0).2.1
      rw [if_neg (by rintro (h | h); exact hnz h; exact h hk)]
    · have hxlo := (WF_key_bounds hwf hx).1
      have hLlo := (WF_key_bounds hwf hLc).1
      obtain ⟨h0, h0c, h0k, h0v, -⟩ : ∃ h0, h0 ∈ c ∧ h0.2.key = lo ∧ h0.2.val = 0 ∧ True := by
        obtain ⟨y, hy, g1, g2, -⟩ := hwf.head_ok
        exact ⟨y, List.mem_of_mem_head? hy, g1, g2, trivial⟩
      have : x = h0 := key_inj hwf hx h0c (by omega)
      subst this
      rw [if_pos (Or.inr (by omega)), h0v]
  · intro hno
    by_cases hres : r.2.next = 0 ∨ r.2.key ≠ k
    · rw [if_pos hres]
    · exfalso
      push_neg at hres
      have hu : is_marked_ref r.2.next = 0 := by
        rcases hloc.right_ok with h0 | ⟨h1, -⟩
        · exact absurd h0 hres.1
        · exact h1
      have := hno r hrc hu hres.2
      have := (hright.2 hres.1).2
      omega

theorem no_marked_mid {lo k : Int} {c pre mid post : List (Nat × node_ll_linked)}
    {L r : Nat × node_ll_linked} (hloc : Located lo k c pre L mid r post)
    (hnm : ∀ x ∈ c, is_marked_ref x.2.next ≠ 0 → False) : mid = [] := by
  cases hm : mid with
  | nil => rfl
  | cons m mid2 =>
    exfalso
    have hmc : m ∈ c := by rw [hloc.split, hm]; simp
    exact hnm m hmc (hloc.mid_marked m (by rw [hm]; simp))

/-- The content of a chain split at the located pair. -/
theorem liveB_split {lo hi k : Int} {c pre mid post : List (Nat × node_ll_linked)}
    {L r : Nat × node_ll_linked} (hloc : Located lo k c pre L mid r post) :
    liveB lo hi c = (liveB lo hi pre ++ liveB lo hi [L]) ++ liveB lo hi (r :: post) := by
  rw [hloc.split, liveB_append, liveB_cons lo hi L, liveB_append,
    liveB_marked lo hi mid hloc.mid_marked, List.nil_append, List.append_assoc]

/-- Abstract effect of `insert` when the key is logically present. -/
theorem insert_present {lo hi : Int} {s : LinkedListHarris}
    {c : List (Nat × node_ll_linked)} (hwf : WF lo hi s c) (k v : Int) (hlo : lo < k)
    (hp : present c k) (fuel : Nat) (hf : c.length < fuel) :
    ∃ s1 c1, insert fuel s k v = some (0, s1) ∧ WF lo hi s1 c1 ∧ live c1 = live c ∧
      c1.length ≤ c.length ∧ sameNodes s s1 ∧ present c1 k ∧
      (∀ x ∈ c, is_marked_ref x.2.next = 0 → x.2.key = k →
        ∃ y ∈ c1, is_marked_ref y.2.next = 0 ∧ y.2.key = k ∧ y.2.val = x.2.val) ∧
      ((∀ x ∈ c, is_marked_ref x.2.next ≠ 0 → False) → s1 = s) ∧
      (∀ y ∈ c, is_marked_ref y.2.next = 0 → ∃ z ∈ c1, z.1 = y.1 ∧ kv z = kv y) := by
  obtain ⟨pre, L, mid, r, post, hloc, hwf1, hsame, h0, -⟩ := insert_spec hwf k v fuel hf
  have hrk := (present_iff hwf hloc hlo).mp hp
  have hru : is_marked_ref r.2.next = 0 := by
    rcases hloc.right_ok with h0 | ⟨h1, -⟩
    · rw [h0, is_marked_ref_eq]
    · exact h1
  have hr1 : r ∈ pre ++ relink L r.1 :: r :: post := by simp
  refine ⟨_, _, h0 hrk, hwf1, ?_, ?_, sameNodes_after_search hwf hloc, ⟨r, hr1, hru, hrk⟩, ?_,
    fun hnm => hsame (no_marked_mid hloc hnm), fun y hy hu => unmarked_kept hloc hy hu⟩
  · rw [live_eq_liveB hwf1, live_eq_liveB hwf, liveB_after_search hwf hloc]
  · rw [hloc.split]; exact length_after_search _ _ _ _ _ _
  · intro x hx hu hk
    have := found_eq hwf hloc hlo hx hu hk
    subst this
    exact ⟨x, hr1, hu, hk, rfl⟩

/-- Abstract effect of `insert` when the key is not logically present. -/
theorem insert_absent {lo hi : Int} {s : LinkedListHarris}
    {c : List (Nat × node_ll_linked)} (hwf : WF lo hi s c) (k v : Int) (hlo : lo < k)
    (hhi : k < hi) (hp : ¬ present c k) (fuel : Nat) (hf : c.length < fuel) :
    ∃ s1 c1 A B, insert fuel s k v = some (1, s1) ∧ WF lo hi s1 c1 ∧
      live c = A ++ B ∧ live c1 = A ++ (k, v) :: B ∧
      c1.length ≤ c.length + 1 ∧
      (∃ y ∈ c1, is_marked_ref y.2.next = 0 ∧ y.2.key = k ∧ y.2.val = v) := by
  obtain ⟨pre, L, mid, r, post, hloc, hwf1, hsame, -, h1⟩ := insert_spec hwf k v fuel hf
  have hrk : r.2.key ≠ k := fun h => hp ((present_iff hwf hloc hlo).mpr h)
  obtain ⟨hins, hwf2⟩ := h1 hrk hlo hhi
  have hrd : deref s.mem r.1 = some r.2 := Seg_deref hwf.seg (by rw [hloc.split]; simp)
  have hru := (addr_unmarked hrd).1
  have hau : is_marked_ref (2 * (s.mem.length + 1)) = 0 := by
    rw [is_marked_ref_eq]; omega
  refine ⟨_, _, liveB lo hi pre ++ liveB lo hi [L], liveB lo hi (r :: post), hins, hwf2, ?_, ?_,
    ?_, ⟨(2 * (s.mem.length + 1), node_ll_linked.mk k v r.1), by simp, hru, rfl, rfl⟩⟩
  · rw [live_eq_liveB hwf, liveB_split hloc]
  · rw [live_eq_liveB hwf2, liveB_append,
      liveB_cons lo hi (relink L (2 * (s.mem.length + 1)))
        ((2 * (s.mem.length + 1), node_ll_linked.mk k v r.1) :: r :: post),
      liveB_relink lo hi L _ hloc.left_unmarked hau,
      liveB_cons lo hi (2 * (s.mem.length + 1), node_ll_linked.mk k v r.1) (r :: post),
      liveB_one lo hi (2 * (s.mem.length + 1), node_ll_linked.mk k v r.1) hru hlo hhi]
    simp [kv]
  · rw [hloc.split]
    simp only [List.length_append, List.length_cons]
    omega

/-- Abstract effect of `remove` when the key is logically present. -/
theorem remove_present {lo hi : Int} {s : LinkedListHarris}
    {c : List (Nat × node_ll_linked)} (hwf : WF lo hi s c) (k : Int) (hlo : lo < k)
    (hhi : k ≠ hi) {x : Nat × node_ll_linked} (hx : x ∈ c) (hu : is_marked_ref x.2.next = 0)
    (hk : x.2.key = k) (fuel : Nat) (hf : c.length < fuel) :
    ∃ s1 c1 A B, remove fuel s k = some (x.2.val, s1) ∧ WF lo hi s1 c1 ∧
      live c = A ++ (k, x.2.val) :: B ∧ live c1 = A ++ B ∧ c1.length ≤ c.length := by
  obtain ⟨pre, L, mid, r, post, hloc, hwf1, hsame, -, h1⟩ := remove_spec hwf k hhi fuel hf
  have := found_eq hwf hloc hlo hx hu hk
  subst this
  obtain ⟨hrem, -, hpost, hwf3⟩ := h1 hk
  have hklt : x.2.key < hi := by
    have := (WF_key_bounds hwf hx).2
    omega
  refine ⟨_, _, liveB lo hi pre ++ liveB lo hi [L], liveB lo hi post, hrem, hwf3, ?_, ?_, ?_⟩
  · rw [live_eq_liveB hwf, liveB_split hloc, liveB_cons lo hi x post,
      liveB_one lo hi x hu (by omega) hklt]
    simp [kv, hk]
  · rw [live_eq_liveB hwf3, liveB_append, liveB_cons lo hi (relink L x.2.next) post,
      liveB_relink lo hi L _ hloc.left_unmarked hu, List.append_assoc]
  · rw [hloc.split]
    simp only [List.length_append, List.length_cons]
    omega

/-- Abstract effect of `remove` when the successor does not carry the key. -/
theorem remove_absent {lo hi : Int} {s : LinkedListHarris}
    {c : List (Nat × node_ll_linked)} (hwf : WF lo hi s c) (k : Int) (hhi : k ≠ hi)
    (hp : lo < k → ¬ present c k) (fuel : Nat) (hf : c.length < fuel) :
    ∃ s1 c1, remove fuel s k = some (0, s1) ∧ WF lo hi s1 c1 ∧ live c1 = live c ∧
      c1.length ≤ c.length ∧ sameNodes s s1 ∧
      ((∀ x ∈ c, is_marked_ref x.2.next ≠ 0 → False) → s1 = s) ∧
      (∀ y ∈ c, is_marked_ref y.2.next = 0 → ∃ z ∈ c1, z.1 = y.1 ∧ kv z = kv y) := by
  obtain ⟨pre, L, mid, r, post, hloc, hwf1, hsame, h0, -⟩ := remove_spec hwf k hhi fuel hf
  have hLc : L ∈ c := by rw [hloc.split]; simp
  have hsorted := hwf.sorted
  rw [hloc.split] at hsorted
  have hLr : L.2.key < r.2.key := (pairwise_mid hsorted).2.2.1
  have hrk : r.2.key ≠ k := by
    intro h
    have hlo : lo < k := by
      have := (WF_key_bounds hwf hLc).1
      omega
    exact hp hlo ((present_iff hwf hloc hlo).mpr h)
  refine ⟨_, _, h0 hrk, hwf1, ?_, ?_, sameNodes_after_search hwf hloc,
    fun hnm => hsame (no_marked_mid hloc hnm), fun y hy hu => unmarked_kept hloc hy hu⟩
  · rw [live_eq_liveB hwf1, live_eq_liveB hwf, liveB_after_search hwf hloc]
  · rw [hloc.split]; exact length_after_search _ _ _ _ _ _

/-- The constructed list is well formed; its chain is the two sentinels. -/
theorem WF_new (lo hi : Int) (h : lo < hi) :
    WF lo hi (LinkedListHarris.new lo hi)
      [(4, node_ll_linked.mk lo 0 2), (2, node_ll_linked.mk hi 0 0)] := by
  refine ⟨?_, ?_, ?_, ?_, h⟩
  · simp [Seg, LinkedListHarris.new, initialize_node_ll_linked, deref, get_unmarked_ref_eq]
  · simp [h]
  · exact ⟨_, rfl, rfl, rfl, by simp [is_marked_ref_eq]⟩
  · exact ⟨_, rfl, rfl, rfl, rfl⟩

/-- One supported call on a well-formed list returns, keeps the list well
formed, lengthens the chain by at most one node, and makes no key logically
present other than an inserted one. -/
theorem step_ok {lo hi : Int} {s : LinkedListHarris} {c : List (Nat × node_ll_linked)}
    (hwf : WF lo hi s c) (op : Op) (hop : op.ok lo hi) (fuel : Nat) (hf : c.length < fuel) :
    ∃ res s1 c1, op.apply fuel s = some (res, s1) ∧ WF lo hi s1 c1 ∧
      c1.length ≤ c.length + 1 ∧
      (∀ j, ¬ op.insertsKey j → j ∈ (live c1).map Prod.fst → j ∈ (live c).map Prod.fst) := by
  cases op with
  | search k =>
    obtain ⟨res, s1, c1, h1, h2, h3, h4, -⟩ := search_abs hwf k fuel (by omega)
    exact ⟨res, s1, c1, h1, h2, by omega, fun j _ hj => by rw [h3] at hj; exact hj⟩
  | insert k v =>
    obtain ⟨hlo, hhi⟩ := hop
    by_cases hp : present c k
    · obtain ⟨s1, c1, h1, h2, h3, h4, -⟩ := insert_present hwf k v hlo hp fuel hf
      exact ⟨0, s1, c1, h1, h2, by omega, fun j _ hj => by rw [h3] at hj; exact hj⟩
    · obtain ⟨s1, c1, A, B, h1, h2, h3, h4, h5, -⟩ := insert_absent hwf k v hlo hhi hp fuel hf
      refine ⟨1, s1, c1, h1, h2, h5, ?_⟩
      intro j hj hm
      rw [h4] at hm
      rw [h3]
      simp only [List.map_append, List.map_cons, List.mem_append, List.mem_cons] at hm ⊢
      rcases hm with hm | hm | hm
      · exact Or.inl hm
      · exact absurd hm.symm hj
      · exact Or.inr hm
  | remove k =>
    by_cases hp : lo < k ∧ present c k
    · obtain ⟨hlo, x, hx, hu, hk⟩ := hp
      obtain ⟨s1, c1, A, B, h1, h2, h3, h4, h5⟩ := remove_present hwf k hlo hop hx hu hk fuel hf
      refine ⟨_, s1, c1, h1, h2, by omega, ?_⟩
      intro j _ hm
      rw [h4] at hm
      rw [h3]
      simp only [List.map_append, List.map_cons, List.mem_append, List.mem_cons] at hm ⊢
      rcases hm with hm | hm
      · exact Or.inl hm
      · exact Or.inr (Or.inr hm)
    · obtain ⟨s1, c1, h1, h2, h3, h4, -⟩ :=
        remove_absent hwf k hop (fun hlo hpr => hp ⟨hlo, hpr⟩) fuel hf
      exact ⟨0, s1, c1, h1, h2, by omega, fun j _ hj => by rw [h3] at hj; exact hj⟩

/-- A sequence of supported calls on a well-formed list runs to the end,
given one unit of fuel per chain node and per call. -/
theorem run_ok {lo hi : Int} (fuel : Nat) (ops : List Op) :
    ∀ (s : LinkedListHarris) (c : List (Nat × node_ll_linked)), WF lo hi s c →
      (∀ op ∈ ops, op.ok lo hi) → c.length + ops.length < fuel + 1 →
      ∃ rs s1 c1, run fuel s ops = some (rs, s1) ∧ WF lo hi s1 c1 ∧
        c1.length ≤ c.length + ops.length ∧ rs.length = ops.length ∧
        (∀ j, (∀ op ∈ ops, ¬ op.insertsKey j) →
          j ∈ (live c1).map Prod.fst → j ∈ (live c).map Prod.fst) := by
  induction ops with
  | nil =>
    intro s c hwf _ _
    exact ⟨[], s, c, rfl, hwf, by simp, rfl, fun j _ hj => hj⟩
  | cons op ops ih =>
    intro s c hwf hok hf
    simp only [List.length_cons] at hf
    obtain ⟨res, s1, c1, h1, h2, h3, h4⟩ :=
      step_ok hwf op (hok op (by simp)) fuel (by omega)
    obtain ⟨rs, s2, c2, g1, g2, g3, g4, g5⟩ :=
      ih s1 c1 h2 (fun o ho => hok o (List.mem_cons_of_mem _ ho)) (by omega)
    refine ⟨res :: rs, s2, c2, ?_, g2, ?_, by simp [g4], ?_⟩
    · simp only [run, h1, g1]
    · simp only [List.length_cons]; omega
    · intro j hj hm
      exact h4 j (hj op (by simp)) (g5 j (fun o ho => hj o (List.mem_cons_of_mem _ ho)) hm)

/-- The counting loop of `length()` along a chain that ends in the tail
sentinel: every unmarked node before the last one is counted once. -/
theorem length_loop_spec (mem : List node_ll_linked) :
    ∀ (rest : List (Nat × node_ll_linked)) (p : Nat) (size : Int) (fuel : Nat),
      Seg mem p rest 0 → rest ≠ [] → (∀ x, rest.getLast? = some x → x.2.next = 0) →
      rest.length ≤ fuel →
      length_loop mem fuel p size = some (size + ((rest.dropLast.filter unmarked).length : Int)) := by
  intro rest
  induction rest with
  | nil => intro _ _ _ _ h; exact absurd rfl h
  | cons x rest2 ih =>
    intro p size fuel hseg _ hlast hf
    obtain ⟨fuel2, rfl⟩ : ∃ f, fuel = f + 1 := ⟨fuel - 1, by simp at hf; omega⟩
    obtain ⟨hp, hx, hrest⟩ := hseg
    subst hp
    unfold length_loop
    simp only [hx]
    cases rest2 with
    | nil =>
      have h0 : x.2.next = 0 := hlast x rfl
      simp [h0, get_unmarked_ref_eq]
    | cons y rest3 =>
      have hy := (deref_some hrest.2.1).2.1
      have hne : get_unmarked_ref x.2.next ≠ 0 := by rw [hrest.1]; exact hy
      rw [if_pos hne]
      have hlast2 : ∀ z, (y :: rest3).getLast? = some z → z.2.next = 0 := by
        intro z hz
        apply hlast
        rw [List.getLast?_cons_cons]; exact hz
      rw [ih (get_unmarked_ref x.2.next) _ fuel2 hrest (by simp) hlast2
        (by simp at hf ⊢; omega)]
      simp only [List.dropLast_cons₂, List.filter_cons]
      by_cases hu : is_marked_ref x.2.next = 0
      · simp [unmarked, hu]; omega
      · simp [unmarked, hu]

/-- Result of `length()` on a well-formed list. -/
theorem length_spec {lo hi : Int} {s : LinkedListHarris} {c : List (Nat × node_ll_linked)}
    (hwf : WF lo hi s c) (fuel : Nat) (hf : c.length ≤ fuel) :
    length fuel s = some (((live c).length : Int), s) := by
  obtain ⟨h, rest, rfl, hne, -, -, -, -, hhd, hrest, hlast⟩ := WF_cons hwf
  unfold length
  simp only [hhd]
  rw [length_loop_spec s.mem rest _ 0 fuel hrest hne (fun x hx => (hlast x hx).2.2)
    (by simp at hf; omega)]
  simp [live]

theorem withTrace_fst {α : Type} (tr : List Event) (x : Option (α × List Event)) :
    (withTrace tr x).map Prod.fst = x.map Prod.fst := by
  cases x with
  | none => rfl
  | some p => rfl

theorem withTrace_eq_some {α : Type} {tr : List Event} {x : Option (α × List Event)}
    {a : α} {tr1 : List Event} (h : withTrace tr x = some (a, tr1)) :
    ∃ tr2, x = some (a, tr2) ∧ tr1 = tr ++ tr2 := by
  cases x with
  | none => simp [withTrace] at h
  | some p =>
    obtain ⟨b, tr2⟩ := p
    simp only [withTrace, Option.some.injEq, Prod.mk.injEq] at h
    exact ⟨tr2, by rw [h.1], h.2.symm⟩

/-- Erasing the log of `harris_walk_tr` gives `harris_walk`. -/
theorem harris_walk_tr_fst (mem : List node_ll_linked) (key : Int) :
    ∀ fuel t t_next left_node left_node_next,
      (harris_walk_tr mem key fuel t t_next left_node left_node_next).map Prod.fst
        = harris_walk mem key fuel t t_next left_node left_node_next := by
  intro fuel
  induction fuel with
  | zero => intros; rfl
  | succ fuel ih =>
    intro t t_next left_node left_node_next
    unfold harris_walk_tr harris_walk
    simp only
    cases deref mem (get_unmarked_ref t_next) with
    | none => rfl
    | some n =>
      simp only
      split_ifs <;> first | rfl | rw [withTrace_fst, ih]

/-- Erasing the log of `harris_search_loop_tr` gives `harris_search_loop`. -/
theorem harris_search_loop_tr_fst (key : Int) :
    ∀ fuel s left_node left_node_next,
      (harris_search_loop_tr key fuel s left_node left_node_next).map Prod.fst
        = harris_search_loop key fuel s left_node left_node_next := by
  intro fuel
  induction fuel with
  | zero => intros; rfl
  | succ fuel ih =>
    intro s left_node left_node_next
    unfold harris_search_loop_tr harris_search_loop
    cases deref s.mem s.head with
    | none => rfl
    | some h =>
      simp only
      rw [← harris_walk_tr_fst]
      cases harris_walk_tr s.mem key fuel s.head h.next left_node left_node_next with
      | none => rfl
      | some x =>
        obtain ⟨⟨right_node, left_node1, left_node_next1⟩, tr⟩ := x
        simp only [Option.map_some']
        split_ifs with h1
        · cases deref s.mem right_node with
          | none => rfl
          | some r =>
            simp only
            split_ifs
            · rw [withTrace_fst, ih]
            · rfl
        · cases ATOMIC_CAS_MB s.mem left_node1 left_node_next1 right_node with
          | none => rfl
          | some y =>
            obtain ⟨b, mem1⟩ := y
            cases b with
            | true =>
              simp only
              cases deref mem1 right_node with
              | none => rfl
              | some r =>
                simp only
                split_ifs <;> first | rfl | rw [withTrace_fst, ih]
            | false =>
              simp only
              rw [withTrace_fst, ih]

theorem harris_search_tr_fst (fuel : Nat) (s : LinkedListHarris) (key : Int) (left_node : Nat) :
    (harris_search_tr fuel s key left_node).map Prod.fst = harris_search fuel s key left_node :=
  harris_search_loop_tr_fst key fuel s left_node s.head

/-- Erasing the log of `search_tr` gives `search`. -/
theorem search_tr_fst (fuel : Nat) (s : LinkedListHarris) (key : Int) :
    (search_tr fuel s key).map Prod.fst = search fuel s key := by
  unfold search_tr search harris_find_tr harris_find
  rw [← harris_search_tr_fst]
  cases harris_search_tr fuel s key s.head with
  | none => rfl
  | some x =>
    obtain ⟨⟨right_node, left_node1, s1⟩, tr⟩ := x
    simp only [Option.map_some']
    cases deref s1.mem right_node with
    | none => rfl
    | some r =>
      simp only
      split_ifs <;> rfl

theorem harris_insert_loop_tr_fst (key val : Int) :
    ∀ fuel s newnode left_node,
      (harris_insert_loop_tr key val fuel s newnode left_node).map Prod.fst
        = harris_insert_loop key val fuel s newnode left_node := by
  intro fuel
  induction fuel with
  | zero => intros; rfl
  | succ fuel ih =>
    intro s newnode left_node
    unfold harris_insert_loop_tr harris_insert_loop
    rw [← harris_search_tr_fst]
    cases harris_search_tr fuel s key left_node with
    | none => rfl
    | some x =>
      obtain ⟨⟨right_node, left_node1, s1⟩, tr⟩ := x
      simp only [Option.map_some']
      cases deref s1.mem right_node with
      | none => rfl
      | some r =>
        simp only
        have hcas : ∀ (ev : Event) (newnode1 : Nat) (mem2 : List node_ll_linked),
            Option.map Prod.fst
              (match ATOMIC_CAS_MB mem2 left_node1 right_node newnode1 with
              | none => none
              | some (true, mem3) =>
                some ((1, LinkedListHarris.mk s1.head mem3),
                  Event.attempt :: tr ++ [ev, Event.cas left_node1 right_node newnode1 true])
              | some (false, mem3) =>
                withTrace (Event.attempt :: tr
                    ++ [ev, Event.cas left_node1 right_node newnode1 false])
                  (harris_insert_loop_tr key val fuel (LinkedListHarris.mk s1.head mem3)
                    newnode1 left_node1))
            = (match ATOMIC_CAS_MB mem2 left_node1 right_node newnode1 with
              | none => none
              | some (true, mem3) => some (1, LinkedListHarris.mk s1.head mem3)
              | some (false, mem3) =>
                harris_insert_loop key val fuel (LinkedListHarris.mk s1.head mem3)
                  newnode1 left_node1) := by
          intro ev newnode1 mem2
          cases ATOMIC_CAS_MB mem2 left_node1 right_node newnode1 with
          | none => rfl
          | some y =>
            obtain ⟨b, mem3⟩ := y
            cases b with
            | true => rfl
            | false =>
              simp only
              rw [withTrace_fst, ih]
        split_ifs with h1 h2
        · rfl
        · exact hcas _ _ _
        · cases store_next s1.mem newnode right_node with
          | none => rfl
          | some m => exact hcas _ _ _

/-- Erasing the log of `insert_tr` gives `insert`. -/
theorem insert_tr_fst (fuel : Nat) (s : LinkedListHarris) (key val : Int) :
    (insert_tr fuel s key val).map Prod.fst = insert fuel s key val :=
  harris_insert_loop_tr_fst key val fuel s 0 s.head

theorem harris_remove_unlink_tr_fst (fuel : Nat) (s : LinkedListHarris) (key : Int)
    (left_node right_node right_node_next : Nat) (ret : Int) :
    (harris_remove_unlink_tr fuel s key left_node right_node right_node_next ret).map Prod.fst
      = harris_remove_unlink fuel s key left_node right_node right_node_next ret := by
  unfold harris_remove_unlink_tr harris_remove_unlink
  cases ATOMIC_CAS_MB s.mem left_node right_node right_node_next with
  | none => rfl
  | some y =>
    obtain ⟨b, mem1⟩ := y
    cases b with
    | true => rfl
    | false =>
      simp only
      rw [← harris_search_tr_fst]
      cases harris_search_tr fuel (LinkedListHarris.mk s.head mem1) key left_node with
      | none => rfl
      | some x =>
        obtain ⟨⟨a, b, s2⟩, tr⟩ := x
        rfl

theorem harris_remove_loop_tr_fst (key : Int) :
    ∀ fuel s left_node,
      (harris_remove_loop_tr key fuel s left_node).map Prod.fst
        = harris_remove_loop key fuel s left_node := by
  intro fuel
  induction fuel with
  | zero => intros; rfl
  | succ fuel ih =>
    intro s left_node
    unfold harris_remove_loop_tr harris_remove_loop
    rw [← harris_search_tr_fst]
    cases harris_search_tr fuel s key left_node with
    | none => rfl
    | some x =>
      obtain ⟨⟨right_node, left_node1, s1⟩, tr⟩ := x
      simp only [Option.map_some']
      cases deref s1.mem right_node with
      | none => rfl
      | some r =>
        simp only
        split_ifs with h1 h2
        · rfl
        · cases ATOMIC_CAS_MB s1.mem right_node r.next (get_marked_ref r.next) with
          | none => rfl
          | some y =>
            obtain ⟨b, mem2⟩ := y
            cases b with
            | true =>
              simp only
              cases deref mem2 right_node with
              | none => rfl
              | some r2 =>
                simp only
                rw [withTrace_fst, harris_remove_unlink_tr_fst]
            | false =>
              simp only
              rw [withTrace_fst, ih]
        · rw [withTrace_fst, ih]

/-- Erasing the log of `remove_tr` gives `remove`. -/
theorem remove_tr_fst (fuel : Nat) (s : LinkedListHarris) (key : Int) :
    (remove_tr fuel s key).map Prod.fst = remove fuel s key :=
  harris_remove_loop_tr_fst key fuel s s.head

/-- A logged run that returns is a run of the plain function. -/
theorem of_tr {α : Type} {x : Option (α × List Event)} {y : Option α} {a : α} {tr : List Event}
    (he : x.map Prod.fst = y) (h : x = some (a, tr)) : y = some a := by
  rw [← he, h]; rfl

/-- A run of the plain function that returns has a log. -/
theorem to_tr {α : Type} {x : Option (α × List Event)} {y : Option α} {a : α}
    (he : x.map Prod.fst = y) (h : y = some a) : ∃ tr, x = some (a, tr) := by
  cases x with
  | none => rw [← he] at h; simp at h
  | some p =>
    obtain ⟨b, tr⟩ := p
    rw [← he] at h
    simp only [Option.map_some', Option.some.injEq] at h
    exact ⟨tr, by rw [h]⟩

theorem visits_map_visit (vs : List Nat) : visits (vs.map Event.visit) = vs := by
  induction vs with
  | nil => rfl
  | cons a vs ih => simp [visits, ih]

theorem passes_map_visit (vs : List Nat) : passes (vs.map Event.visit) = 0 := by
  unfold passes
  rw [List.count_eq_zero]
  simp

theorem attempts_map_visit (vs : List Nat) : attempts (vs.map Event.visit) = 0 := by
  unfold attempts
  rw [List.count_eq_zero]
  simp

theorem visits_append (a b : List Event) : visits (a ++ b) = visits a ++ visits b := by
  induction a with
  | nil => rfl
  | cons x a ih => cases x <;> simp [visits, ih]

theorem passes_append (a b : List Event) : passes (a ++ b) = passes a + passes b := by
  simp [passes]

theorem attempts_append (a b : List Event) : attempts (a ++ b) = attempts a + attempts b := by
  simp [attempts]

/-- A list of heap updates holds no other event. -/
theorem updates_only {es : List Event} (h : ∀ x ∈ es, x.isUpdate = true) :
    passes es = 0 ∧ attempts es = 0 ∧ visits es = [] ∧ Event.fallback ∉ es ∧
    (∀ p e w ok, Event.cas p e w ok ∈ es → ok = true) ∧
    (∀ p w, Event.store p w ∉ es) := by
  refine ⟨?_, ?_, ?_, ?_, ?_, ?_⟩
  · unfold passes
    rw [List.count_eq_zero]
    intro hm
    simpa [Event.isUpdate] using h _ hm
  · unfold attempts
    rw [List.count_eq_zero]
    intro hm
    simpa [Event.isUpdate] using h _ hm
  · induction es with
    | nil => rfl
    | cons x es ih =>
      have hx := h x (by simp)
      have hes := ih (fun y hy => h y (by simp [hy]))
      cases x <;> simp [Event.isUpdate] at hx <;> simp [visits, hes]
  · intro hm
    simpa [Event.isUpdate] using h _ hm
  · intro p e w ok hm
    have := h _ hm
    cases ok with
    | true => rfl
    | false => simp [Event.isUpdate] at this
  · intro p w hm
    simpa [Event.isUpdate] using h _ hm

/-- The log of the walk along a chain: the addresses of a prefix of the
chain, in order. -/
theorem walk_tr_visits (mem : List node_ll_linked) (k : Int) :
    ∀ fuel rest t t_next left ln res tr,
      Seg mem (get_unmarked_ref t_next) rest 0 →
      harris_walk_tr mem k fuel t t_next left ln = some (res, tr) →
      ∃ vs, tr = vs.map Event.visit ∧ vs <+: rest.map Prod.fst := by
  intro fuel
  induction fuel with
  | zero =>
    intro rest t t_next left ln res tr _ h
    simp [harris_walk_tr] at h
  | succ fuel ih =>
    intro rest t t_next left ln res tr hseg h
    cases rest with
    | nil =>
      rw [Seg_nil] at hseg
      unfold harris_walk_tr at h
      simp [hseg, deref] at h
    | cons x rest =>
      rw [Seg_cons] at hseg
      obtain ⟨hx, hd, hrest⟩ := hseg
      unfold harris_walk_tr at h
      simp only [hx, hd] at h
      have hone : ∃ vs, [Event.visit x.1] = vs.map Event.visit ∧
          vs <+: (x :: rest).map Prod.fst :=
        ⟨[x.1], rfl, by simp [List.prefix_cons_inj]⟩
      split_ifs at h <;> first
        | (simp only [Option.some.injEq, Prod.mk.injEq] at h
           obtain ⟨-, rfl⟩ := h
           exact hone)
        | (obtain ⟨tr2, h2, rfl⟩ := withTrace_eq_some h
           obtain ⟨vs, rfl, hvs⟩ := ih rest _ _ _ _ _ _ hrest h2
           exact ⟨x.1 :: vs, rfl, by simpa [List.prefix_cons_inj] using hvs⟩)

/-- The log of one traversal of a well-formed list: one pass of the outer
loop, which visits the addresses of a prefix of the chain in order and issues
at most one compare-and-swap, a successful one with an unmarked expected
value. -/
theorem harris_search_tr_shape {lo hi : Int} {s : LinkedListHarris}
    {c : List (Nat × node_ll_linked)} (hwf : WF lo hi s c) (k : Int)
    (fuel : Nat) (hf : c.length ≤ fuel) (left0 : Nat) :
    ∃ res vs cs, harris_search_tr fuel s k left0
        = some (res, Event.pass :: (vs.map Event.visit ++ cs)) ∧
      vs <+: c.map Prod.fst ∧
      (cs = [] ∨ ∃ e, is_marked_ref e = 0 ∧ cs = [Event.cas res.2.1 e res.1 true]) := by
  obtain ⟨h, rest, rfl, hne, hh, hkey, _, hhu, hhd, hrest, hlast⟩ := WF_cons hwf
  obtain ⟨fuel2, rfl⟩ : ∃ f, fuel = f + 1 := ⟨fuel - 1, by simp at hf; omega⟩
  obtain ⟨pre, L, mid, r, post, e, hw, q1, q2, q3, q4⟩ :=
    walk_spec s.mem k (lo < k) rest [] [] h fuel2 s.head h.2.next left0 s.head hrest hne
      (fun x hx => (hlast x hx).2.2) hhu (fun hk => by omega) (by simp)
      (fun _ => ⟨hh.symm, rfl, rfl⟩) (fun hm => absurd hhu hm) (by simp at hf; omega)
  obtain ⟨tr, hwt⟩ := to_tr (harris_walk_tr_fst s.mem k fuel2 s.head h.2.next left0 s.head) hw
  obtain ⟨vs, rfl, hvs⟩ := walk_tr_visits s.mem k fuel2 rest _ _ _ _ _ _ hrest hwt
  have hpre : (s.head :: vs) <+: (h :: rest).map Prod.fst := by
    rw [← hh]
    simpa [List.prefix_cons_inj] using hvs
  have e2 : h :: rest = pre ++ L :: (mid ++ r :: post) := by simpa using e
  rw [e2] at hwf
  have hseg := hwf.seg
  have hLd : deref s.mem L.1 = some L.2 := Seg_deref hseg (by simp)
  have hrd : deref s.mem r.1 = some r.2 := Seg_deref hseg (by simp)
  obtain ⟨p1, p2, p3, p4, p5, p6, p7⟩ := pairwise_mid hwf.sorted
  have hrL : r.1 ≠ L.1 := addr_ne_of_key_ne hseg (by simp) (by simp) (ne_of_gt p3)
  have hsplit := hseg
  rw [Seg_append] at hsplit
  obtain ⟨m1, -, hsplit⟩ := hsplit
  rw [Seg_cons, unmarked_fix q1] at hsplit
  obtain ⟨-, -, hmid⟩ := hsplit
  have hrm : ¬ (r.2.next ≠ 0 ∧ is_marked_ref r.2.next ≠ 0) := by
    rintro ⟨a, b⟩
    rcases q4 with q4 | q4
    · exact a q4
    · exact b q4.1
  unfold harris_search_tr harris_search_loop_tr
  simp only [hhd, hwt]
  cases mid with
  | nil =>
    have hLr : L.2.next = r.1 := hmid.1
    simp only [hLr, if_true, hrd, hrm, if_false]
    exact ⟨_, s.head :: vs, [], by rw [List.append_nil]; rfl, hpre, Or.inl rfl⟩
  | cons m mid2 =>
    have hLm : L.2.next = m.1 := hmid.1
    have hmr : m.1 ≠ r.1 :=
      addr_ne_of_key_ne hseg (by simp) (by simp) (ne_of_lt (p5 m (by simp)))
    have hcas : ATOMIC_CAS_MB s.mem L.1 L.2.next r.1
        = some (true, write_next s.mem L.1 L.2 r.1) := by
      simp [ATOMIC_CAS_MB, hLd]
    have hrd2 : deref (write_next s.mem L.1 L.2 r.1) r.1 = some r.2 := by
      rw [deref_write_next hLd, if_neg hrL]; exact hrd
    rw [if_neg (by rw [hLm]; exact hmr)]
    simp only [hcas, hrd2, hrm, not_false_eq_true, if_true]
    exact ⟨_, s.head :: vs, [Event.cas L.1 L.2.next r.1 true], rfl, hpre,
      Or.inr ⟨L.2.next, q1, rfl⟩⟩

/-- The traversal log together with the facts of `locate_spec`. -/
theorem locate_tr_spec {lo hi : Int} {s : LinkedListHarris}
    {c : List (Nat × node_ll_linked)} (hwf : WF lo hi s c) (k : Int)
    (fuel : Nat) (hf : c.length ≤ fuel) (left0 : Nat) :
    ∃ pre L mid r post vs cs, Located lo k c pre L mid r post ∧
      harris_search_tr fuel s k left0
        = some ((r.1, L.1, after_search s L r), Event.pass :: (vs.map Event.visit ++ cs)) ∧
      vs <+: c.map Prod.fst ∧
      (cs = [] ∨ ∃ e, is_marked_ref e = 0 ∧ cs = [Event.cas L.1 e r.1 true]) ∧
      WF lo hi (after_search s L r) (pre ++ relink L r.1 :: r :: post) ∧
      deref (after_search s L r).mem r.1 = some r.2 ∧
      deref (after_search s L r).mem L.1 = some (relink L r.1).2 := by
  obtain ⟨pre, L, mid, r, post, hloc, hs, hwf1, hr, hL, -⟩ := locate_spec hwf k fuel hf left0
  obtain ⟨res, vs, cs, ht, hvs, hcs⟩ := harris_search_tr_shape hwf k fuel hf left0
  have he := of_tr (harris_search_tr_fst fuel s k left0) ht
  rw [hs] at he
  simp only [Option.some.injEq] at he
  subst he
  exact ⟨pre, L, mid, r, post, vs, cs, hloc, ht, hvs, hcs, hwf1, hr, hL⟩

/-- The log of `search` on a well-formed list. -/
theorem search_tr_shape {lo hi : Int} {s : LinkedListHarris}
    {c : List (Nat × node_ll_linked)} (hwf : WF lo hi s c) (k : Int)
    (fuel : Nat) (hf : c.length ≤ fuel) :
    ∃ res vs es, search_tr fuel s k
        = some (res, Event.pass :: (vs.map Event.visit ++ es)) ∧
      vs <+: c.map Prod.fst ∧ (∀ x ∈ es, x.isUpdate = true) ∧
      (∀ p e w ok, Event.cas p e w ok ∈ es → is_marked_ref e = 0) := by
  obtain ⟨pre, L, mid, r, post, vs, cs, hloc, ht, hvs, hcs, hwf1, hr, hL⟩ :=
    locate_tr_spec hwf k fuel hf s.head
  have hcs1 : (∀ x ∈ cs, x.isUpdate = true) ∧
      (∀ p e w ok, Event.cas p e w ok ∈ cs → is_marked_ref e = 0) := by
    rcases hcs with rfl | ⟨e, he, rfl⟩
    · simp
    · constructor
      · intro x hx
        rw [List.mem_singleton] at hx
        subst hx
        rfl
      · intro p e1 w ok hx
        rw [List.mem_singleton] at hx
        injection hx with _ h2 _ _
        rw [h2]; exact he
  unfold search_tr harris_find_tr
  simp only [ht, hr]
  split_ifs
  · exact ⟨_, vs, cs, rfl, hvs, hcs1.1, hcs1.2⟩
  · exact ⟨_, vs, cs, rfl, hvs, hcs1.1, hcs1.2⟩

/-- The log of `insert` on a well-formed list, for any key: one iteration of
the retry loop, one pass of the traversal, then only heap updates. -/
theorem insert_tr_shape {lo hi : Int} {s : LinkedListHarris}
    {c : List (Nat × node_ll_linked)} (hwf : WF lo hi s c) (k v : Int)
    (fuel : Nat) (hf : c.length < fuel) :
    ∃ res vs es, insert_tr fuel s k v
        = some (res, Event.attempt :: Event.pass :: (vs.map Event.visit ++ es)) ∧
      vs <+: c.map Prod.fst ∧ (∀ x ∈ es, x.isUpdate = true) ∧
      (∀ p e w ok, Event.cas p e w ok ∈ es → is_marked_ref e = 0) := by
  obtain ⟨fuel2, rfl⟩ : ∃ f, fuel = f + 1 := ⟨fuel - 1, by omega⟩
  obtain ⟨pre, L, mid, r, post, vs, cs, hloc, ht, hvs, hcs, hwf1, hr, hL⟩ :=
    locate_tr_spec hwf k fuel2 (by omega) s.head
  have hcs1 : (∀ x ∈ cs, x.isUpdate = true) ∧
      (∀ p e w ok, Event.cas p e w ok ∈ cs → is_marked_ref e = 0) := by
    rcases hcs with rfl | ⟨e, he, rfl⟩
    · simp
    · constructor
      · intro x hx
        rw [List.mem_singleton] at hx
        subst hx
        rfl
      · intro p e1 w ok hx
        rw [List.mem_singleton] at hx
        injection hx with _ h2 _ _
        rw [h2]; exact he
  unfold insert_tr harris_insert_tr harris_insert_loop_tr
  simp only [ht, hr]
  by_cases hk : r.2.key = k
  · rw [if_pos hk]
    exact ⟨_, vs, cs, rfl, hvs, hcs1.1, hcs1.2⟩
  · rw [if_neg hk]
    simp only [if_true, allocate_node_ll_linked]
    have hL2 : deref ((after_search s L r).mem ++ [node_ll_linked.mk k v r.1]) L.1
        = some (relink L r.1).2 := deref_append_old hL _
    have hcas : ∀ a, ATOMIC_CAS_MB ((after_search s L r).mem ++ [node_ll_linked.mk k v r.1])
        L.1 r.1 a = some (true,
          write_next ((after_search s L r).mem ++ [node_ll_linked.mk k v r.1]) L.1
            (relink L r.1).2 a) := by
      intro a
      unfold ATOMIC_CAS_MB
      rw [hL2]
      show (if r.1 = r.1 then _ else _) = _
      rw [if_pos rfl]
    simp only [hcas]
    have hl : ∀ a b : Event, Event.attempt :: Event.pass :: (vs.map Event.visit ++ cs) ++ [a, b]
        = Event.attempt :: Event.pass :: (vs.map Event.visit ++ (cs ++ [a, b])) := by
      intro a b; simp
    rw [hl]
    refine ⟨_, vs, cs ++ [Event.alloc (2 * ((after_search s L r).mem.length + 1)),
      Event.cas L.1 r.1 (2 * ((after_search s L r).mem.length + 1)) true], rfl, hvs, ?_, ?_⟩
    · intro x hx
      rw [List.mem_append] at hx
      rcases hx with hx | hx
      · exact hcs1.1 x hx
      · simp only [List.mem_cons, List.mem_singleton, List.not_mem_nil, or_false] at hx
        rcases hx with rfl | rfl <;> rfl
    · intro p e w ok hx
      rw [List.mem_append] at hx
      rcases hx with hx | hx
      · exact hcs1.2 p e w ok hx
      · simp only [List.mem_cons, List.mem_singleton, List.not_mem_nil, or_false] at hx
        rcases hx with hx | hx
        · cases hx
        · injection hx with _ h2 _ _
          rw [h2]; exact (addr_unmarked hr).1

/-- The log of `remove` on a well-formed list, for any key: one iteration of
the retry loop, one pass of the traversal, then only heap updates; the unlink
compare-and-swap succeeds and the fallback traversal is not run. -/
theorem remove_tr_shape {lo hi : Int} {s : LinkedListHarris}
    {c : List (Nat × node_ll_linked)} (hwf : WF lo hi s c) (k : Int)
    (fuel : Nat) (hf : c.length < fuel) :
    ∃ res vs es, remove_tr fuel s k
        = some (res, Event.attempt :: Event.pass :: (vs.map Event.visit ++ es)) ∧
      vs <+: c.map Prod.fst ∧ (∀ x ∈ es, x.isUpdate = true) ∧
      (∀ p e w ok, Event.cas p e w ok ∈ es → is_marked_ref e = 0) := by
  obtain ⟨fuel2, rfl⟩ : ∃ f, fuel = f + 1 := ⟨fuel - 1, by omega⟩
  obtain ⟨pre, L, mid, r, post, vs, cs, hloc, ht, hvs, hcs, hwf1, hr, hL⟩ :=
    locate_tr_spec hwf k fuel2 (by omega) s.head
  have hcs1 : (∀ x ∈ cs, x.isUpdate = true) ∧
      (∀ p e w ok, Event.cas p e w ok ∈ cs → is_marked_ref e = 0) := by
    rcases hcs with rfl | ⟨e, he, rfl⟩
    · simp
    · constructor
      · intro x hx
        rw [List.mem_singleton] at hx
        subst hx
        rfl
      · intro p e1 w ok hx
        rw [List.mem_singleton] at hx
        injection hx with _ h2 _ _
        rw [h2]; exact he
  unfold remove_tr harris_remove_tr harris_remove_loop_tr
  simp only [ht, hr]
  by_cases hk : r.2.key = k
  · have hru : is_marked_ref r.2.next = 0 := by
      rcases hloc.right_ok with h0 | ⟨h1, -⟩
      · rw [h0, is_marked_ref_eq]
      · exact h1
    have hrL : r.1 ≠ L.1 := by
      have hs2 : (pre ++ relink L r.1 :: ([] ++ r :: post)).Pairwise
          (fun x y => x.2.key < y.2.key) := hwf1.sorted
      have hlt : (relink L r.1).2.key < r.2.key := (pairwise_mid hs2).2.2.1
      have hmL : relink L r.1 ∈ pre ++ relink L r.1 :: r :: post := by simp
      have hmr : r ∈ pre ++ relink L r.1 :: r :: post := by simp
      exact fun h => (addr_ne_of_key_ne hwf1.seg hmL hmr (ne_of_lt hlt)) h.symm
    have hLm : deref (write_next (after_search s L r).mem r.1 r.2 (get_marked_ref r.2.next)) L.1
        = some (relink L r.1).2 := by
      rw [deref_write_next hr, if_neg (Ne.symm hrL)]; exact hL
    have hrm : deref (write_next (after_search s L r).mem r.1 r.2 (get_marked_ref r.2.next)) r.1
        = some (node_ll_linked.mk r.2.key r.2.val (get_marked_ref r.2.next)) := by
      rw [deref_write_next hr, if_pos rfl]
    have hcas : ATOMIC_CAS_MB (after_search s L r).mem r.1 r.2.next (get_marked_ref r.2.next)
        = some (true, write_next (after_search s L r).mem r.1 r.2 (get_marked_ref r.2.next)) := by
      unfold ATOMIC_CAS_MB
      rw [hr]
      show (if r.2.next = r.2.next then _ else _) = _
      rw [if_pos rfl]
    have hcas2 : ATOMIC_CAS_MB
        (write_next (after_search s L r).mem r.1 r.2 (get_marked_ref r.2.next)) L.1 r.1 r.2.next
        = some (true, write_next
          (write_next (after_search s L r).mem r.1 r.2 (get_marked_ref r.2.next)) L.1
          (relink L r.1).2 r.2.next) := by
      unfold ATOMIC_CAS_MB
      rw [hLm]
      show (if r.1 = r.1 then _ else _) = _
      rw [if_pos rfl]
    simp only [hk, ne_eq, not_true_eq_false, if_false, hru, if_true, hcas, hrm,
      harris_remove_unlink_tr, hcas2, withTrace]
    have hl : ∀ a b : Event, Event.attempt :: Event.pass :: (vs.map Event.visit ++ cs) ++ [a]
        ++ [b] = Event.attempt :: Event.pass :: (vs.map Event.visit ++ (cs ++ [a, b])) := by
      intro a b; simp
    rw [hl]
    refine ⟨_, vs, cs ++ [Event.cas r.1 r.2.next (get_marked_ref r.2.next) true,
      Event.cas L.1 r.1 r.2.next true], rfl, hvs, ?_, ?_⟩
    · intro x hx
      rw [List.mem_append] at hx
      rcases hx with hx | hx
      · exact hcs1.1 x hx
      · simp only [List.mem_cons, List.mem_singleton, List.not_mem_nil, or_false] at hx
        rcases hx with rfl | rfl <;> rfl
    · intro p e w ok hx
      rw [List.mem_append] at hx
      rcases hx with hx | hx
      · exact hcs1.2 p e w ok hx
      · simp only [List.mem_cons, List.mem_singleton, List.not_mem_nil, or_false] at hx
        rcases hx with hx | hx
        · injection hx with _ h2 _ _
          rw [h2]; exact hru
        · injection hx with _ h2 _ _
          rw [h2]; exact (addr_unmarked hr).1
  · simp only [hk, ne_eq, not_false_eq_true, if_true]
    exact ⟨_, vs, cs, rfl, hvs, hcs1.1, hcs1.2⟩

theorem frozen_refl (mem : List node_ll_linked) : frozen mem mem := fun _ _ h _ => h

theorem frozen_trans {m1 m2 m3 : List node_ll_linked} (h1 : frozen m1 m2) (h2 : frozen m2 m3) :
    frozen m1 m3 := fun p n hd hm => h2 p n (h1 p n hd hm) hm

theorem calm_refl (mem : List node_ll_linked) : calm mem mem :=
  ⟨frozen_refl mem, fun _ n h hu => ⟨n, h, hu⟩⟩

theorem calm_trans {m1 m2 m3 : List node_ll_linked} (h1 : calm m1 m2) (h2 : calm m2 m3) :
    calm m1 m3 := by
  refine ⟨frozen_trans h1.1 h2.1, ?_⟩
  intro p n hd hu
  obtain ⟨n1, hd1, hu1⟩ := h1.2 p n hd hu
  exact h2.2 p n1 hd1 hu1

/-- A write to the `next` word of a node whose `next` word is unmarked. -/
theorem frozen_write {mem : List node_ll_linked} {p : Nat} {n : node_ll_linked}
    (hd : deref mem p = some n) (hu : is_marked_ref n.next = 0) (w : Nat) :
    frozen mem (write_next mem p n w) := by
  intro q nq hq hm
  rw [deref_write_next hd]
  by_cases hqp : q = p
  · subst hqp
    rw [hd] at hq
    simp only [Option.some.injEq] at hq
    subst hq
    exact absurd hu hm
  · rw [if_neg hqp]; exact hq

/-- A write of an unmarked word over an unmarked word. -/
theorem calm_write {mem : List node_ll_linked} {p : Nat} {n : node_ll_linked}
    (hd : deref mem p = some n) (hu : is_marked_ref n.next = 0) {w : Nat}
    (hw : is_marked_ref w = 0) : calm mem (write_next mem p n w) := by
  refine ⟨frozen_write hd hu w, ?_⟩
  intro q nq hq hqu
  rw [deref_write_next hd]
  by_cases hqp : q = p
  · rw [if_pos hqp]; exact ⟨_, rfl, hw⟩
  · rw [if_neg hqp]; exact ⟨nq, hq, hqu⟩

theorem calm_append (mem : List node_ll_linked) (x : node_ll_linked) : calm mem (mem ++ [x]) :=
  ⟨fun _ _ h _ => deref_append_old h x, fun _ n h hu => ⟨n, deref_append_old h x, hu⟩⟩

/-- A compare-and-swap with an unmarked expected value changes no marked
`next` word, whether it succeeds or not. -/
theorem cas_frozen {mem mem1 : List node_ll_linked} {p e w : Nat} {b : Bool}
    (h : ATOMIC_CAS_MB mem p e w = some (b, mem1)) (he : is_marked_ref e = 0) :
    frozen mem mem1 := by
  unfold ATOMIC_CAS_MB at h
  cases hd : deref mem p with
  | none => rw [hd] at h; cases h
  | some n =>
    rw [hd] at h
    simp only at h
    split_ifs at h with hn
    · simp only [Option.some.injEq, Prod.mk.injEq] at h
      rw [← h.2]
      exact frozen_write hd (by rw [hn]; exact he) w
    · simp only [Option.some.injEq, Prod.mk.injEq] at h
      rw [← h.2]
      exact frozen_refl mem

/-- A compare-and-swap with unmarked expected and new values. -/
theorem cas_calm {mem mem1 : List node_ll_linked} {p e w : Nat} {b : Bool}
    (h : ATOMIC_CAS_MB mem p e w = some (b, mem1)) (he : is_marked_ref e = 0)
    (hw : is_marked_ref w = 0) : calm mem mem1 := by
  unfold ATOMIC_CAS_MB at h
  cases hd : deref mem p with
  | none => rw [hd] at h; cases h
  | some n =>
    rw [hd] at h
    simp only at h
    split_ifs at h with hn
    · simp only [Option.some.injEq, Prod.mk.injEq] at h
      rw [← h.2]
      exact calm_write hd (by rw [hn]; exact he) hw
    · simp only [Option.some.injEq, Prod.mk.injEq] at h
      rw [← h.2]
      exact calm_refl mem

/-- A successful compare-and-swap leaves the new value in the `next` word. -/
theorem cas_true_deref {mem mem1 : List node_ll_linked} {p e w : Nat}
    (h : ATOMIC_CAS_MB mem p e w = some (true, mem1)) :
    ∃ n, deref mem1 p = some n ∧ n.next = w := by
  unfold ATOMIC_CAS_MB at h
  cases hd : deref mem p with
  | none => rw [hd] at h; cases h
  | some n =>
    rw [hd] at h
    simp only at h
    split_ifs at h with hn
    · simp only [Option.some.injEq, Prod.mk.injEq, true_and] at h
      rw [← h, deref_write_next hd, if_pos rfl]
      exact ⟨_, rfl, rfl⟩
    · simp at h

theorem is_marked_unmarked (w : Nat) : is_marked_ref (get_unmarked_ref w) = 0 := by
  rw [is_marked_ref_eq, get_unmarked_ref_eq]; omega

/-- The walk issues no compare-and-swap, returns an even right node and keeps
`left_node_next` unmarked. -/
theorem walk_tr_inv (mem : List node_ll_linked) (k : Int) :
    ∀ fuel t t_next left ln r l1 ln1 tr,
      harris_walk_tr mem k fuel t t_next left ln = some ((r, l1, ln1), tr) →
      is_marked_ref ln = 0 →
      is_marked_ref ln1 = 0 ∧ is_marked_ref r = 0 ∧
      (∀ p e w ok, Event.cas p e w ok ∉ tr) := by
  intro fuel
  induction fuel with
  | zero =>
    intro t t_next left ln r l1 ln1 tr h
    simp [harris_walk_tr] at h
  | succ fuel ih =>
    intro t t_next left ln r l1 ln1 tr h hln
    unfold harris_walk_tr at h
    simp only at h
    have hln1 : is_marked_ref (if is_marked_ref t_next = 0 then t_next else ln) = 0 := by
      split_ifs with ht
      · exact ht
      · exact hln
    cases hd : deref mem (get_unmarked_ref t_next) with
    | none => rw [hd] at h; cases h
    | some n =>
      rw [hd] at h
      simp only at h
      have hret : some ((get_unmarked_ref t_next, if is_marked_ref t_next = 0 then t else left,
            if is_marked_ref t_next = 0 then t_next else ln),
            [Event.visit (get_unmarked_ref t_next)]) = some ((r, l1, ln1), tr) →
          is_marked_ref ln1 = 0 ∧ is_marked_ref r = 0 ∧
            (∀ p e w ok, Event.cas p e w ok ∉ tr) := by
        intro h
        simp only [Option.some.injEq, Prod.mk.injEq] at h
        obtain ⟨⟨rfl, -, rfl⟩, rfl⟩ := h
        exact ⟨hln1, is_marked_unmarked _, by simp⟩
      by_cases h0 : n.next = 0
      · rw [if_pos h0] at h
        exact hret h
      · rw [if_neg h0] at h
        by_cases h1 : is_marked_ref n.next ≠ 0 ∨ n.key < k
        · rw [if_pos h1] at h
          obtain ⟨tr2, h2, rfl⟩ := withTrace_eq_some h
          obtain ⟨a, b, c⟩ := ih _ _ _ _ _ _ _ _ h2 hln1
          refine ⟨a, b, ?_⟩
          intro p e w ok hm
          simp only [List.singleton_append, List.mem_cons, reduceCtorEq, false_or] at hm
          exact c p e w ok hm
        · rw [if_neg h1] at h
          exact hret h

/-- The traversal, from any state: it only issues compare-and-swaps with
unmarked expected and new values, so it keeps the heap calm; the right node
it returns is even. -/
theorem search_loop_tr_inv (k : Int) :
    ∀ fuel s left ln r l1 s1 tr,
      harris_search_loop_tr k fuel s left ln = some ((r, l1, s1), tr) →
      (ln = s.head ∨ is_marked_ref ln = 0) →
      calm s.mem s1.mem ∧ s1.head = s.head ∧ is_marked_ref r = 0 ∧
      (∀ p e w ok, Event.cas p e w ok ∈ tr → is_marked_ref e = 0 ∧ is_marked_ref w = 0) := by
  intro fuel
  induction fuel with
  | zero =>
    intro s left ln r l1 s1 tr h
    simp [harris_search_loop_tr] at h
  | succ fuel ih =>
    intro s left ln r l1 s1 tr h hln0
    unfold harris_search_loop_tr at h
    cases hd : deref s.mem s.head with
    | none => rw [hd] at h; cases h
    | some hn =>
      rw [hd] at h
      simp only at h
      have hln : is_marked_ref ln = 0 := by
        rcases hln0 with rfl | h0
        · exact (addr_unmarked hd).1
        · exact h0
      cases hw : harris_walk_tr s.mem k fuel s.head hn.next left ln with
      | none => rw [hw] at h; cases h
      | some x =>
        obtain ⟨⟨r2, l2, ln2⟩, trw⟩ := x
        rw [hw] at h
        simp only at h
        obtain ⟨hln2, hr2, hnocas⟩ := walk_tr_inv s.mem k fuel _ _ _ _ _ _ _ _ hw hln
        by_cases heq : ln2 = r2
        · rw [if_pos heq] at h
          cases hdr : deref s.mem r2 with
          | none => rw [hdr] at h; cases h
          | some rn =>
            rw [hdr] at h
            simp only at h
            by_cases hm : rn.next ≠ 0 ∧ is_marked_ref rn.next ≠ 0
            · rw [if_pos hm] at h
              obtain ⟨tr2, h2, rfl⟩ := withTrace_eq_some h
              obtain ⟨a, b, c, d⟩ := ih _ _ _ _ _ _ _ h2 (Or.inr hln2)
              refine ⟨a, b, c, ?_⟩
              intro p e w ok hmem
              simp only [List.mem_append, List.mem_cons, reduceCtorEq, false_or] at hmem
              rcases hmem with hmem | hmem
              · exact absurd hmem (hnocas p e w ok)
              · exact d p e w ok hmem
            · rw [if_neg hm] at h
              simp only [Option.some.injEq, Prod.mk.injEq] at h
              obtain ⟨⟨rfl, -, rfl⟩, rfl⟩ := h
              refine ⟨calm_refl _, rfl, hr2, ?_⟩
              intro p e w ok hmem
              simp only [List.mem_cons, reduceCtorEq, false_or] at hmem
              exact absurd hmem (hnocas p e w ok)
        · rw [if_neg heq] at h
          cases hc : ATOMIC_CAS_MB s.mem l2 ln2 r2 with
          | none => rw [hc] at h; cases h
          | some y =>
            obtain ⟨b, mem1⟩ := y
            rw [hc] at h
            have hcalm := cas_calm hc hln2 hr2
            cases b with
            | true =>
              simp only at h
              cases hdr : deref mem1 r2 with
              | none => rw [hdr] at h; cases h
              | some rn =>
                rw [hdr] at h
                simp only at h
                by_cases hm : rn.next ≠ 0 ∧ is_marked_ref rn.next ≠ 0
                · rw [if_neg (not_not.mpr hm)] at h
                  obtain ⟨tr2, h2, rfl⟩ := withTrace_eq_some h
                  obtain ⟨a, b, c, d⟩ := ih _ _ _ _ _ _ _ h2 (Or.inr hln2)
                  refine ⟨calm_trans hcalm a, b, c, ?_⟩
                  intro p e w ok hmem
                  simp only [List.mem_append, List.mem_cons, List.mem_singleton, reduceCtorEq,
                    false_or, List.not_mem_nil, or_false] at hmem
                  rcases hmem with (hmem | hmem) | hmem
                  · exact absurd hmem (hnocas p e w ok)
                  · injection hmem with h1 h2 h3 h4
                    subst h2; subst h3
                    exact ⟨hln2, hr2⟩
                  · exact d p e w ok hmem
                · rw [if_pos hm] at h
                  simp only [Option.some.injEq, Prod.mk.injEq] at h
                  obtain ⟨⟨rfl, -, rfl⟩, rfl⟩ := h
                  refine ⟨hcalm, rfl, hr2, ?_⟩
                  intro p e w ok hmem
                  simp only [List.mem_append, List.mem_cons, List.mem_singleton, reduceCtorEq,
                    false_or, List.not_mem_nil, or_false] at hmem
                  rcases hmem with hmem | hmem
                  · exact absurd hmem (hnocas p e w ok)
                  · injection hmem with h1 h2 h3 h4
                    subst h2; subst h3
                    exact ⟨hln2, hr2⟩
            | false =>
              simp only at h
              obtain ⟨tr2, h2, rfl⟩ := withTrace_eq_some h
              obtain ⟨a, b, c, d⟩ := ih _ _ _ _ _ _ _ h2 (Or.inr hln2)
              refine ⟨calm_trans hcalm a, b, c, ?_⟩
              intro p e w ok hmem
              simp only [List.mem_append, List.mem_cons, List.mem_singleton, reduceCtorEq,
                false_or, List.not_mem_nil, or_false] at hmem
              rcases hmem with (hmem | hmem) | hmem
              · exact absurd hmem (hnocas p e w ok)
              · injection hmem with h1 h2 h3 h4
                subst h2; subst h3
                exact ⟨hln2, hr2⟩
              · exact d p e w ok hmem

theorem search_tr_inv {fuel : Nat} {s : LinkedListHarris} {k : Int} {left r l1 : Nat}
    {s1 : LinkedListHarris} {tr : List Event}
    (h : harris_search_tr fuel s k left = some ((r, l1, s1), tr)) :
    calm s.mem s1.mem ∧ s1.head = s.head ∧ is_marked_ref r = 0 ∧
    (∀ p e w ok, Event.cas p e w ok ∈ tr → is_marked_ref e = 0 ∧ is_marked_ref w = 0) :=
  search_loop_tr_inv k fuel s left s.head r l1 s1 tr h (Or.inl rfl)

/-- The call `search`, from any state. -/
theorem search_call_inv {fuel : Nat} {s : LinkedListHarris} {k : Int} {res : Int}
    {s1 : LinkedListHarris} {tr : List Event}
    (h : search_tr fuel s k = some ((res, s1), tr)) :
    calm s.mem s1.mem ∧
    (∀ p e w ok, Event.cas p e w ok ∈ tr → is_marked_ref e = 0 ∧ is_marked_ref w = 0) := by
  unfold search_tr harris_find_tr at h
  cases hs : harris_search_tr fuel s k s.head with
  | none => rw [hs] at h; cases h
  | some x =>
    obtain ⟨⟨r, l1, s2⟩, tr2⟩ := x
    rw [hs] at h
    simp only at h
    obtain ⟨a, -, -, d⟩ := search_tr_inv hs
    cases hd : deref s2.mem r with
    | none => rw [hd] at h; cases h
    | some rn =>
      rw [hd] at h
      simp only at h
      split_ifs at h <;>
      · simp only [Option.some.injEq, Prod.mk.injEq] at h
        obtain ⟨⟨-, rfl⟩, rfl⟩ := h
        exact ⟨a, d⟩

/-- The loop of `harris_insert`, from any state in which the node to link in,
if there is one already, has an unmarked `next` word. -/
theorem insert_loop_tr_inv (k v : Int) :
    ∀ fuel s newnode left res s1 tr,
      harris_insert_loop_tr k v fuel s newnode left = some ((res, s1), tr) →
      (newnode = 0 ∨ ∃ n, deref s.mem newnode = some n ∧ is_marked_ref n.next = 0) →
      calm s.mem s1.mem ∧
      (∀ p e w ok, Event.cas p e w ok ∈ tr → is_marked_ref e = 0 ∧ is_marked_ref w = 0) := by
  intro fuel
  induction fuel with
  | zero =>
    intro s newnode left res s1 tr h
    simp [harris_insert_loop_tr] at h
  | succ fuel ih =>
    intro s newnode left res s1 tr h hnn
    unfold harris_insert_loop_tr at h
    cases hs : harris_search_tr fuel s k left with
    | none => rw [hs] at h; cases h
    | some x =>
      obtain ⟨⟨r, l1, s2⟩, tr2⟩ := x
      rw [hs] at h
      simp only at h
      obtain ⟨hcalm, hhead, hr, hcas⟩ := search_tr_inv hs
      cases hd : deref s2.mem r with
      | none => rw [hd] at h; cases h
      | some rn =>
        rw [hd] at h
        simp only at h
        by_cases hk : rn.key = k
        · rw [if_pos hk] at h
          simp only [Option.some.injEq, Prod.mk.injEq] at h
          obtain ⟨⟨-, rfl⟩, rfl⟩ := h
          refine ⟨hcalm, ?_⟩
          intro p e w ok hmem
          simp only [List.mem_cons, reduceCtorEq, false_or] at hmem
          exact hcas p e w ok hmem
        · rw [if_neg hk] at h
          -- the node to link in: fresh, or the one of the previous iteration
          have halloc : ∃ nn1 mem2,
              (if newnode = 0 then some (allocate_node_ll_linked s2.mem k v r)
                else (store_next s2.mem newnode r).map (fun m => (newnode, m)))
                = some (nn1, mem2) ∧ calm s2.mem mem2 ∧ is_marked_ref nn1 = 0 ∧
              ∃ n, deref mem2 nn1 = some n ∧ is_marked_ref n.next = 0 := by
            cases hal : (if newnode = 0 then some (allocate_node_ll_linked s2.mem k v r)
                else (store_next s2.mem newnode r).map (fun m => (newnode, m))) with
            | none => rw [hal] at h; cases h
            | some y =>
              obtain ⟨nn1, mem2⟩ := y
              refine ⟨nn1, mem2, rfl, ?_⟩
              by_cases h0 : newnode = 0
              · rw [if_pos h0] at hal
                simp only [allocate_node_ll_linked, Option.some.injEq, Prod.mk.injEq] at hal
                obtain ⟨rfl, rfl⟩ := hal
                exact ⟨calm_append _ _, by rw [is_marked_ref_eq]; omega,
                  _, deref_append_new _ _, hr⟩
              · rw [if_neg h0] at hal
                rcases hnn with hnn | ⟨n, hn, hnu⟩
                · exact absurd hnn h0
                · obtain ⟨n2, hn2, hnu2⟩ := hcalm.2 newnode n hn hnu
                  simp only [store_next, hn2, Option.map_some', Option.some.injEq,
                    Prod.mk.injEq] at hal
                  obtain ⟨rfl, rfl⟩ := hal
                  refine ⟨calm_write hn2 hnu2 hr, (addr_unmarked hn2).1,
                    node_ll_linked.mk n2.key n2.val r, ?_, hr⟩
                  rw [deref_write_next hn2, if_pos rfl]
          obtain ⟨nn1, mem2, hal, hcalm2, hnn1, hnn1d⟩ := halloc
          rw [hal] at h
          simp only at h
          cases hc : ATOMIC_CAS_MB mem2 l1 r nn1 with
          | none => rw [hc] at h; cases h
          | some y =>
            obtain ⟨b, mem3⟩ := y
            rw [hc] at h
            have hcalm3 := cas_calm hc hr hnn1
            cases b with
            | true =>
              simp only [Option.some.injEq, Prod.mk.injEq] at h
              obtain ⟨⟨-, rfl⟩, rfl⟩ := h
              refine ⟨calm_trans hcalm (calm_trans hcalm2 hcalm3), ?_⟩
              intro p e w ok hmem
              simp only [List.mem_append, List.mem_cons, List.mem_singleton, reduceCtorEq,
                false_or, List.not_mem_nil, or_false] at hmem
              rcases hmem with hmem | hmem | hmem
              · exact hcas p e w ok hmem
              · split_ifs at hmem
              · injection hmem with h1 h2 h3 h4
                subst h2; subst h3
                exact ⟨hr, hnn1⟩
            | false =>
              simp only at h
              obtain ⟨tr3, h3, rfl⟩ := withTrace_eq_some h
              obtain ⟨nd, hnd1, hnd2⟩ := hnn1d
              obtain ⟨nd3, hnd3⟩ := hcalm3.2 nn1 nd hnd1 hnd2
              obtain ⟨a, d⟩ := ih _ _ _ _ _ _ h3 (Or.inr ⟨nd3, hnd3⟩)
              refine ⟨calm_trans hcalm (calm_trans hcalm2 (calm_trans hcalm3 a)), ?_⟩
              intro p e w ok hmem
              simp only [List.mem_append, List.mem_cons, List.mem_singleton, reduceCtorEq,
                false_or, List.not_mem_nil, or_false] at hmem
              rcases hmem with (hmem | hmem | hmem) | hmem
              · exact hcas p e w ok hmem
              · split_ifs at hmem
              · injection hmem with h1 h2 h3 h4
                subst h2; subst h3
                exact ⟨hr, hnn1⟩
              · exact d p e w ok hmem

/-- The call `insert`, from any state. -/
theorem insert_call_inv {fuel : Nat} {s : LinkedListHarris} {k v : Int} {res : Int}
    {s1 : LinkedListHarris} {tr : List Event}
    (h : insert_tr fuel s k v = some ((res, s1), tr)) :
    calm s.mem s1.mem ∧
    (∀ p e w ok, Event.cas p e w ok ∈ tr → is_marked_ref e = 0 ∧ is_marked_ref w = 0) :=
  insert_loop_tr_inv k v fuel s 0 s.head res s1 tr h (Or.inl rfl)

/-- The tail of `harris_remove`, from any state. -/
theorem remove_unlink_tr_inv {fuel : Nat} {s : LinkedListHarris} {k : Int}
    {left r rn : Nat} {ret res : Int} {s1 : LinkedListHarris} {tr : List Event}
    (h : harris_remove_unlink_tr fuel s k left r rn ret = some ((res, s1), tr))
    (hr : is_marked_ref r = 0) (hrn : is_marked_ref rn = 0) :
    calm s.mem s1.mem ∧
    (∀ p e w ok, Event.cas p e w ok ∈ tr → is_marked_ref e = 0 ∧ is_marked_ref w = 0) := by
  unfold harris_remove_unlink_tr at h
  cases hc : ATOMIC_CAS_MB s.mem left r rn with
  | none => rw [hc] at h; cases h
  | some y =>
    obtain ⟨b, mem1⟩ := y
    rw [hc] at h
    have hcalm := cas_calm hc hr hrn
    cases b with
    | true =>
      simp only [Option.some.injEq, Prod.mk.injEq] at h
      obtain ⟨⟨-, rfl⟩, rfl⟩ := h
      refine ⟨hcalm, ?_⟩
      intro p e w ok hmem
      rw [List.mem_singleton] at hmem
      injection hmem with h1 h2 h3 h4
      subst h2; subst h3
      exact ⟨hr, hrn⟩
    | false =>
      simp only at h
      cases hs : harris_search_tr fuel (LinkedListHarris.mk s.head mem1) k left with
      | none => rw [hs] at h; cases h
      | some x =>
        obtain ⟨⟨r2, l2, s2⟩, tr2⟩ := x
        rw [hs] at h
        simp only [Option.some.injEq, Prod.mk.injEq] at h
        obtain ⟨⟨-, rfl⟩, rfl⟩ := h
        obtain ⟨a, -, -, d⟩ := search_tr_inv hs
        refine ⟨calm_trans hcalm a, ?_⟩
        intro p e w ok hmem
        simp only [List.mem_cons, reduceCtorEq, false_or] at hmem
        rcases hmem with hmem | hmem
        · injection hmem with h1 h2 h3 h4
          subst h2; subst h3
          exact ⟨hr, hrn⟩
        · exact d p e w ok hmem

/-- The loop of `harris_remove`, from any state: every compare-and-swap has
an unmarked expected value, no marked `next` word changes, and the marked
word it writes is still in place at the end. -/
theorem remove_loop_tr_inv (k : Int) :
    ∀ fuel s left res s1 tr,
      harris_remove_loop_tr k fuel s left = some ((res, s1), tr) →
      frozen s.mem s1.mem ∧
      (∀ p e w ok, Event.cas p e w ok ∈ tr → is_marked_ref e = 0) ∧
      (∀ p e w, Event.cas p e w true ∈ tr → is_marked_ref w ≠ 0 →
        ∃ n, deref s1.mem p = some n ∧ n.next = w) := by
  intro fuel
  induction fuel with
  | zero =>
    intro s left res s1 tr h
    simp [harris_remove_loop_tr] at h
  | succ fuel ih =>
    intro s left res s1 tr h
    unfold harris_remove_loop_tr at h
    cases hs : harris_search_tr fuel s k left with
    | none => rw [hs] at h; cases h
    | some x =>
      obtain ⟨⟨r, l1, s2⟩, tr2⟩ := x
      rw [hs] at h
      simp only at h
      obtain ⟨hcalm, hhead, hr, hcas⟩ := search_tr_inv hs
      cases hd : deref s2.mem r with
      | none => rw [hd] at h; cases h
      | some rn =>
        rw [hd] at h
        simp only at h
        by_cases hk : rn.key ≠ k
        · rw [if_pos hk] at h
          simp only [Option.some.injEq, Prod.mk.injEq] at h
          obtain ⟨⟨-, rfl⟩, rfl⟩ := h
          refine ⟨hcalm.1, ?_, ?_⟩
          · intro p e w ok hmem
            simp only [List.mem_cons, reduceCtorEq, false_or] at hmem
            exact (hcas p e w ok hmem).1
          · intro p e w hmem hw
            simp only [List.mem_cons, reduceCtorEq, false_or] at hmem
            exact absurd (hcas p e w true hmem).2 hw
        · rw [if_neg hk] at h
          by_cases hru : is_marked_ref rn.next = 0
          · rw [if_pos hru] at h
            cases hc : ATOMIC_CAS_MB s2.mem r rn.next (get_marked_ref rn.next) with
            | none => rw [hc] at h; cases h
            | some y =>
              obtain ⟨b, mem2⟩ := y
              rw [hc] at h
              have hfr := cas_frozen hc hru
              cases b with
              | true =>
                simp only at h
                cases hd2 : deref mem2 r with
                | none => rw [hd2] at h; cases h
                | some r2 =>
                  rw [hd2] at h
                  simp only at h
                  obtain ⟨tr3, h3, rfl⟩ := withTrace_eq_some h
                  obtain ⟨a, d⟩ := remove_unlink_tr_inv h3 hr hru
                  refine ⟨frozen_trans hcalm.1 (frozen_trans hfr a.1), ?_, ?_⟩
                  · intro p e w ok hmem
                    simp only [List.mem_append, List.mem_cons, List.mem_singleton,
                      reduceCtorEq, false_or, List.not_mem_nil, or_false] at hmem
                    rcases hmem with (hmem | hmem) | hmem
                    · exact (hcas p e w ok hmem).1
                    · injection hmem with e1 e2 e3 e4
                      subst e2
                      exact hru
                    · exact (d p e w ok hmem).1
                  · intro p e w hmem hw
                    simp only [List.mem_append, List.mem_cons, List.mem_singleton,
                      reduceCtorEq, false_or, List.not_mem_nil, or_false] at hmem
                    rcases hmem with (hmem | hmem) | hmem
                    · exact absurd (hcas p e w true hmem).2 hw
                    · injection hmem with e1 e2 e3 e4
                      subst e1; subst e3
                      obtain ⟨n, hn1, hn2⟩ := cas_true_deref hc
                      exact ⟨n, a.1 p n hn1 (by rw [hn2]; exact hw), hn2⟩
                    · exact absurd (d p e w true hmem).2 hw
              | false =>
                simp only at h
                obtain ⟨tr3, h3, rfl⟩ := withTrace_eq_some h
                obtain ⟨a, b, c⟩ := ih _ _ _ _ _ h3
                refine ⟨frozen_trans hcalm.1 (frozen_trans hfr a), ?_, ?_⟩
                · intro p e w ok hmem
                  simp only [List.mem_append, List.mem_cons, List.mem_singleton,
                    reduceCtorEq, false_or, List.not_mem_nil, or_false] at hmem
                  rcases hmem with (hmem | hmem) | hmem
                  · exact (hcas p e w ok hmem).1
                  · injection hmem with e1 e2 e3 e4
                    subst e2
                    exact hru
                  · exact b p e w ok hmem
                · intro p e w hmem hw
                  simp only [List.mem_append, List.mem_cons, List.mem_singleton,
                    reduceCtorEq, false_or, List.not_mem_nil, or_false] at hmem
                  rcases hmem with (hmem | hmem) | hmem
                  · exact absurd (hcas p e w true hmem).2 hw
                  · injection hmem with e1 e2 e3 e4
                    cases e4
                  · exact c p e w hmem hw
          · rw [if_neg hru] at h
            obtain ⟨tr3, h3, rfl⟩ := withTrace_eq_some h
            obtain ⟨a, b, c⟩ := ih _ _ _ _ _ h3
            refine ⟨frozen_trans hcalm.1 a, ?_, ?_⟩
            · intro p e w ok hmem
              simp only [List.mem_append, List.mem_cons, reduceCtorEq, false_or] at hmem
              rcases hmem with hmem | hmem
              · exact (hcas p e w ok hmem).1
              · exact b p e w ok hmem
            · intro p e w hmem hw
              simp only [List.mem_append, List.mem_cons, reduceCtorEq, false_or] at hmem
              rcases hmem with hmem | hmem
              · exact absurd (hcas p e w true hmem).2 hw
              · exact c p e w hmem hw


/-! ## The claims -/

theorem WF_stale : WF 0 10 stale_list stale_chain := by
  refine ⟨?_, ?_, ?_, ?_, by decide⟩
  · simp [Seg, stale_list, stale_chain, deref, get_unmarked_ref_eq]
  · simp [stale_chain]
  · exact ⟨_, rfl, rfl, rfl, by simp [is_marked_ref_eq]⟩
  · exact ⟨_, rfl, rfl, rfl, rfl⟩

theorem not_present_new (lo hi k : Int) (h1 : lo ≠ k) (h2 : hi ≠ k) :
    ¬ present [(4, node_ll_linked.mk lo 0 2), (2, node_ll_linked.mk hi 0 0)] k := by
  rintro ⟨x, hx, -, hk⟩
  simp only [List.mem_cons, List.mem_singleton, List.not_mem_nil, or_false] at hx
  rcases hx with rfl | rfl
  · exact h1 hk
  · exact h2 hk

/-- C1. Round trip: on a well-formed list, for a key `k` strictly between the
sentinel keys that is not logically present, and any value `v` (zero or not),
`insert(k, v)` returns 1 and the `search(k)` that follows returns `v`. -/
theorem C1_insert_search_round_trip {lo hi : Int} {s : LinkedListHarris}
    {c : List (Nat × node_ll_linked)} (hwf : WF lo hi s c) (k v : Int)
    (hlo : lo < k) (hhi : k < hi) (habs : ¬ present c k) (fuel : Nat) (hf : c.length < fuel) :
    ∃ s1 s2, insert fuel s k v = some (1, s1) ∧ search fuel s1 k = some (v, s2) := by
  obtain ⟨s1, c1, A, B, h1, h2, -, -, h5, y, hy, hyu, hyk, hyv⟩ :=
    insert_absent hwf k v hlo hhi habs fuel hf
  obtain ⟨res, s2, c2, g1, -, -, -, -, -, g7, -⟩ := search_abs h2 k fuel (by omega)
  have : res = v := by
    rw [g7 y hy hyu hyk (by omega), hyv]
  subst this
  exact ⟨s1, s2, h1, g1⟩

theorem C1_insert_search_round_trip_witness :
    WF 0 10 (LinkedListHarris.new 0 10)
        [(4, node_ll_linked.mk 0 0 2), (2, node_ll_linked.mk 10 0 0)] ∧
      ¬ present [(4, node_ll_linked.mk 0 0 2), (2, node_ll_linked.mk 10 0 0)] 5 ∧
      ∃ s1 s2, insert 3 (LinkedListHarris.new 0 10) 5 7 = some (1, s1) ∧
        search 3 s1 5 = some (7, s2) :=
  ⟨WF_new 0 10 (by decide), not_present_new 0 10 5 (by decide) (by decide),
    C1_insert_search_round_trip (WF_new 0 10 (by decide)) 5 7 (by decide) (by decide)
      (not_present_new 0 10 5 (by decide) (by decide)) 3 (by decide)⟩

/-- C2. On a well-formed list (marked nodes allowed on the chain) and for a
key `k` strictly between the sentinel keys, `insert(k, v)` returns 1 exactly
when no unmarked reachable node has key `k`, and 0 otherwise; in particular
it returns 1 when every node with key `k` is marked. -/
theorem C2_insert_true_iff_absent {lo hi : Int} {s : LinkedListHarris}
    {c : List (Nat × node_ll_linked)} (hwf : WF lo hi s c) (k v : Int)
    (hlo : lo < k) (hhi : k < hi) (fuel : Nat) (hf : c.length < fuel) :
    ∃ res s1, insert fuel s k v = some (res, s1) ∧
      (res = 1 ↔ ¬ ∃ x ∈ c, is_marked_ref x.2.next = 0 ∧ x.2.key = k) ∧
      (res = 0 ↔ ∃ x ∈ c, is_marked_ref x.2.next = 0 ∧ x.2.key = k) ∧
      ((∀ x ∈ c, x.2.key = k → is_marked_ref x.2.next ≠ 0) → res = 1) := by
  by_cases hp : present c k
  · obtain ⟨s1, c1, h1, -⟩ := insert_present hwf k v hlo hp fuel hf
    refine ⟨0, s1, h1, ?_, ?_, ?_⟩
    · constructor
      · intro h; exact absurd h (by decide)
      · intro h; exact absurd hp h
    · exact ⟨fun _ => hp, fun _ => rfl⟩
    · intro h
      obtain ⟨x, hx, hu, hk⟩ := hp
      exact absurd hu (h x hx hk)
  · obtain ⟨s1, c1, A, B, h1, -⟩ := insert_absent hwf k v hlo hhi hp fuel hf
    refine ⟨1, s1, h1, ?_, ?_, fun _ => rfl⟩
    · exact ⟨fun _ => hp, fun _ => rfl⟩
    · constructor
      · intro h; exact absurd h (by decide)
      · intro h; exact absurd h hp

theorem C2_insert_true_iff_absent_witness :
    WF 0 10 stale_list stale_chain ∧
      ∃ res s1, insert 5 stale_list 3 7 = some (res, s1) ∧
        (res = 1 ↔ ¬ ∃ x ∈ stale_chain, is_marked_ref x.2.next = 0 ∧ x.2.key = 3) ∧
        (res = 0 ↔ ∃ x ∈ stale_chain, is_marked_ref x.2.next = 0 ∧ x.2.key = 3) ∧
        ((∀ x ∈ stale_chain, x.2.key = 3 → is_marked_ref x.2.next ≠ 0) → res = 1) :=
  ⟨WF_stale, C2_insert_true_iff_absent WF_stale 3 7 (by decide) (by decide) 5 (by decide)⟩

/-- C4. On a well-formed list and for any key `k`, `search(k)` returns the
value of the unmarked reachable node with key `k` when there is one and it is
not the tail sentinel, and 0 otherwise; so it returns 0 for the maximum bound
and when every node with key `k` is marked. It leaves the list well formed. -/
theorem C4_search_result {lo hi : Int} {s : LinkedListHarris}
    {c : List (Nat × node_ll_linked)} (hwf : WF lo hi s c) (k : Int)
    (fuel : Nat) (hf : c.length ≤ fuel) :
    ∃ res s1 c1, search fuel s k = some (res, s1) ∧ WF lo hi s1 c1 ∧
      (∀ x ∈ c, is_marked_ref x.2.next = 0 → x.2.key = k → x.2.key ≠ hi → res = x.2.val) ∧
      ((¬ ∃ x ∈ c, is_marked_ref x.2.next = 0 ∧ x.2.key = k ∧ x.2.key ≠ hi) → res = 0) ∧
      (k = hi → res = 0) ∧
      ((∀ x ∈ c, x.2.key = k → is_marked_ref x.2.next ≠ 0) → res = 0) := by
  obtain ⟨res, s1, c1, g1, g2, -, -, -, -, g7, g8, -⟩ := search_abs hwf k fuel hf
  refine ⟨res, s1, c1, g1, g2, g7, ?_, ?_, ?_⟩
  · intro hno
    apply g8
    intro x hx hu hk
    by_contra hne
    exact hno ⟨x, hx, hu, hk, hne⟩
  · intro hk
    exact g8 (fun x _ _ hxk => by omega)
  · intro hm
    apply g8
    intro x hx hu hk
    exact absurd hu (hm x hx hk)

theorem C4_search_result_witness :
    WF 0 10 stale_list stale_chain ∧
      ∃ res s1 c1, search 4 stale_list 5 = some (res, s1) ∧ WF 0 10 s1 c1 ∧
        (∀ x ∈ stale_chain, is_marked_ref x.2.next = 0 → x.2.key = 5 → x.2.key ≠ 10 →
          res = x.2.val) ∧
        ((¬ ∃ x ∈ stale_chain, is_marked_ref x.2.next = 0 ∧ x.2.key = 5 ∧ x.2.key ≠ 10) →
          res = 0) ∧
        ((5 : Int) = 10 → res = 0) ∧
        ((∀ x ∈ stale_chain, x.2.key = 5 → is_marked_ref x.2.next ≠ 0) → res = 0) :=
  ⟨WF_stale, C4_search_result WF_stale 5 4 (by decide)⟩

/-- C6. Remove miss: on a well-formed list, for a key `k` strictly between the
sentinel keys that is not logically present, `remove(k)` returns 0, sets no
mark (no node is added, and every node keeps its key, value and mark), keeps
every unmarked node on the chain and leaves the sequence of unmarked (key,
value) pairs unchanged. -/
theorem C6_remove_miss {lo hi : Int} {s : LinkedListHarris}
    {c : List (Nat × node_ll_linked)} (hwf : WF lo hi s c) (k : Int) (_hlo : lo < k)
    (hhi : k < hi) (habs : ¬ present c k) (fuel : Nat) (hf : c.length < fuel) :
    ∃ s1 c1, remove fuel s k = some (0, s1) ∧ WF lo hi s1 c1 ∧ sameNodes s s1 ∧
      live c1 = live c ∧
      (∀ y ∈ c, is_marked_ref y.2.next = 0 → ∃ z ∈ c1, z.1 = y.1 ∧ kv z = kv y) := by
  obtain ⟨s1, c1, h1, h2, h3, -, h5, -, h7⟩ :=
    remove_absent hwf k (by omega) (fun _ => habs) fuel hf
  exact ⟨s1, c1, h1, h2, h5, h3, h7⟩

theorem C6_remove_miss_witness :
    WF 0 10 (LinkedListHarris.new 0 10)
        [(4, node_ll_linked.mk 0 0 2), (2, node_ll_linked.mk 10 0 0)] ∧
      ¬ present [(4, node_ll_linked.mk 0 0 2), (2, node_ll_linked.mk 10 0 0)] 7 ∧
      ∃ s1 c1, remove 3 (LinkedListHarris.new 0 10) 7 = some (0, s1) ∧ WF 0 10 s1 c1 ∧
        sameNodes (LinkedListHarris.new 0 10) s1 ∧
        live c1 = live [(4, node_ll_linked.mk 0 0 2), (2, node_ll_linked.mk 10 0 0)] ∧
        (∀ y ∈ [(4, node_ll_linked.mk 0 0 2), (2, node_ll_linked.mk 10 0 0)],
          is_marked_ref y.2.next = 0 → ∃ z ∈ c1, z.1 = y.1 ∧ kv z = kv y) :=
  ⟨WF_new 0 10 (by decide), not_present_new 0 10 7 (by decide) (by decide),
    C6_remove_miss (WF_new 0 10 (by decide)) 7 (by decide) (by decide)
      (not_present_new 0 10 7 (by decide) (by decide)) 3 (by decide)⟩

/-- C7. Ordering invariant: starting from the constructed list, any finite
sequence of insert, remove and search calls with keys strictly between the
sentinel keys runs to the end and leaves a well-formed list; the keys of the
unmarked nodes on its chain strictly increase from the head sentinel to the
tail sentinel, so no two unmarked reachable nodes share a key. -/
theorem C7_ordering_invariant (lo hi : Int) (hb : lo < hi) (ops : List Op)
    (hk : ∀ op ∈ ops, lo < op.key ∧ op.key < hi) (fuel : Nat) (hf : ops.length + 2 ≤ fuel) :
    ∃ rs s1 c1, run fuel (LinkedListHarris.new lo hi) ops = some (rs, s1) ∧ WF lo hi s1 c1 ∧
      (c1.filter unmarked).Pairwise (fun x y => x.2.key < y.2.key) ∧
      (∃ h, (c1.filter unmarked).head? = some h ∧ h.2.key = lo) ∧
      (∃ t, (c1.filter unmarked).getLast? = some t ∧ t.2.key = hi) ∧
      (∀ x ∈ c1, ∀ y ∈ c1, is_marked_ref x.2.next = 0 → is_marked_ref y.2.next = 0 →
        x.2.key = y.2.key → x = y) := by
  have hok : ∀ op ∈ ops, op.ok lo hi := by
    intro op hop
    have := hk op hop
    cases op with
    | search k => trivial
    | insert k v => exact this
    | remove k => exact ne_of_lt this.2
  have hfuel : [(4, node_ll_linked.mk lo 0 2), (2, node_ll_linked.mk hi 0 0)].length
      + ops.length < fuel + 1 := by
    simp only [List.length_cons, List.length_nil]
    omega
  obtain ⟨rs, s1, c1, g1, g2, -⟩ := run_ok fuel ops _ _ (WF_new lo hi hb) hok hfuel
  refine ⟨rs, s1, c1, g1, g2, g2.sorted.sublist (List.filter_sublist _), ?_, ?_,
    fun x hx y hy _ _ h => key_inj g2 hx hy h⟩
  · obtain ⟨h, rest, rfl, -, -, h3, -, h5, -⟩ := WF_cons g2
    refine ⟨h, ?_, h3⟩
    simp [List.filter_cons, unmarked, h5]
  · obtain ⟨t, ht, t1, -, t3⟩ := g2.tail_ok
    refine ⟨t, ?_, t1⟩
    obtain ⟨init, rfl⟩ : ∃ init, c1 = init ++ [t] :=
      ⟨c1.dropLast, (List.dropLast_append_getLast? t ht).symm⟩
    have htu : unmarked t = true := by simp [unmarked, t3, is_marked_ref_eq]
    rw [List.filter_append]
    simp [List.filter_cons, htu]

theorem C7_ordering_invariant_witness :
    (0 : Int) < 10 ∧
      ∃ rs s1 c1, run 6 (LinkedListHarris.new 0 10)
          [Op.insert 5 1, Op.insert 3 2, Op.remove 5, Op.search 3] = some (rs, s1) ∧
        WF 0 10 s1 c1 ∧
        (c1.filter unmarked).Pairwise (fun x y => x.2.key < y.2.key) ∧
        (∃ h, (c1.filter unmarked).head? = some h ∧ h.2.key = 0) ∧
        (∃ t, (c1.filter unmarked).getLast? = some t ∧ t.2.key = 10) ∧
        (∀ x ∈ c1, ∀ y ∈ c1, is_marked_ref x.2.next = 0 → is_marked_ref y.2.next = 0 →
          x.2.key = y.2.key → x = y) :=
  ⟨by decide, C7_ordering_invariant 0 10 (by decide)
    [Op.insert 5 1, Op.insert 3 2, Op.remove 5, Op.search 3] (by simp [Op.key]) 6 (by decide)⟩

/-- C8 (defect in the code). `harris_remove` lacks the tail guard that
`harris_find` has (`right_node->next == NULL`): on the constructed list,
`remove` of the maximum bound finds the tail sentinel as the key match, sets
the mark on its null `next` word and unlinks it, so that `head->next` is the
null pointer. The tail sentinel is no longer reachable, and every later
traversal dereferences the null pointer. -/
theorem C8_remove_max_unlinks_tail (lo hi : Int) (fuel : Nat) (k : Int) :
    remove (fuel + 3) (LinkedListHarris.new lo hi) hi
        = some (0, LinkedListHarris.mk 4 [node_ll_linked.mk hi 0 1, node_ll_linked.mk lo 0 0]) ∧
      deref (LinkedListHarris.new lo hi).mem 2 = some (node_ll_linked.mk hi 0 0) ∧
      search fuel (LinkedListHarris.mk 4 [node_ll_linked.mk hi 0 1, node_ll_linked.mk lo 0 0]) k
        = none := by
  refine ⟨?_, ?_, ?_⟩
  · simp [remove, harris_remove, harris_remove_loop, harris_remove_unlink, harris_search,
      harris_search_loop, harris_walk, LinkedListHarris.new, initialize_node_ll_linked,
      ATOMIC_CAS_MB, write_next, deref, get_unmarked_ref_eq, is_marked_ref_eq,
      get_marked_ref_eq]
  · simp [LinkedListHarris.new, initialize_node_ll_linked, deref]
  · cases fuel with
    | zero => simp [search, harris_find, harris_search, harris_search_loop]
    | succ n =>
      cases n with
      | zero =>
        simp [search, harris_find, harris_search, harris_search_loop, harris_walk, deref]
      | succ m =>
        simp [search, harris_find, harris_search, harris_search_loop, harris_walk, deref,
          get_unmarked_ref_eq, is_marked_ref_eq]

/-- C9. Postcondition of the traversal: on a well-formed list (marked nodes
allowed) and for a key `k` above the minimum bound (and within the key type,
`k ≤ hi`), `harris_search(k, &left)` returns `right` and sets `left` such that
`left` is unmarked with `left.key < k`, `right` is unmarked with
`right.key ≥ k`, `left.next` is `right`, and `right` is the first unmarked
node of the chain with key `≥ k`: every unmarked node in front of it has a
smaller key, and it is the tail sentinel when no unmarked node below the
maximum bound has key `≥ k`. -/
theorem C9_locate_postcondition {lo hi : Int} {s : LinkedListHarris}
    {c : List (Nat × node_ll_linked)} (hwf : WF lo hi s c) (k : Int) (hlo : lo < k)
    (hhi : k ≤ hi) (fuel : Nat) (hf : c.length ≤ fuel) (left0 : Nat) :
    ∃ right left s1 nl nr, harris_search fuel s k left0 = some (right, left, s1) ∧
      deref s1.mem left = some nl ∧ deref s1.mem right = some nr ∧
      is_marked_ref nl.next = 0 ∧ nl.key < k ∧ nl.next = right ∧
      is_marked_ref nr.next = 0 ∧ k ≤ nr.key ∧
      (∃ A B, c = A ++ (right, nr) :: B ∧
        ∀ x ∈ A, is_marked_ref x.2.next = 0 → x.2.key < k) ∧
      ((∀ x ∈ c, is_marked_ref x.2.next = 0 → k ≤ x.2.key → x.2.key = hi) →
        nr.key = hi ∧ nr.next = 0) := by
  obtain ⟨pre, L, mid, r, post, hloc, hs, hwf1, hr, hL, -⟩ := locate_spec hwf k fuel hf left0
  have hsplit := hloc.split
  have hright := WF_right (hsplit ▸ hwf)
  have hrd : deref s.mem r.1 = some r.2 := Seg_deref hwf.seg (by rw [hsplit]; simp)
  have hsorted := hwf.sorted
  rw [hsplit] at hsorted
  obtain ⟨p1, -⟩ := pairwise_mid hsorted
  have hLk := hloc.left_key hlo
  have hru : is_marked_ref r.2.next = 0 := by
    rcases hloc.right_ok with h0 | ⟨h1, -⟩
    · rw [h0, is_marked_ref_eq]
    · exact h1
  have hrk : k ≤ r.2.key := by
    rcases hloc.right_ok with h0 | ⟨-, h1⟩
    · have := (hright.1 h0).2.1
      omega
    · exact h1
  refine ⟨r.1, L.1, _, _, r.2, hs, hL, hr, (addr_unmarked hrd).1, hLk, rfl, hru, hrk,
    ⟨pre ++ L :: mid, post, by rw [hsplit]; simp, ?_⟩, ?_⟩
  · intro x hx hu
    simp only [List.mem_append, List.mem_cons] at hx
    rcases hx with hx | rfl | hx
    · have := p1 x hx; omega
    · exact hLk
    · exact absurd hu (hloc.mid_marked x hx)
  · intro hall
    have hkey := hall r (by rw [hsplit]; simp) hru hrk
    refine ⟨hkey, ?_⟩
    by_contra hnz
    have := (hright.2 hnz).2
    omega

theorem C9_locate_postcondition_witness :
    WF 0 10 stale_list stale_chain ∧
      ∃ right left s1 nl nr, harris_search 4 stale_list 4 4 = some (right, left, s1) ∧
        deref s1.mem left = some nl ∧ deref s1.mem right = some nr ∧
        is_marked_ref nl.next = 0 ∧ nl.key < 4 ∧ nl.next = right ∧
        is_marked_ref nr.next = 0 ∧ 4 ≤ nr.key ∧
        (∃ A B, stale_chain = A ++ (right, nr) :: B ∧
          ∀ x ∈ A, is_marked_ref x.2.next = 0 → x.2.key < 4) ∧
        ((∀ x ∈ stale_chain, is_marked_ref x.2.next = 0 → 4 ≤ x.2.key → x.2.key = 10) →
          nr.key = 10 ∧ nr.next = 0) :=
  ⟨WF_stale, C9_locate_postcondition WF_stale 4 (by decide) (by decide) 4 (by decide) 4⟩

/-- Membership in the abstract content. -/
theorem mem_live {lo hi : Int} {s : LinkedListHarris} {c : List (Nat × node_ll_linked)}
    (hwf : WF lo hi s c) {y : Int × Int} :
    y ∈ live c ↔
      ∃ x ∈ c, is_marked_ref x.2.next = 0 ∧ lo < x.2.key ∧ x.2.key < hi ∧ kv x = y := by
  rw [live_eq_liveB hwf]
  exact mem_liveB

/-- C12. Mark-bit encoding on 64-bit words: for every word `w` below 2^64,
`is_marked_ref (get_marked_ref w)` is 1 and `is_marked_ref (get_unmarked_ref
w)` is 0; both functions are idempotent, stay below 2^64 and change no bit
other than bit 0; and for an even word (free low-order bit) unmarking the
marked word gives the word back. -/
theorem C12_mark_bit_encoding (w : Nat) (hw : w < 2 ^ 64) :
    is_marked_ref (get_marked_ref w) = 1 ∧ is_marked_ref (get_unmarked_ref w) = 0 ∧
    get_marked_ref (get_marked_ref w) = get_marked_ref w ∧
    get_unmarked_ref (get_unmarked_ref w) = get_unmarked_ref w ∧
    get_marked_ref w < 2 ^ 64 ∧ get_unmarked_ref w < 2 ^ 64 ∧
    (∀ i, 0 < i → (get_marked_ref w).testBit i = w.testBit i) ∧
    (∀ i, 0 < i → (get_unmarked_ref w).testBit i = w.testBit i) ∧
    (w % 2 = 0 → get_unmarked_ref (get_marked_ref w) = w) := by
  refine ⟨?_, ?_, ?_, ?_, ?_, ?_, ?_, ?_, ?_⟩
  · rw [is_marked_ref_eq, get_marked_ref_eq]; omega
  · rw [is_marked_ref_eq, get_unmarked_ref_eq]; omega
  · rw [get_marked_ref_eq, get_marked_ref_eq]; omega
  · rw [get_unmarked_ref_eq, get_unmarked_ref_eq]; omega
  · rw [get_marked_ref_eq]; omega
  · rw [get_unmarked_ref_eq]; omega
  · intro i hi
    obtain ⟨j, rfl⟩ : ∃ j, i = j + 1 := ⟨i - 1, by omega⟩
    rw [get_marked_ref_eq, Nat.testBit_succ, Nat.testBit_succ]
    congr 1
    omega
  · intro i hi
    obtain ⟨j, rfl⟩ : ∃ j, i = j + 1 := ⟨i - 1, by omega⟩
    rw [get_unmarked_ref_eq, Nat.testBit_succ, Nat.testBit_succ]
    congr 1
    omega
  · intro he
    rw [unmarked_marked, get_unmarked_ref_eq]; omega

theorem C12_mark_bit_encoding_witness :
    (6 : Nat) < 2 ^ 64 ∧
    (is_marked_ref (get_marked_ref 6) = 1 ∧ is_marked_ref (get_unmarked_ref 6) = 0 ∧
    get_marked_ref (get_marked_ref 6) = get_marked_ref 6 ∧
    get_unmarked_ref (get_unmarked_ref 6) = get_unmarked_ref 6 ∧
    get_marked_ref 6 < 2 ^ 64 ∧ get_unmarked_ref 6 < 2 ^ 64 ∧
    (∀ i, 0 < i → (get_marked_ref 6).testBit i = (6 : Nat).testBit i) ∧
    (∀ i, 0 < i → (get_unmarked_ref 6).testBit i = (6 : Nat).testBit i) ∧
    (6 % 2 = 0 → get_unmarked_ref (get_marked_ref 6) = 6)) :=
  ⟨by decide, C12_mark_bit_encoding 6 (by decide)⟩

/-- C13. Zero-value/absent collision: on the fresh list, for every key `k`
strictly between the bounds and every value `v`, `insert(k, 0)` returns 1;
the key is then logically present, yet `search(k)` returns 0 while
`insert(k, v)` returns 0 and `length()` returns 1; `remove(k)` returns 0
although it removes the key: afterwards `length()` returns 0 and
`insert(k, v)` returns 1. -/
theorem C13_zero_value_collision (lo hi k v : Int) (hlo : lo < k) (hhi : k < hi)
    (fuel : Nat) (hf : 4 ≤ fuel) :
    ∃ s1 s2 s3 s4 s5 c3,
      insert fuel (LinkedListHarris.new lo hi) k 0 = some (1, s1) ∧
      search fuel s1 k = some (0, s2) ∧
      insert fuel s2 k v = some (0, s3) ∧
      WF lo hi s3 c3 ∧ present c3 k ∧
      length fuel s3 = some (1, s3) ∧
      remove fuel s3 k = some (0, s4) ∧
      length fuel s4 = some (0, s4) ∧
      insert fuel s4 k v = some (1, s5) := by
  have hwf0 := WF_new lo hi (by omega)
  have hnp := not_present_new lo hi k (by omega) (by omega)
  obtain ⟨s1, c1, A, B, hi1, hwf1, hl0, hl1, hlen1, -⟩ :=
    insert_absent hwf0 k 0 hlo hhi hnp fuel (by simp; omega)
  have hlive0 : live [(4, node_ll_linked.mk lo 0 2), (2, node_ll_linked.mk hi 0 0)]
      = ([] : List (Int × Int)) := by
    simp [live]
  rw [hlive0] at hl0
  obtain ⟨hA, hB⟩ := List.append_eq_nil.mp hl0.symm
  subst hA; subst hB
  simp only [List.nil_append] at hl1
  have hlen1b : c1.length ≤ 3 := by simpa using hlen1
  obtain ⟨res, s2, c2, hs2, hwf2, hl2, hlen2, -, -, hres, -⟩ :=
    search_abs hwf1 k fuel (by omega)
  have hmem1 : (k, (0 : Int)) ∈ live c1 := by rw [hl1]; simp
  obtain ⟨x1, hx1, hu1, -, -, hkv1⟩ := (mem_live hwf1).mp hmem1
  have hx1k : x1.2.key = k := congrArg Prod.fst hkv1
  have hx1v : x1.2.val = 0 := congrArg Prod.snd hkv1
  have hres0 : res = 0 := by
    rw [hres x1 hx1 hu1 hx1k (by omega), hx1v]
  subst hres0
  have hp2 : present c2 k := by
    rw [present_iff_live hwf2 hlo hhi, hl2, hl1]; simp
  obtain ⟨s3, c3, hi3, hwf3, hl3, hlen3, -, hp3, -⟩ :=
    insert_present hwf2 k v hlo hp2 fuel (by omega)
  have hmem3 : (k, (0 : Int)) ∈ live c3 := by rw [hl3, hl2, hl1]; simp
  obtain ⟨x3, hx3, hu3, -, -, hkv3⟩ := (mem_live hwf3).mp hmem3
  have hx3k : x3.2.key = k := congrArg Prod.fst hkv3
  have hx3v : x3.2.val = 0 := congrArg Prod.snd hkv3
  have hlen3s : length fuel s3 = some (1, s3) := by
    rw [length_spec hwf3 fuel (by omega), hl3, hl2, hl1]; rfl
  obtain ⟨s4, c4, A, B, hr4, hwf4, hl3b, hl4, hlen4⟩ :=
    remove_present hwf3 k hlo (by omega) hx3 hu3 hx3k fuel (by omega)
  rw [hx3v] at hr4 hl3b
  rw [hl3, hl2, hl1] at hl3b
  have hAB : A = [] ∧ B = [] := by
    have h := congrArg List.length hl3b
    simp at h
    constructor
    · exact List.length_eq_zero.mp (by omega)
    · exact List.length_eq_zero.mp (by omega)
  obtain ⟨hA, hB⟩ := hAB
  subst hA; subst hB
  simp only [List.nil_append] at hl4
  have hlen4s : length fuel s4 = some (0, s4) := by
    rw [length_spec hwf4 fuel (by omega), hl4]; rfl
  have hnp4 : ¬ present c4 k := by
    rw [present_iff_live hwf4 hlo hhi, hl4]; simp
  obtain ⟨s5, c5, A, B, hi5, -⟩ :=
    insert_absent hwf4 k v hlo hhi hnp4 fuel (by omega)
  exact ⟨s1, s2, s3, s4, s5, c3, hi1, hs2, hi3, hwf3, hp3, hlen3s, hr4, hlen4s, hi5⟩

theorem C13_zero_value_collision_witness :
    (0 : Int) < 5 ∧ (5 : Int) < 10 ∧ 4 ≤ 4 ∧
    ∃ s1 s2 s3 s4 s5 c3,
      insert 4 (LinkedListHarris.new 0 10) 5 0 = some (1, s1) ∧
      search 4 s1 5 = some (0, s2) ∧
      insert 4 s2 5 7 = some (0, s3) ∧
      WF 0 10 s3 c3 ∧ present c3 5 ∧
      length 4 s3 = some (1, s3) ∧
      remove 4 s3 5 = some (0, s4) ∧
      length 4 s4 = some (0, s4) ∧
      insert 4 s4 5 7 = some (1, s5) :=
  ⟨by decide, by decide, by decide,
    C13_zero_value_collision 0 10 5 7 (by decide) (by decide) 4 (by decide)⟩

/-- The nodes of the chain of a well-formed list have pairwise distinct
addresses: the chain is acyclic. -/
theorem WF_addr_nodup {lo hi : Int} {s : LinkedListHarris} {c : List (Nat × node_ll_linked)}
    (hwf : WF lo hi s c) : (c.map Prod.fst).Nodup := by
  unfold List.Nodup
  rw [List.pairwise_map]
  exact hwf.sorted.imp_of_mem
    (fun hx hy hlt => addr_ne_of_key_ne hwf.seg hx hy (ne_of_lt hlt))

/-- Counts over a log of the shape the operations produce on a well-formed
list. -/
theorem shape_counts (vs : List Nat) {es : List Event} (h : ∀ x ∈ es, x.isUpdate = true) :
    passes (Event.pass :: (vs.map Event.visit ++ es)) = 1 ∧
    attempts (Event.pass :: (vs.map Event.visit ++ es)) = 0 ∧
    visits (Event.pass :: (vs.map Event.visit ++ es)) = vs ∧
    passes (Event.attempt :: Event.pass :: (vs.map Event.visit ++ es)) = 1 ∧
    attempts (Event.attempt :: Event.pass :: (vs.map Event.visit ++ es)) = 1 ∧
    visits (Event.attempt :: Event.pass :: (vs.map Event.visit ++ es)) = vs := by
  obtain ⟨h1, h2, h3, -⟩ := updates_only h
  have hp : passes (vs.map Event.visit ++ es) = 0 := by
    rw [passes_append, passes_map_visit, h1]
  have ha : attempts (vs.map Event.visit ++ es) = 0 := by
    rw [attempts_append, attempts_map_visit, h2]
  have hv : visits (vs.map Event.visit ++ es) = vs := by
    rw [visits_append, visits_map_visit, h3, List.append_nil]
  unfold passes at hp ⊢
  unfold attempts at ha ⊢
  refine ⟨?_, ?_, ?_, ?_, ?_, ?_⟩
  · simp [hp]
  · simp [ha]
  · simpa [visits] using hv
  · simp [hp]
  · simp [ha]
  · simpa [visits] using hv

/-- C17. Termination without contention: on every well-formed list and for
every key, `harris_search` returns, within one pass of its outer retry loop,
and its walk visits pairwise distinct nodes of the chain (each reachable node
at most once); `search`, `insert` and `remove` return as well, after one pass
of the traversal and, for `insert` and `remove`, one iteration of their own
retry loop. Fuel above the chain length is enough. -/
theorem C17_termination_without_contention {lo hi : Int} {s : LinkedListHarris}
    {c : List (Nat × node_ll_linked)} (hwf : WF lo hi s c) (k v : Int)
    (fuel : Nat) (hf : c.length < fuel) (left0 : Nat) :
    (∃ res tr, harris_search_tr fuel s k left0 = some (res, tr) ∧
      harris_search fuel s k left0 = some res ∧ passes tr = 1 ∧ (visits tr).Nodup ∧
      visits tr <+: c.map Prod.fst) ∧
    (∃ res tr, search_tr fuel s k = some (res, tr) ∧ search fuel s k = some res ∧
      passes tr = 1 ∧ (visits tr).Nodup ∧ visits tr <+: c.map Prod.fst) ∧
    (∃ res tr, insert_tr fuel s k v = some (res, tr) ∧ insert fuel s k v = some res ∧
      attempts tr = 1 ∧ passes tr = 1 ∧ (visits tr).Nodup ∧ visits tr <+: c.map Prod.fst) ∧
    (∃ res tr, remove_tr fuel s k = some (res, tr) ∧ remove fuel s k = some res ∧
      attempts tr = 1 ∧ passes tr = 1 ∧ (visits tr).Nodup ∧ visits tr <+: c.map Prod.fst) := by
  have hnd := WF_addr_nodup hwf
  refine ⟨?_, ?_, ?_, ?_⟩
  · obtain ⟨res, vs, cs, ht, hvs, hcs⟩ := harris_search_tr_shape hwf k fuel (by omega) left0
    have hup : ∀ x ∈ cs, x.isUpdate = true := by
      rcases hcs with rfl | ⟨e, -, rfl⟩
      · simp
      · intro x hx
        rw [List.mem_singleton] at hx
        subst hx
        rfl
    obtain ⟨h1, -, h3, -⟩ := shape_counts vs hup
    refine ⟨res, _, ht, of_tr (harris_search_tr_fst fuel s k left0) ht, h1, ?_, ?_⟩
    · rw [h3]; exact hnd.sublist hvs.sublist
    · rw [h3]; exact hvs
  · obtain ⟨res, vs, es, ht, hvs, hup, -⟩ := search_tr_shape hwf k fuel (by omega)
    obtain ⟨h1, -, h3, -⟩ := shape_counts vs hup
    refine ⟨res, _, ht, of_tr (search_tr_fst fuel s k) ht, h1, ?_, ?_⟩
    · rw [h3]; exact hnd.sublist hvs.sublist
    · rw [h3]; exact hvs
  · obtain ⟨res, vs, es, ht, hvs, hup, -⟩ := insert_tr_shape hwf k v fuel hf
    obtain ⟨-, -, -, h1, h2, h3⟩ := shape_counts vs hup
    refine ⟨res, _, ht, of_tr (insert_tr_fst fuel s k v) ht, h2, h1, ?_, ?_⟩
    · rw [h3]; exact hnd.sublist hvs.sublist
    · rw [h3]; exact hvs
  · obtain ⟨res, vs, es, ht, hvs, hup, -⟩ := remove_tr_shape hwf k fuel hf
    obtain ⟨-, -, -, h1, h2, h3⟩ := shape_counts vs hup
    refine ⟨res, _, ht, of_tr (remove_tr_fst fuel s k) ht, h2, h1, ?_, ?_⟩
    · rw [h3]; exact hnd.sublist hvs.sublist
    · rw [h3]; exact hvs

theorem C17_termination_without_contention_witness :
    WF 0 10 stale_list stale_chain ∧ stale_chain.length < 5 ∧
    ((∃ res tr, harris_search_tr 5 stale_list 5 4 = some (res, tr) ∧
      harris_search 5 stale_list 5 4 = some res ∧ passes tr = 1 ∧ (visits tr).Nodup ∧
      visits tr <+: stale_chain.map Prod.fst) ∧
    (∃ res tr, search_tr 5 stale_list 5 = some (res, tr) ∧ search 5 stale_list 5 = some res ∧
      passes tr = 1 ∧ (visits tr).Nodup ∧ visits tr <+: stale_chain.map Prod.fst) ∧
    (∃ res tr, insert_tr 5 stale_list 5 7 = some (res, tr) ∧
      insert 5 stale_list 5 7 = some res ∧
      attempts tr = 1 ∧ passes tr = 1 ∧ (visits tr).Nodup ∧
      visits tr <+: stale_chain.map Prod.fst) ∧
    (∃ res tr, remove_tr 5 stale_list 5 = some (res, tr) ∧ remove 5 stale_list 5 = some res ∧
      attempts tr = 1 ∧ passes tr = 1 ∧ (visits tr).Nodup ∧
      visits tr <+: stale_chain.map Prod.fst)) :=
  ⟨WF_stale, by decide, C17_termination_without_contention WF_stale 5 7 5 (by decide) 4⟩

/-- A traversal of a chain without marked nodes leaves a chain without marked
nodes. -/
theorem clean_after_search {lo k : Int} {mem : List node_ll_linked}
    {c pre mid post : List (Nat × node_ll_linked)} {L r : Nat × node_ll_linked}
    (hloc : Located lo k c pre L mid r post) (hrd : deref mem r.1 = some r.2)
    (hc : ∀ x ∈ c, is_marked_ref x.2.next = 0) (w : Nat) (hw : is_marked_ref w = 0)
    (ins : List (Nat × node_ll_linked)) (hins : ∀ x ∈ ins, is_marked_ref x.2.next = 0) :
    ∀ x ∈ pre ++ relink L w :: (ins ++ r :: post), is_marked_ref x.2.next = 0 := by
  intro x hx
  rw [List.mem_append, List.mem_cons, List.mem_append] at hx
  rcases hx with hx | rfl | hx | hx
  · exact hc x (by rw [hloc.split]; simp [hx])
  · exact hw
  · exact hins x hx
  · exact hc x (by
      rw [hloc.split]
      rw [List.mem_cons] at hx
      rcases hx with rfl | hx
      · simp
      · simp [hx])

/-- One call with an in-range key on a well-formed list without marked nodes:
it returns, the list stays well formed and without marked nodes, every
compare-and-swap it issues succeeds and the fallback traversal of
`harris_remove` is not run. -/
theorem step_clean {lo hi : Int} {s : LinkedListHarris} {c : List (Nat × node_ll_linked)}
    (hwf : WF lo hi s c) (hc : ∀ x ∈ c, is_marked_ref x.2.next = 0) (op : Op)
    (hop : lo < op.key ∧ op.key < hi) (fuel : Nat) (hf : c.length < fuel) :
    ∃ res s1 c1 tr, op.apply_tr fuel s = some ((res, s1), tr) ∧
      op.apply fuel s = some (res, s1) ∧ WF lo hi s1 c1 ∧
      (∀ x ∈ c1, is_marked_ref x.2.next = 0) ∧ c1.length ≤ c.length + 1 ∧
      (∀ p e w ok, Event.cas p e w ok ∈ tr → ok = true) ∧ Event.fallback ∉ tr ∧
      attempts tr ≤ 1 ∧ passes tr = 1 := by
  have hshape : ∀ {vs : List Nat} {es : List Event} {tr : List Event}, (∀ x ∈ es, x.isUpdate = true) →
      (tr = Event.pass :: (vs.map Event.visit ++ es) ∨
        tr = Event.attempt :: Event.pass :: (vs.map Event.visit ++ es)) →
      (∀ p e w ok, Event.cas p e w ok ∈ tr → ok = true) ∧ Event.fallback ∉ tr ∧
      attempts tr ≤ 1 ∧ passes tr = 1 := by
    intro vs es tr hup htr
    obtain ⟨-, -, -, h4, h5, -⟩ := updates_only hup
    obtain ⟨c1, c2, -, c4, c5, -⟩ := shape_counts vs hup
    rcases htr with rfl | rfl
    · refine ⟨?_, ?_, by omega, c1⟩
      · intro p e w ok hm
        simp only [List.mem_cons, List.mem_append, List.mem_map, false_or, reduceCtorEq,
          and_false, exists_false] at hm
        exact h5 p e w ok hm
      · intro hm
        simp only [List.mem_cons, List.mem_append, List.mem_map, false_or, reduceCtorEq,
          and_false, exists_false] at hm
        exact h4 hm
    · refine ⟨?_, ?_, by omega, c4⟩
      · intro p e w ok hm
        simp only [List.mem_cons, List.mem_append, List.mem_map, false_or, reduceCtorEq,
          and_false, exists_false] at hm
        exact h5 p e w ok hm
      · intro hm
        simp only [List.mem_cons, List.mem_append, List.mem_map, false_or, reduceCtorEq,
          and_false, exists_false] at hm
        exact h4 hm
  cases op with
  | search k =>
    obtain ⟨res, vs, es, ht, -, hup, -⟩ := search_tr_shape hwf k fuel (by omega)
    have hs := of_tr (search_tr_fst fuel s k) ht
    obtain ⟨pre, L, mid, r, post, hloc, hs2, hwf1, -⟩ := search_spec hwf k fuel (by omega)
    have hrd : deref s.mem r.1 = some r.2 := Seg_deref hwf.seg (by rw [hloc.split]; simp)
    rw [hs] at hs2
    simp only [Option.some.injEq] at hs2
    subst hs2
    refine ⟨_, _, _, _, ht, hs, hwf1, ?_, ?_, hshape hup (Or.inl rfl)⟩
    · exact clean_after_search hloc hrd hc r.1 (addr_unmarked hrd).1 [] (by simp)
    · have := congrArg List.length hloc.split
      simp only [List.length_append, List.length_cons] at this ⊢
      omega
  | insert k v =>
    obtain ⟨res, vs, es, ht, -, hup, -⟩ := insert_tr_shape hwf k v fuel hf
    have hs := of_tr (insert_tr_fst fuel s k v) ht
    obtain ⟨pre, L, mid, r, post, hloc, hwf1, -, h0, h1⟩ := insert_spec hwf k v fuel hf
    have hrd : deref s.mem r.1 = some r.2 := Seg_deref hwf.seg (by rw [hloc.split]; simp)
    have hmid := no_marked_mid hloc (fun x hx hm => hm (hc x hx))
    have hlen := congrArg List.length hloc.split
    by_cases hk : r.2.key = k
    · have hs2 := h0 hk
      rw [hs] at hs2
      simp only [Option.some.injEq] at hs2
      subst hs2
      refine ⟨_, _, _, _, ht, hs, hwf1, ?_, ?_, hshape hup (Or.inr rfl)⟩
      · exact clean_after_search hloc hrd hc r.1 (addr_unmarked hrd).1 [] (by simp)
      · simp only [List.length_append, List.length_cons] at hlen ⊢
        omega
    · obtain ⟨hs2, hwf2⟩ := h1 hk hop.1 hop.2
      rw [hs] at hs2
      simp only [Option.some.injEq] at hs2
      subst hs2
      refine ⟨_, _, _, _, ht, hs, hwf2, ?_, ?_, hshape hup (Or.inr rfl)⟩
      · exact clean_after_search hloc hrd hc (2 * (s.mem.length + 1))
          (by rw [is_marked_ref_eq]; omega)
          [(2 * (s.mem.length + 1), node_ll_linked.mk k v r.1)]
          (by
            intro x hx
            rw [List.mem_singleton] at hx
            subst hx
            exact (addr_unmarked hrd).1)
      · subst hmid
        simp only [List.length_append, List.length_cons, List.nil_append] at hlen ⊢
        omega
  | remove k =>
    obtain ⟨res, vs, es, ht, -, hup, -⟩ := remove_tr_shape hwf k fuel hf
    have hs := of_tr (remove_tr_fst fuel s k) ht
    obtain ⟨pre, L, mid, r, post, hloc, hwf1, -, h0, h1⟩ :=
      remove_spec hwf k (ne_of_lt hop.2) fuel hf
    have hrd : deref s.mem r.1 = some r.2 := Seg_deref hwf.seg (by rw [hloc.split]; simp)
    have hlen := congrArg List.length hloc.split
    by_cases hk : r.2.key = k
    · obtain ⟨hs2, hru, hpost, hwf2⟩ := h1 hk
      rw [hs] at hs2
      simp only [Option.some.injEq] at hs2
      subst hs2
      refine ⟨_, _, _, _, ht, hs, hwf2, ?_, ?_, hshape hup (Or.inr rfl)⟩
      · intro x hx
        rw [List.mem_append, List.mem_cons] at hx
        rcases hx with hx | rfl | hx
        · exact hc x (by rw [hloc.split]; simp [hx])
        · exact hru
        · exact hc x (by rw [hloc.split]; simp [hx])
      · simp only [List.length_append, List.length_cons] at hlen ⊢
        omega
    · have hs2 := h0 hk
      rw [hs] at hs2
      simp only [Option.some.injEq] at hs2
      subst hs2
      refine ⟨_, _, _, _, ht, hs, hwf1, ?_, ?_, hshape hup (Or.inr rfl)⟩
      · exact clean_after_search hloc hrd hc r.1 (addr_unmarked hrd).1 [] (by simp)
      · simp only [List.length_append, List.length_cons] at hlen ⊢
        omega

/-- A sequence of calls with in-range keys on a well-formed list without
marked nodes. -/
theorem run_clean {lo hi : Int} (fuel : Nat) (ops : List Op) :
    ∀ (s : LinkedListHarris) (c : List (Nat × node_ll_linked)), WF lo hi s c →
      (∀ x ∈ c, is_marked_ref x.2.next = 0) →
      (∀ op ∈ ops, lo < op.key ∧ op.key < hi) → c.length + ops.length < fuel + 1 →
      ∃ rs s1 c1 tr, run_tr fuel s ops = some ((rs, s1), tr) ∧
        run fuel s ops = some (rs, s1) ∧ WF lo hi s1 c1 ∧
        (∀ x ∈ c1, is_marked_ref x.2.next = 0) ∧
        (∀ p e w ok, Event.cas p e w ok ∈ tr → ok = true) ∧ Event.fallback ∉ tr ∧
        attempts tr ≤ ops.length ∧ passes tr = ops.length := by
  induction ops with
  | nil =>
    intro s c hwf hc _ _
    exact ⟨[], s, c, [], rfl, rfl, hwf, hc, by simp, by simp, by simp [attempts],
      by simp [passes]⟩
  | cons op ops ih =>
    intro s c hwf hc hops hf
    simp only [List.length_cons] at hf
    obtain ⟨res, s1, c1, tr, h1, h2, hwf1, hc1, hlen, hcas, hfb, hat, hpa⟩ :=
      step_clean hwf hc op (hops op (by simp)) fuel (by omega)
    obtain ⟨rs, s2, c2, tr2, g1, g2, hwf2, hc2, gcas, gfb, gat, gpa⟩ :=
      ih s1 c1 hwf1 hc1 (fun o ho => hops o (by simp [ho])) (by omega)
    refine ⟨res :: rs, s2, c2, tr ++ tr2, ?_, ?_, hwf2, hc2, ?_, ?_, ?_, ?_⟩
    · simp only [run_tr, h1, g1]
    · simp only [run, h2, g2]
    · intro p e w ok hm
      rw [List.mem_append] at hm
      rcases hm with hm | hm
      · exact hcas p e w ok hm
      · exact gcas p e w ok hm
    · intro hm
      rw [List.mem_append] at hm
      rcases hm with hm | hm
      · exact hfb hm
      · exact gfb hm
    · rw [attempts_append, List.length_cons]; omega
    · rw [passes_append, List.length_cons]; omega

/-- C19. In single-threaded use removal is physical as well as logical:
starting from the constructed empty list, any finite sequence of `insert`,
`remove` and `search` calls with keys strictly between the sentinel keys
runs to the end and leaves a well-formed list none of whose reachable nodes
is marked; every compare-and-swap issued on the way succeeds, the unlink
compare-and-swap of `harris_remove` included, and the fallback traversal is
never run. -/
theorem C19_removal_is_physical (lo hi : Int) (ops : List Op)
    (hops : ∀ op ∈ ops, lo < op.key ∧ op.key < hi) (hb : lo < hi)
    (fuel : Nat) (hf : ops.length + 2 ≤ fuel) :
    ∃ rs s1 c1 tr, run_tr fuel (LinkedListHarris.new lo hi) ops = some ((rs, s1), tr) ∧
      run fuel (LinkedListHarris.new lo hi) ops = some (rs, s1) ∧ WF lo hi s1 c1 ∧
      (∀ x ∈ c1, is_marked_ref x.2.next = 0) ∧
      (∀ p e w ok, Event.cas p e w ok ∈ tr → ok = true) ∧ Event.fallback ∉ tr := by
  obtain ⟨rs, s1, c1, tr, h1, h2, h3, h4, h5, h6, -⟩ :=
    run_clean fuel ops (LinkedListHarris.new lo hi) _ (WF_new lo hi hb)
      (by
        intro x hx
        simp only [List.mem_cons, List.mem_singleton, List.not_mem_nil, or_false] at hx
        rcases hx with rfl | rfl <;> simp [is_marked_ref_eq])
      hops (by simp only [List.length_cons, List.length_nil]; omega)
  exact ⟨rs, s1, c1, tr, h1, h2, h3, h4, h5, h6⟩

theorem C19_removal_is_physical_witness :
    (∀ op ∈ [Op.insert 3 7, Op.insert 5 9, Op.remove 3, Op.search 5],
      (0 : Int) < op.key ∧ op.key < 10) ∧ (0 : Int) < 10 ∧
    [Op.insert 3 7, Op.insert 5 9, Op.remove 3, Op.search 5].length + 2 ≤ 6 ∧
    ∃ rs s1 c1 tr, run_tr 6 (LinkedListHarris.new 0 10)
        [Op.insert 3 7, Op.insert 5 9, Op.remove 3, Op.search 5] = some ((rs, s1), tr) ∧
      run 6 (LinkedListHarris.new 0 10)
        [Op.insert 3 7, Op.insert 5 9, Op.remove 3, Op.search 5] = some (rs, s1) ∧
      WF 0 10 s1 c1 ∧
      (∀ x ∈ c1, is_marked_ref x.2.next = 0) ∧
      (∀ p e w ok, Event.cas p e w ok ∈ tr → ok = true) ∧ Event.fallback ∉ tr :=
  ⟨by decide, by decide, by decide,
    C19_removal_is_physical 0 10 _ (by decide) (by decide) 6 (by decide)⟩

/-- C20. Insert places the node at its sorted position and touches nothing
else: on a well-formed list without marked nodes, for a key `k` strictly
between the sentinel keys that is not present, `insert(k, v)` returns 1 and
the sequence of (key, value) pairs from head to tail becomes the old one with
`(k, v)` put in after the nodes with keys below `k` and right in front of the
first node whose key exceeds `k`. The heap gains the new node only; the head
is the same; every old node keeps its key and value; and the only old node
with a changed `next` word is the predecessor, the node with the greatest key
below `k`, whose `next` word now holds the address of the new node. -/
theorem C20_insert_at_sorted_position {lo hi : Int} {s : LinkedListHarris}
    {c : List (Nat × node_ll_linked)} (hwf : WF lo hi s c)
    (hc : ∀ x ∈ c, is_marked_ref x.2.next = 0) (k v : Int) (hlo : lo < k) (hhi : k < hi)
    (hp : ¬ present c k) (fuel : Nat) (hf : c.length < fuel) :
    ∃ s1 c1 P q Q L, insert fuel s k v = some (1, s1) ∧ WF lo hi s1 c1 ∧
      c.map kv = P ++ q :: Q ∧ c1.map kv = P ++ (k, v) :: q :: Q ∧
      (∀ p ∈ P, p.1 < k) ∧ k < q.1 ∧
      s1.head = s.head ∧ s1.mem.length = s.mem.length + 1 ∧
      (∀ p n, deref s.mem p = some n →
        ∃ n1, deref s1.mem p = some n1 ∧ n1.key = n.key ∧ n1.val = n.val) ∧
      L ∈ c ∧ L.2.key < k ∧ (∀ y ∈ c, y.2.key < k → y.2.key ≤ L.2.key) ∧
      (∀ p n, deref s.mem p = some n → p ≠ L.1 → deref s1.mem p = some n) ∧
      deref s1.mem L.1
        = some (node_ll_linked.mk L.2.key L.2.val (2 * (s.mem.length + 1))) ∧
      (∃ r, r ∈ c ∧ L.2.next = r.1 ∧ kv r = q ∧
        deref s1.mem (2 * (s.mem.length + 1)) = some (node_ll_linked.mk k v r.1)) := by
  obtain ⟨pre, L, mid, r, post, hloc, hwf1, hsame, -, h1⟩ := insert_spec hwf k v fuel hf
  have hmid := no_marked_mid hloc (fun x hx hm => hm (hc x hx))
  subst hmid
  have hrk : r.2.key ≠ k := fun h => hp ((present_iff hwf hloc hlo).mpr h)
  obtain ⟨hins, hwf2⟩ := h1 hrk hlo hhi
  have hsplit : c = pre ++ L :: r :: post := by simpa using hloc.split
  have hLc : L ∈ c := by rw [hsplit]; simp
  have hrc : r ∈ c := by rw [hsplit]; simp
  have hLd : deref s.mem L.1 = some L.2 := Seg_deref hwf.seg hLc
  have hrd : deref s.mem r.1 = some r.2 := Seg_deref hwf.seg hrc
  have hsorted := hwf.sorted
  rw [hloc.split] at hsorted
  obtain ⟨p1, p2, p3, -, -, p6, p7⟩ := pairwise_mid hsorted
  have hLk : L.2.key < k := hloc.left_key hlo
  have hkr : k < r.2.key := by
    rcases hloc.right_ok with h0 | ⟨-, h1⟩
    · have := (WF_right (hloc.split ▸ hwf)).1 h0
      omega
    · omega
  have hLr : L.2.next = r.1 := by
    have hseg := hwf.seg
    rw [hsplit, Seg_append] at hseg
    obtain ⟨m, -, hseg⟩ := hseg
    rw [Seg_cons, Seg_cons, unmarked_fix hloc.left_unmarked] at hseg
    exact hseg.2.2.1
  have hm0 : write_next s.mem L.1 L.2 r.1 = s.mem := by
    rw [← hLr]; exact write_next_self hLd
  have hLd2 : deref (s.mem ++ [node_ll_linked.mk k v r.1]) L.1 = some L.2 :=
    deref_append_old hLd _
  have hmem : (after_insert s L r k v).mem
      = write_next (s.mem ++ [node_ll_linked.mk k v r.1]) L.1 L.2 (2 * (s.mem.length + 1)) := by
    unfold after_insert
    rw [hm0]
  have hold : ∀ p n, deref s.mem p = some n → p ≠ L.1 →
      deref (after_insert s L r k v).mem p = some n := by
    intro p n hpn hne
    rw [hmem, deref_write_next hLd2, if_neg hne]
    exact deref_append_old hpn _
  have hnewL : deref (after_insert s L r k v).mem L.1
      = some (node_ll_linked.mk L.2.key L.2.val (2 * (s.mem.length + 1))) := by
    rw [hmem, deref_write_next hLd2, if_pos rfl]
  refine ⟨_, _, (pre ++ [L]).map kv, kv r, post.map kv, L, hins, hwf2, ?_, ?_, ?_, hkr, rfl,
    ?_, ?_, hLc, hLk, ?_, hold, hnewL, r, hrc, hLr, rfl, ?_⟩
  · rw [hsplit]; simp
  · simp [kv, relink]
  · intro p hp
    rw [List.mem_map] at hp
    obtain ⟨x, hx, rfl⟩ := hp
    rw [List.mem_append, List.mem_singleton] at hx
    rcases hx with hx | rfl
    · have := p1 x hx
      simp only [kv]
      omega
    · exact hLk
  · rw [hmem, length_write_next]; simp
  · intro p n hpn
    by_cases hne : p = L.1
    · subst hne
      rw [hLd] at hpn
      simp only [Option.some.injEq] at hpn
      subst hpn
      exact ⟨_, hnewL, rfl, rfl⟩
    · exact ⟨n, hold p n hpn hne, rfl, rfl⟩
  · intro y hy hyk
    rw [hsplit, List.mem_append, List.mem_cons, List.mem_cons] at hy
    rcases hy with hy | rfl | rfl | hy
    · exact le_of_lt (p1 y hy)
    · exact le_refl _
    · omega
    · have := p7 y hy
      omega
  · rw [hmem, deref_write_next hLd2, if_neg]
    · exact deref_append_new _ _
    · exact (deref_fresh hLd).symm

theorem C20_insert_at_sorted_position_witness :
    WF 0 10 (LinkedListHarris.new 0 10)
      [(4, node_ll_linked.mk 0 0 2), (2, node_ll_linked.mk 10 0 0)] ∧
    (∀ x ∈ [(4, node_ll_linked.mk 0 0 2), (2, node_ll_linked.mk 10 0 0)],
      is_marked_ref x.2.next = 0) ∧ (0 : Int) < 5 ∧ (5 : Int) < 10 ∧
    ¬ present [(4, node_ll_linked.mk 0 0 2), (2, node_ll_linked.mk 10 0 0)] 5 ∧
    [(4, node_ll_linked.mk 0 0 2), (2, node_ll_linked.mk 10 0 0)].length < 3 ∧
    ∃ s1 c1 P q Q L, insert 3 (LinkedListHarris.new 0 10) 5 7 = some (1, s1) ∧ WF 0 10 s1 c1 ∧
      [(4, node_ll_linked.mk 0 0 2), (2, node_ll_linked.mk 10 0 0)].map kv = P ++ q :: Q ∧
      c1.map kv = P ++ (5, 7) :: q :: Q ∧
      (∀ p ∈ P, p.1 < 5) ∧ 5 < q.1 ∧
      s1.head = (LinkedListHarris.new 0 10).head ∧
      s1.mem.length = (LinkedListHarris.new 0 10).mem.length + 1 ∧
      (∀ p n, deref (LinkedListHarris.new 0 10).mem p = some n →
        ∃ n1, deref s1.mem p = some n1 ∧ n1.key = n.key ∧ n1.val = n.val) ∧
      L ∈ [(4, node_ll_linked.mk 0 0 2), (2, node_ll_linked.mk 10 0 0)] ∧ L.2.key < 5 ∧
      (∀ y ∈ [(4, node_ll_linked.mk 0 0 2), (2, node_ll_linked.mk 10 0 0)],
        y.2.key < 5 → y.2.key ≤ L.2.key) ∧
      (∀ p n, deref (LinkedListHarris.new 0 10).mem p = some n → p ≠ L.1 →
        deref s1.mem p = some n) ∧
      deref s1.mem L.1 = some (node_ll_linked.mk L.2.key L.2.val
        (2 * ((LinkedListHarris.new 0 10).mem.length + 1))) ∧
      (∃ r, r ∈ [(4, node_ll_linked.mk 0 0 2), (2, node_ll_linked.mk 10 0 0)] ∧
        L.2.next = r.1 ∧ kv r = q ∧
        deref s1.mem (2 * ((LinkedListHarris.new 0 10).mem.length + 1))
          = some (node_ll_linked.mk 5 7 r.1)) :=
  ⟨WF_new 0 10 (by decide),
    by
      intro x hx
      simp only [List.mem_cons, List.mem_singleton, List.not_mem_nil, or_false] at hx
      rcases hx with rfl | rfl <;> simp [is_marked_ref_eq],
    by decide, by decide, not_present_new 0 10 5 (by decide) (by decide), by decide,
    C20_insert_at_sorted_position (WF_new 0 10 (by decide))
      (by
        intro x hx
        simp only [List.mem_cons, List.mem_singleton, List.not_mem_nil, or_false] at hx
        rcases hx with rfl | rfl <;> simp [is_marked_ref_eq])
      5 7 (by decide) (by decide) (not_present_new 0 10 5 (by decide) (by decide)) 3
      (by decide)⟩

/-- The reference run of the witness sequence returns 1, 0, 7, 1, 7, 0, 0. -/
theorem ref_run_example :
    (ref_run [] [Call.insert 3 7, Call.insert 3 8, Call.search 3, Call.length, Call.remove 3,
      Call.remove 3, Call.length]).1 = [1, 0, 7, 1, 7, 0, 0] := by
  decide

/-- One call, from any state: every compare-and-swap has an unmarked expected
value, no marked `next` word changes, and a marked word written by a
successful compare-and-swap is in place at the end. -/
theorem op_tr_inv {fuel : Nat} {s : LinkedListHarris} {op : Op} {res : Int}
    {s1 : LinkedListHarris} {tr : List Event}
    (h : op.apply_tr fuel s = some ((res, s1), tr)) :
    frozen s.mem s1.mem ∧
    (∀ p e w ok, Event.cas p e w ok ∈ tr → is_marked_ref e = 0) ∧
    (∀ p e w, Event.cas p e w true ∈ tr → is_marked_ref w ≠ 0 →
      ∃ n, deref s1.mem p = some n ∧ n.next = w) := by
  cases op with
  | search k =>
    obtain ⟨a, d⟩ := search_call_inv h
    exact ⟨a.1, fun p e w ok hm => (d p e w ok hm).1,
      fun p e w hm hw => absurd (d p e w true hm).2 hw⟩
  | insert k v =>
    obtain ⟨a, d⟩ := insert_call_inv h
    exact ⟨a.1, fun p e w ok hm => (d p e w ok hm).1,
      fun p e w hm hw => absurd (d p e w true hm).2 hw⟩
  | remove k => exact remove_loop_tr_inv k fuel s s.head res s1 tr h

/-- A sequence of calls, from any state. -/
theorem run_tr_inv (fuel : Nat) (ops : List Op) :
    ∀ (s : LinkedListHarris) (rs : List Int) (s1 : LinkedListHarris) (tr : List Event),
      run_tr fuel s ops = some ((rs, s1), tr) →
      frozen s.mem s1.mem ∧
      (∀ p e w ok, Event.cas p e w ok ∈ tr → is_marked_ref e = 0) ∧
      (∀ p e w, Event.cas p e w true ∈ tr → is_marked_ref w ≠ 0 →
        ∃ n, deref s1.mem p = some n ∧ n.next = w) := by
  induction ops with
  | nil =>
    intro s rs s1 tr h
    simp only [run_tr, Option.some.injEq, Prod.mk.injEq] at h
    obtain ⟨⟨-, rfl⟩, rfl⟩ := h
    exact ⟨frozen_refl _, by simp, by simp⟩
  | cons op ops ih =>
    intro s rs s1 tr h
    unfold run_tr at h
    cases h1 : op.apply_tr fuel s with
    | none => rw [h1] at h; cases h
    | some x =>
      obtain ⟨⟨r, s2⟩, tr1⟩ := x
      rw [h1] at h
      simp only at h
      cases h2 : run_tr fuel s2 ops with
      | none => rw [h2] at h; cases h
      | some y =>
        obtain ⟨⟨rs2, s3⟩, tr2⟩ := y
        rw [h2] at h
        simp only [Option.some.injEq, Prod.mk.injEq] at h
        obtain ⟨⟨-, rfl⟩, rfl⟩ := h
        obtain ⟨a1, b1, c1⟩ := op_tr_inv h1
        obtain ⟨a2, b2, c2⟩ := ih s2 rs2 s3 tr2 h2
        refine ⟨frozen_trans a1 a2, ?_, ?_⟩
        · intro p e w ok hm
          rw [List.mem_append] at hm
          rcases hm with hm | hm
          · exact b1 p e w ok hm
          · exact b2 p e w ok hm
        · intro p e w hm hw
          rw [List.mem_append] at hm
          rcases hm with hm | hm
          · obtain ⟨n, hn1, hn2⟩ := c1 p e w hm hw
            exact ⟨n, a2 p n hn1 (by rw [hn2]; exact hw), hn2⟩
          · exact c2 p e w hm hw

/-- C18. A logically deleted node is frozen: from any list state and for any
sequence of `search`, `insert` and `remove` calls that runs to the end, every
compare-and-swap issued on a `next` word (cleanup, link-in, mark, unlink) has
an unmarked expected value; every node whose `next` word is marked at the
start is the same at the end, with its mark and its successor; and a marked
word written on the way by a successful compare-and-swap is still in place
at the end. -/
theorem C18_marked_node_is_frozen (s : LinkedListHarris) (ops : List Op) (fuel : Nat)
    (rs : List Int) (s1 : LinkedListHarris) (tr : List Event)
    (h : run_tr fuel s ops = some ((rs, s1), tr)) :
    (∀ p e w ok, Event.cas p e w ok ∈ tr → is_marked_ref e = 0) ∧
    frozen s.mem s1.mem ∧
    (∀ p e w, Event.cas p e w true ∈ tr → is_marked_ref w ≠ 0 →
      ∃ n, deref s1.mem p = some n ∧ n.next = w) := by
  obtain ⟨a, b, c⟩ := run_tr_inv fuel ops s rs s1 tr h
  exact ⟨b, a, c⟩

theorem C18_marked_node_is_frozen_witness :
    run_tr 5 stale_list [Op.remove 5] = some (([11],
      LinkedListHarris.mk 4 [node_ll_linked.mk 10 0 0, node_ll_linked.mk 0 0 2,
        node_ll_linked.mk 3 0 9, node_ll_linked.mk 5 11 3]),
      [Event.attempt, Event.pass, Event.visit 4, Event.visit 6, Event.visit 8,
        Event.cas 4 6 8 true, Event.cas 8 2 3 true, Event.cas 4 8 2 true]) ∧
    ((∀ p e w ok, Event.cas p e w ok ∈
        [Event.attempt, Event.pass, Event.visit 4, Event.visit 6, Event.visit 8,
          Event.cas 4 6 8 true, Event.cas 8 2 3 true, Event.cas 4 8 2 true] →
        is_marked_ref e = 0) ∧
    frozen stale_list.mem
      (LinkedListHarris.mk 4 [node_ll_linked.mk 10 0 0, node_ll_linked.mk 0 0 2,
        node_ll_linked.mk 3 0 9, node_ll_linked.mk 5 11 3]).mem ∧
    (∀ p e w, Event.cas p e w true ∈
        [Event.attempt, Event.pass, Event.visit 4, Event.visit 6, Event.visit 8,
          Event.cas 4 6 8 true, Event.cas 8 2 3 true, Event.cas 4 8 2 true] →
      is_marked_ref w ≠ 0 →
      ∃ n, deref (LinkedListHarris.mk 4 [node_ll_linked.mk 10 0 0, node_ll_linked.mk 0 0 2,
        node_ll_linked.mk 3 0 9, node_ll_linked.mk 5 11 3]).mem p = some n ∧ n.next = w)) := by
  have h : run_tr 5 stale_list [Op.remove 5] = some (([11],
      LinkedListHarris.mk 4 [node_ll_linked.mk 10 0 0, node_ll_linked.mk 0 0 2,
        node_ll_linked.mk 3 0 9, node_ll_linked.mk 5 11 3]),
      [Event.attempt, Event.pass, Event.visit 4, Event.visit 6, Event.visit 8,
        Event.cas 4 6 8 true, Event.cas 8 2 3 true, Event.cas 4 8 2 true]) := by
    simp [run_tr, Op.apply_tr, remove_tr, harris_remove_tr, harris_remove_loop_tr,
      harris_remove_unlink_tr, harris_search_tr, harris_search_loop_tr, harris_walk_tr,
      withTrace, stale_list, ATOMIC_CAS_MB, write_next, deref, get_unmarked_ref_eq,
      is_marked_ref_eq, get_marked_ref_eq]
  exact ⟨h, C18_marked_node_is_frozen _ _ _ _ _ _ h⟩


end Harris
